import Mathlib

/-!
Film-festival scheduling: the exhaustive, greedy and GRASP solvers.

A shallow embedding of `exh.cc`, `greedy.cc` and `mh.cc`.

* `vector<vector<int>>` (`Organization`) is a list of rows (days), each a list of film codes.
* `vector<vector<bool>>` (`relations_graph`) is a list of rows of booleans; an entry is read
  with `incompatible`.
* `int` values that the programs keep non-negative (film codes, sizes, day counts) are `Nat`;
  the conflict counters of `mh.cc`, which are updated with signed differences, are `Int`.
* Global variables are explicit parameters; mutated globals are fields of a state record.
* Loops whose number of iterations is known on entry are recursions on the number of
  iterations left; the loops and recursions that may run without end take a bound on the
  number of iterations.
* The library calls `sort`, `shuffle`, `rand` and the floating-point tests of `mh.cc` are
  parameters.
* Vector accesses are list operations. Where an index depends on the input (`read_data`),
  a second form of the function checks every index and returns `none` when one is out of
  range, which is undefined behaviour in the source.
-/

set_option autoImplicit false

/-! ## Shared data model -/

/-- Type `Organization` of the sources: each row is a day, each column a cinema room. -/
abbrev Organization := List (List Nat)

/-- Type `Pair` of the sources: `first` is a film code, `second` its number of restrictions. -/
abbrev Pair := Nat × Nat

/-- Type of the global `relations_graph`. -/
abbrev Graph := List (List Bool)

/-- The entry `relations_graph[a][b]`. -/
def incompatible (relations_graph : Graph) (a b : Nat) : Bool :=
  (relations_graph.getD a []).getD b false

/-- The conflict relation is symmetric. -/
def symmetric (relations_graph : Graph) : Prop :=
  ∀ a b, incompatible relations_graph a b = incompatible relations_graph b a

/-- The conflict relation is irreflexive. -/
def irreflexive (relations_graph : Graph) : Prop :=
  ∀ a, incompatible relations_graph a a = false

/-- The row `actual[day]`. -/
def day_row (actual : Organization) (day : Nat) : List Nat :=
  actual.getD day []

/-- The statement `actual[day].push_back(code)`. -/
def push_back_at : Organization → Nat → Nat → Organization
  | [], _, _ => []
  | row :: rest, 0, code => (row ++ [code]) :: rest
  | row :: rest, day + 1, code => row :: push_back_at rest day code

/-- The statement `actual[day].pop_back()`. -/
def pop_back_at : Organization → Nat → Organization
  | [], _ => []
  | row :: rest, 0 => row.dropLast :: rest
  | row :: rest, day + 1 => row :: pop_back_at rest day

/-! ## greedy.cc -/

namespace Greedy

/-- The loop of `can_be_projected` over the rooms of one day, in `greedy.cc`:
`if (relations_graph[code][actual[day][room]]) return false;`. -/
def rooms_loop (relations_graph : Graph) (code : Nat) : List Nat → Bool
  | [] => true
  | film :: rest =>
    if incompatible relations_graph code film then false
    else rooms_loop relations_graph code rest

/-- Function `can_be_projected` of `greedy.cc`. -/
def can_be_projected (relations_graph : Graph) (actual : Organization) (day code : Nat) : Bool :=
  rooms_loop relations_graph code (day_row actual day)

/-- The loop over the days in `schedule_festival`:
`for (day = 0; day < actual.size() and not projected; ++day)`.
The first argument bounds the number of iterations still to run; the result is the schedule
together with the flag `projected`. -/
def days_loop (relations_graph : Graph) (n_CinRooms code : Nat) :
    Nat → Nat → Organization → Organization × Bool
  | 0, _, actual => (actual, false)
  | steps + 1, day, actual =>
    if day < actual.length then
      if (day_row actual day).length < n_CinRooms
          && can_be_projected relations_graph actual day code then
        (push_back_at actual day code, true)
      else days_loop relations_graph n_CinRooms code steps (day + 1) actual
    else (actual, false)

/-- One iteration of the loop over the films in `schedule_festival`: the film `code` is
placed in the first day found by `days_loop`, or else in a new day. -/
def place_film (relations_graph : Graph) (n_CinRooms : Nat) (actual : Organization)
    (code : Nat) : Organization :=
  let r := days_loop relations_graph n_CinRooms code actual.length 0 actual
  if r.2 then r.1 else r.1 ++ [[code]]

/-- Function `schedule_festival` of `greedy.cc`, with `n_films = restrictions.size()`:
the films are taken in the order of `restrictions`; the result is the schedule handed
to `write`. -/
def schedule_festival (relations_graph : Graph) (n_CinRooms : Nat) (restrictions : List Pair)
    (actual : Organization) : Organization :=
  restrictions.foldl (fun acc p => place_film relations_graph n_CinRooms acc p.1) actual

end Greedy

/-! ## exh.cc: the feasibility test -/

namespace Exh

/-- The loop of `can_be_projected` over the rooms of one day, in `exh.cc`:
`if (relations_graph[actual[day][i]][code]) return false;`. -/
def rooms_loop (relations_graph : Graph) (code : Nat) : List Nat → Bool
  | [] => true
  | film :: rest =>
    if incompatible relations_graph film code then false
    else rooms_loop relations_graph code rest

/-- Function `can_be_projected` of `exh.cc`. -/
def can_be_projected (relations_graph : Graph) (actual : Organization) (day code : Nat) : Bool :=
  rooms_loop relations_graph code (day_row actual day)

end Exh

/-! ## mh.cc: the feasibility test and the conflict counter -/

namespace Mh

/-- The loop of `can_be_projected` over the rooms of one day, in `mh.cc`:
`if (relations_graph[code][actual[day][room]]) return false;`. -/
def rooms_loop (relations_graph : Graph) (code : Nat) : List Nat → Bool
  | [] => true
  | film :: rest =>
    if incompatible relations_graph code film then false
    else rooms_loop relations_graph code rest

/-- Function `can_be_projected` of `mh.cc`. -/
def can_be_projected (relations_graph : Graph) (actual : Organization) (day code : Nat) : Bool :=
  rooms_loop relations_graph code (day_row actual day)

end Mh

/-! ## Predicates used in the statements -/

namespace Greedy

/-- The test made on a day by the loop over the days. -/
def qualifies (relations_graph : Graph) (n_CinRooms : Nat) (actual : Organization)
    (code day : Nat) : Prop :=
  (day_row actual day).length < n_CinRooms ∧
    ∀ film ∈ day_row actual day, incompatible relations_graph code film = false

/-- No day holds two distinct films in conflict. -/
def feasible (relations_graph : Graph) (actual : Organization) : Prop :=
  ∀ day ∈ actual, ∀ a ∈ day, ∀ b ∈ day, a ≠ b → incompatible relations_graph a b = false

end Greedy

/-- Conflict matrix of three films in which only films 0 and 1 are in conflict. -/
def graph_AB : Graph := [[false, true, false], [true, false, false], [false, false, false]]

/-! ## read_data (exh.cc and greedy.cc) -/

/-- The input file as the sequence of tokens read by `read_data`: the `n_films` film names,
the `n_PairsFilms` pairs of names, the `n_CinRooms` room names. -/
structure Input where
  films : List String
  pairs : List (String × String)
  CinRooms : List String

/-- The global `film_code`, a `map<string, int>`, as an association list. -/
abbrev FilmCode := List (String × Nat)

/-- The statement `film_code.insert({name, i})`: no effect when the key is present. -/
def film_code_insert (film_code : FilmCode) (name : String) (i : Nat) : FilmCode :=
  match film_code.lookup name with
  | some _ => film_code
  | none => film_code ++ [(name, i)]

/-- The expression `film_code[name]`: the value read and the map after the access;
a missing key is inserted with value 0. -/
def film_code_index (film_code : FilmCode) (name : String) : Nat × FilmCode :=
  match film_code.lookup name with
  | some code => (code, film_code)
  | none => (0, film_code ++ [(name, 0)])

/-- Function `comparator`. -/
def comparator (a b : Pair) : Bool :=
  decide (a.2 > b.2)

/-- The globals set by `read_data`. -/
structure Data where
  n_films : Nat
  films : List String
  film_code : FilmCode
  restrictions : List Pair
  relations_graph : Graph
  n_CinRooms : Nat
  CinRooms : List String

/-- First loop of `read_data`, one iteration: film `name` is read at index `i`. -/
def read_film (st : List String × FilmCode × List Pair) (name : String) (i : Nat) :
    List String × FilmCode × List Pair :=
  let film_code := film_code_insert st.2.1 name i
  let films := st.1.set i name
  let c := film_code_index film_code name
  (films, c.2, st.2.2.set c.1 (c.1, 0))

/-- First loop of `read_data`: `for (int i = 0; i < n_films; ++i)`. -/
def read_films : List String → Nat → List String × FilmCode × List Pair →
    List String × FilmCode × List Pair
  | [], _, st => st
  | name :: rest, i, st => read_films rest (i + 1) (read_film st name i)

/-- The statement `restrictions[code].second += 1`, for `code` an index of `restrictions`.
For an index out of range, where the source has undefined behaviour, the vector is returned
as it is; `add_restriction_checked` tells the two cases apart. -/
def add_restriction (restrictions : List Pair) (code : Nat) : List Pair :=
  restrictions.set code ((restrictions.getD code (0, 0)).1, (restrictions.getD code (0, 0)).2 + 1)

/-- The statement `relations_graph[a][b] = true`, for `a` and `b` indices of the matrix.
For an index out of range, where the source has undefined behaviour, the matrix is returned
as it is; `set_incompatible_checked` tells the two cases apart. -/
def set_incompatible (relations_graph : Graph) (a b : Nat) : Graph :=
  relations_graph.set a ((relations_graph.getD a []).set b true)

/-- Second loop of `read_data`, one iteration: the pair `film1 film2` is read. -/
def read_pair (st : FilmCode × List Pair × Graph) (pair : String × String) :
    FilmCode × List Pair × Graph :=
  let c1 := film_code_index st.1 pair.1
  let c2 := film_code_index c1.2 pair.2
  let restrictions := add_restriction (add_restriction st.2.1 c1.1) c2.1
  let relations_graph := set_incompatible (set_incompatible st.2.2 c1.1 c2.1) c2.1 c1.1
  (c2.2, restrictions, relations_graph)

/-- Function `read_data` of `exh.cc` and `greedy.cc` (same text in both). The library call
`sort(restrictions.begin(), restrictions.end(), comparator)` is the parameter `sort`. Every
index used is in range unless no film is declared and a pair is listed; `read_data_checked`
is the same function with the indices checked. -/
def read_data (sort : List Pair → List Pair) (input : Input) : Data :=
  let n_films := input.films.length
  let s1 := read_films input.films 0
    (List.replicate n_films "", [], List.replicate n_films (0, 0))
  let s2 := input.pairs.foldl read_pair
    (s1.2.1, s1.2.2, List.replicate n_films (List.replicate n_films false))
  { n_films := n_films
    films := s1.1
    film_code := s2.1
    restrictions := sort s2.2.1
    relations_graph := s2.2.2
    n_CinRooms := input.CinRooms.length
    CinRooms := input.CinRooms }

/-- The matrix has `n` rows of `n` entries. -/
def square (n : Nat) (relations_graph : Graph) : Prop :=
  relations_graph.length = n ∧ ∀ row ∈ relations_graph, row.length = n

/-- What `std::sort` with `comparator` guarantees: the result is a permutation of the
argument in which no element comes after one that `comparator` puts after it. -/
def sorts_by_comparator (sort : List Pair → List Pair) : Prop :=
  ∀ l, (sort l).Perm l ∧ (sort l).Pairwise (fun a b => comparator b a = false)

/-- A sort that meets `sorts_by_comparator`: stable insertion sort with `comparator`. -/
def insertion_sort (l : List Pair) : List Pair :=
  l.insertionSort (fun a b => a.2 ≥ b.2)

namespace Greedy

/-- Function `main` of `greedy.cc`: the schedule handed to `write`. -/
def main (sort : List Pair → List Pair) (input : Input) : Organization :=
  let data := read_data sort input
  schedule_festival data.relations_graph data.n_CinRooms data.restrictions []

end Greedy

/-- The instance of the example: films A, B, C, the pair (A, B), one room. -/
def input_ABC_one_room : Input :=
  { films := ["A", "B", "C"], pairs := [("A", "B")], CinRooms := ["R1"] }

/-! ## read_data (mh.cc) and the quantities used to state what `read_data` builds -/

namespace Mh

/-- The globals set by `read_data` of `mh.cc`. -/
structure Data where
  n_films : Nat
  films : List String
  film_code : FilmCode
  relations_graph : Graph
  n_CinRooms : Nat
  CinRooms : List String

/-- First loop of `read_data` of `mh.cc`, one iteration: film `name` is read at index `i`. -/
def read_film (st : List String × FilmCode) (name : String) (i : Nat) :
    List String × FilmCode :=
  (st.1.set i name, film_code_insert st.2 name i)

/-- First loop of `read_data` of `mh.cc`: `for (int i = 0; i < n_films; ++i)`. -/
def read_films : List String → Nat → List String × FilmCode → List String × FilmCode
  | [], _, st => st
  | name :: rest, i, st => read_films rest (i + 1) (read_film st name i)

/-- Second loop of `read_data` of `mh.cc`, one iteration: the pair `film1 film2` is read. -/
def read_pair (st : FilmCode × Graph) (pair : String × String) : FilmCode × Graph :=
  let c1 := film_code_index st.1 pair.1
  let c2 := film_code_index c1.2 pair.2
  (c2.2, set_incompatible (set_incompatible st.2 c1.1 c2.1) c2.1 c1.1)

/-- Function `read_data` of `mh.cc`. -/
def read_data (input : Input) : Data :=
  let n_films := input.films.length
  let s1 := read_films input.films 0 (List.replicate n_films "", [])
  let s2 := input.pairs.foldl read_pair
    (s1.2, List.replicate n_films (List.replicate n_films false))
  { n_films := n_films
    films := s1.1
    film_code := s2.1
    relations_graph := s2.2
    n_CinRooms := input.CinRooms.length
    CinRooms := input.CinRooms }

end Mh

/-- The code that `film_code[name]` yields once the films are read: the index of the first
declaration of `name`, and 0 for a name that is not declared. -/
def code_of (films : List String) (name : String) : Nat :=
  if name ∈ films then films.indexOf name else 0

/-- The pair of codes read for a pair of names. -/
def pair_codes (films : List String) (pair : String × String) : Nat × Nat :=
  (code_of films pair.1, code_of films pair.2)

/-- The statements `relations_graph[a][b] = true; relations_graph[b][a] = true;`. -/
def set_both (relations_graph : Graph) (codes : Nat × Nat) : Graph :=
  set_incompatible (set_incompatible relations_graph codes.1 codes.2) codes.2 codes.1

/-- The statements `restrictions[a].second += 1; restrictions[b].second += 1;`. -/
def add_both (restrictions : List Pair) (codes : Nat × Nat) : List Pair :=
  add_restriction (add_restriction restrictions codes.1) codes.2

/-- The number of distinct films `j` in `[0, n_films)` with `relations_graph[film][j]` true. -/
def degree_count (relations_graph : Graph) (n_films film : Nat) : Nat :=
  ((List.range n_films).filter (fun j => incompatible relations_graph film j)).length

/-- Every name of the pair list is a declared film name. -/
def declared (input : Input) : Prop :=
  ∀ pair ∈ input.pairs, pair.1 ∈ input.films ∧ pair.2 ∈ input.films

/-- No pair of the list names the same film twice, and no pair is listed twice, in either
order. -/
def simple_pairs (pairs : List (String × String)) : Prop :=
  (∀ pair ∈ pairs, pair.1 ≠ pair.2) ∧
    pairs.Pairwise (fun p q => ¬ ((p.1 = q.1 ∧ p.2 = q.2) ∨ (p.1 = q.2 ∧ p.2 = q.1)))

/-- The map `film_code` holds, for every name, the code `code_of` or no entry, the latter
only for names that are not declared. -/
def codes_ok (films : List String) (film_code : FilmCode) : Prop :=
  ∀ name, film_code.lookup name = some (code_of films name) ∨
    (film_code.lookup name = none ∧ name ∉ films)

/-- The map `film_code` after the films `pre` are read: each declared name has the index of
its first declaration, no other name has an entry. -/
def prefix_ok (pre : List String) (film_code : FilmCode) : Prop :=
  ∀ name, film_code.lookup name = if name ∈ pre then some (pre.indexOf name) else none

/-- Distinct unordered pairs of codes. -/
def distinct_codes (c d : Nat × Nat) : Prop :=
  ¬ ((c.1 = d.1 ∧ c.2 = d.2) ∨ (c.1 = d.2 ∧ c.2 = d.1))

instance (input : Input) : Decidable (declared input) := by
  unfold declared
  infer_instance

instance (pairs : List (String × String)) : Decidable (simple_pairs pairs) := by
  unfold simple_pairs
  infer_instance

/-! ## read_data with the vector indices checked -/

/-- The statement `restrictions[code].second += 1` with its index checked: `none` when
`code` is not an index of `restrictions`, where the source has undefined behaviour. -/
def add_restriction_checked (restrictions : List Pair) (code : Nat) : Option (List Pair) :=
  if code < restrictions.length then some (add_restriction restrictions code) else none

/-- The statement `relations_graph[a][b] = true` with its indices checked: `none` when `a`
is not a row of `relations_graph` or `b` not an index of that row, where the source has
undefined behaviour. -/
def set_incompatible_checked (relations_graph : Graph) (a b : Nat) : Option Graph :=
  if a < relations_graph.length ∧ b < (relations_graph.getD a []).length then
    some (set_incompatible relations_graph a b)
  else none

/-- First loop of `read_data`, one iteration, with the indices of `films[i]` and
`restrictions[film_code[name]]` checked. -/
def read_film_checked (st : List String × FilmCode × List Pair) (name : String) (i : Nat) :
    Option (List String × FilmCode × List Pair) :=
  if i < st.1.length ∧
      (film_code_index (film_code_insert st.2.1 name i) name).1 < st.2.2.length then
    some (read_film st name i)
  else none

/-- First loop of `read_data` with the indices checked. -/
def read_films_checked : List String → Nat → List String × FilmCode × List Pair →
    Option (List String × FilmCode × List Pair)
  | [], _, st => some st
  | name :: rest, i, st =>
    match read_film_checked st name i with
    | none => none
    | some st1 => read_films_checked rest (i + 1) st1

/-- Second loop of `read_data`, one iteration, with the indices `restrictions[code1]`,
`restrictions[code2]`, `relations_graph[code1][code2]` and `relations_graph[code2][code1]`
checked, in the order of the statements. -/
def read_pair_checked (st : FilmCode × List Pair × Graph) (pair : String × String) :
    Option (FilmCode × List Pair × Graph) :=
  let c1 := film_code_index st.1 pair.1
  let c2 := film_code_index c1.2 pair.2
  match add_restriction_checked st.2.1 c1.1 with
  | none => none
  | some r1 =>
    match add_restriction_checked r1 c2.1 with
    | none => none
    | some r2 =>
      match set_incompatible_checked st.2.2 c1.1 c2.1 with
      | none => none
      | some g1 =>
        match set_incompatible_checked g1 c2.1 c1.1 with
        | none => none
        | some g2 => some (c2.2, r2, g2)

/-- Second loop of `read_data` with the indices checked. -/
def read_pairs_checked : List (String × String) → FilmCode × List Pair × Graph →
    Option (FilmCode × List Pair × Graph)
  | [], st => some st
  | pair :: rest, st =>
    match read_pair_checked st pair with
    | none => none
    | some st1 => read_pairs_checked rest st1

/-- Function `read_data` of `exh.cc` and `greedy.cc` with every vector index checked: `none`
when an index is out of range, where the source has undefined behaviour. -/
def read_data_checked (sort : List Pair → List Pair) (input : Input) : Option Data :=
  let n_films := input.films.length
  match read_films_checked input.films 0
      (List.replicate n_films "", [], List.replicate n_films (0, 0)) with
  | none => none
  | some s1 =>
    match read_pairs_checked input.pairs
        (s1.2.1, s1.2.2, List.replicate n_films (List.replicate n_films false)) with
    | none => none
    | some s2 =>
      some
        { n_films := n_films
          films := s1.1
          film_code := s2.1
          restrictions := sort s2.2.1
          relations_graph := s2.2.2
          n_CinRooms := input.CinRooms.length
          CinRooms := input.CinRooms }

namespace Mh

/-- First loop of `read_data` of `mh.cc`, one iteration, with the index of `films[i]`
checked. -/
def read_film_checked (st : List String × FilmCode) (name : String) (i : Nat) :
    Option (List String × FilmCode) :=
  if i < st.1.length then some (read_film st name i) else none

/-- First loop of `read_data` of `mh.cc` with the indices checked. -/
def read_films_checked : List String → Nat → List String × FilmCode →
    Option (List String × FilmCode)
  | [], _, st => some st
  | name :: rest, i, st =>
    match read_film_checked st name i with
    | none => none
    | some st1 => read_films_checked rest (i + 1) st1

/-- Second loop of `read_data` of `mh.cc`, one iteration, with the indices
`relations_graph[code1][code2]` and `relations_graph[code2][code1]` checked. -/
def read_pair_checked (st : FilmCode × Graph) (pair : String × String) :
    Option (FilmCode × Graph) :=
  let c1 := film_code_index st.1 pair.1
  let c2 := film_code_index c1.2 pair.2
  match set_incompatible_checked st.2 c1.1 c2.1 with
  | none => none
  | some g1 =>
    match set_incompatible_checked g1 c2.1 c1.1 with
    | none => none
    | some g2 => some (c2.2, g2)

/-- Second loop of `read_data` of `mh.cc` with the indices checked. -/
def read_pairs_checked : List (String × String) → FilmCode × Graph →
    Option (FilmCode × Graph)
  | [], st => some st
  | pair :: rest, st =>
    match read_pair_checked st pair with
    | none => none
    | some st1 => read_pairs_checked rest st1

/-- Function `read_data` of `mh.cc` with every vector index checked: `none` when an index is
out of range, where the source has undefined behaviour. -/
def read_data_checked (input : Input) : Option Data :=
  let n_films := input.films.length
  match read_films_checked input.films 0 (List.replicate n_films "", []) with
  | none => none
  | some s1 =>
    match read_pairs_checked input.pairs
        (s1.2, List.replicate n_films (List.replicate n_films false)) with
    | none => none
    | some s2 =>
      some
        { n_films := n_films
          films := s1.1
          film_code := s2.1
          relations_graph := s2.2
          n_CinRooms := input.CinRooms.length
          CinRooms := input.CinRooms }

end Mh

/-- No film is declared and one pair (X, Y) is listed. -/
def input_no_films : Input :=
  { films := [], pairs := [("X", "Y")], CinRooms := ["R1"] }

/-! ## exh.cc: the search -/

namespace Exh

/-- One call of `write`: the value of `BestDays` that it prints and its argument `best`. -/
structure Written where
  days : Nat
  best : Organization
deriving DecidableEq

/-- The variables that `schedule_festival` changes: the schedule `actual` passed by
reference, the global `BestDays`, and the calls of `write` made so far. -/
structure State where
  actual : Organization
  BestDays : Nat
  written : List Written
deriving DecidableEq

/-- Function `write` of `exh.cc`, called on `actual`. -/
def write (st : State) : State :=
  { st with written := st.written ++ [{ days := st.BestDays, best := st.actual }] }

/-- The loop `for (int i = 0; i < int(actual.size()); ++i)` of `schedule_festival`.
`call` is the recursive call `schedule_festival(actual, ActualDays, film_index+1)`; the first
numeric argument bounds the iterations still to run, and `none` means that this bound or the
bound of a recursive call was reached. -/
def for_days (call : State → Option State) (relations_graph : Graph) (n_CinRooms code : Nat) :
    Nat → Nat → State → Option State
  | 0, i, st => if i < st.actual.length then none else some st
  | steps + 1, i, st =>
    if i < st.actual.length then
      if (day_row st.actual i).length < n_CinRooms
          && can_be_projected relations_graph st.actual i code then
        match call { st with actual := push_back_at st.actual i code } with
        | none => none
        | some st1 =>
          for_days call relations_graph n_CinRooms code steps (i + 1)
            { st1 with actual := pop_back_at st1.actual i }
      else for_days call relations_graph n_CinRooms code steps (i + 1) st
    else some st

/-- Function `schedule_festival` of `exh.cc`. The first numeric argument bounds the depth of
the recursion; `none` means that the bound was reached. -/
def schedule_festival (relations_graph : Graph) (n_CinRooms n_films : Nat)
    (restrictions : List Pair) : Nat → State → Nat → Nat → Option State
  | 0, _, _, _ => none
  | fuel + 1, st, ActualDays, film_index =>
    if ActualDays < st.BestDays then
      if film_index = n_films then
        some (write { st with BestDays := ActualDays })
      else
        match for_days
            (fun s => schedule_festival relations_graph n_CinRooms n_films restrictions fuel s
              ActualDays (film_index + 1))
            relations_graph n_CinRooms (restrictions.getD film_index (0, 0)).1
            st.actual.length 0 st with
        | none => none
        | some st1 =>
          match schedule_festival relations_graph n_CinRooms n_films restrictions fuel
              { st1 with actual := st1.actual ++ [[(restrictions.getD film_index (0, 0)).1]] }
              (ActualDays + 1) (film_index + 1) with
          | none => none
          | some st2 => some { st2 with actual := st2.actual.dropLast }
    else some st

/-- The run of `schedule_festival` started as in `main`: `actual` empty, `BestDays = n_films`,
`ActualDays = 0`, `film_index = 0`; the recursion is at most `n_films + 1` calls deep. -/
def run (relations_graph : Graph) (n_CinRooms n_films : Nat) (restrictions : List Pair) :
    Option State :=
  schedule_festival relations_graph n_CinRooms n_films restrictions (n_films + 1)
    { actual := [], BestDays := n_films, written := [] } 0 0

/-- Function `main` of `exh.cc`. -/
def main (sort : List Pair → List Pair) (input : Input) : Option State :=
  let data := read_data sort input
  run data.relations_graph data.n_CinRooms data.n_films data.restrictions

/-- The test made on day `day` by the loop of `schedule_festival`. -/
def qualifies (relations_graph : Graph) (n_CinRooms : Nat) (actual : Organization)
    (code day : Nat) : Prop :=
  (day_row actual day).length < n_CinRooms ∧
    ∀ film ∈ day_row actual day, incompatible relations_graph film code = false

instance (relations_graph : Graph) (n_CinRooms : Nat) (actual : Organization)
    (code day : Nat) : Decidable (qualifies relations_graph n_CinRooms actual code day) := by
  unfold qualifies
  infer_instance

/-- The loop over the days, on values: the bound and the calls of `write` produced by the
recursive calls `below` made for the qualifying days from `i` on. -/
def search_days (below : Organization → Nat → Nat × List Written) (relations_graph : Graph)
    (n_CinRooms code : Nat) (actual : Organization) : Nat → Nat → Nat → Nat × List Written
  | 0, _, best => (best, [])
  | steps + 1, i, best =>
    if qualifies relations_graph n_CinRooms actual code i then
      let r1 := below (push_back_at actual i code) best
      let r2 := search_days below relations_graph n_CinRooms code actual steps (i + 1) r1.1
      (r2.1, r1.2 ++ r2.2)
    else search_days below relations_graph n_CinRooms code actual steps (i + 1) best

/-- The search on values: for the films `todo` still to place, the partial schedule `actual`
and the bound `best` on entry, the bound on return and the calls of `write` made. -/
def search (relations_graph : Graph) (n_CinRooms : Nat) :
    List Nat → Organization → Nat → Nat × List Written
  | [], actual, best =>
    if actual.length < best then (actual.length, [{ days := actual.length, best := actual }])
    else (best, [])
  | code :: todo, actual, best =>
    if actual.length < best then
      let r1 := search_days (search relations_graph n_CinRooms todo) relations_graph n_CinRooms
        code actual actual.length 0 best
      let r2 := search relations_graph n_CinRooms todo (actual ++ [[code]]) r1.1
      (r2.1, r1.2 ++ r2.2)
    else (best, [])

/-- The state reached from `st` by a part of the search that restores `actual` and yields
the bound and the calls of `write` given by `r`. -/
def after (st : State) (r : Nat × List Written) : State :=
  { actual := st.actual, BestDays := r.1, written := st.written ++ r.2 }

/-- What a part of the search may do to the bound `best` it starts from: `r.1` is the bound
on return, `r.2` the calls of `write`, each for a schedule accepted by `good`. -/
def produces (good : Organization → Prop) (best : Nat) (r : Nat × List Written) : Prop :=
  r.1 ≤ best ∧
    (∀ w ∈ r.2, w.days = w.best.length ∧ w.days < best ∧ r.1 ≤ w.days ∧ good w.best) ∧
    (r.2.map Written.days).Pairwise (fun a b => b < a) ∧
    (r.2 = [] → r.1 = best) ∧
    (∀ w, r.2.getLast? = some w → r.1 = w.days)

/-- The property of the partial schedules met by the search: every day is non-empty and has
at most `max 1 n_CinRooms` films, no film of a day is in conflict with a later film of the
day, and the films placed together with those still to place are the films `films`. -/
def node_ok (relations_graph : Graph) (n_CinRooms : Nat) (films : List Nat)
    (todo : List Nat) (actual : Organization) : Prop :=
  (∀ day ∈ actual, 1 ≤ day.length ∧ day.length ≤ max 1 n_CinRooms) ∧
    (∀ day ∈ actual, day.Pairwise (fun a b => incompatible relations_graph a b = false)) ∧
    (actual.flatten ++ todo).Perm films

/-- The partial schedule `actual` agrees with the complete schedule `target`: its rows are
parts of distinct rows of `target`, the row numbers being listed in `labels`. -/
def agrees (target actual : Organization) (labels : List Nat) : Prop :=
  labels.Nodup ∧
    List.Forall₂ (fun row l => l < target.length ∧ ∀ x ∈ row, x ∈ day_row target l)
      actual labels

/-- A complete valid schedule for films `0..n_films-1`: every film exactly once, no day
with more than `n_CinRooms` films, no day with two distinct films in conflict. -/
def valid_schedule (relations_graph : Graph) (n_CinRooms n_films : Nat)
    (schedule : Organization) : Prop :=
  schedule.flatten.Perm (List.range n_films) ∧
    (∀ day ∈ schedule, day.length ≤ n_CinRooms) ∧
    (∀ day ∈ schedule, ∀ a ∈ day, ∀ b ∈ day, a ≠ b → incompatible relations_graph a b = false)

end Exh

/-- The instance of the example with two rooms. -/
def input_ABC_two_rooms : Input :=
  { films := ["A", "B", "C"], pairs := [("A", "B")], CinRooms := ["R1", "R2"] }

/-- An instance with one film and one room. -/
def input_one_film : Input :=
  { films := ["A"], pairs := [], CinRooms := ["R1"] }

/-! ## mh.cc: GRASP, `improve` and `solve_incompatibilities` -/

namespace Mh

/-- The loop of `how_many_incompatibilities` over the rooms of one day:
`if (relations_graph[code][actual[day][room]]) incompatibilities += 1;`. -/
def count_loop (relations_graph : Graph) (code : Nat) : List Nat → Nat
  | [] => 0
  | film :: rest =>
    (if incompatible relations_graph code film then 1 else 0)
      + count_loop relations_graph code rest

/-- Function `how_many_incompatibilities`. -/
def how_many_incompatibilities (relations_graph : Graph) (actual : Organization)
    (day code : Nat) : Nat :=
  count_loop relations_graph code (day_row actual day)

/-- The loop over the days in `generate_initial_solution`:
`for (day = 0; day < actual.size() and not projected; ++day)`. -/
def days_loop (relations_graph : Graph) (n_CinRooms code : Nat) :
    Nat → Nat → Organization → Organization × Bool
  | 0, _, actual => (actual, false)
  | steps + 1, day, actual =>
    if day < actual.length then
      if (day_row actual day).length < n_CinRooms
          && can_be_projected relations_graph actual day code then
        (push_back_at actual day code, true)
      else days_loop relations_graph n_CinRooms code steps (day + 1) actual
    else (actual, false)

/-- One iteration of the loop over the films in `generate_initial_solution`. -/
def place_film (relations_graph : Graph) (n_CinRooms : Nat) (actual : Organization)
    (code : Nat) : Organization :=
  let r := days_loop relations_graph n_CinRooms code actual.length 0 actual
  if r.2 then r.1 else r.1 ++ [[code]]

/-- What `mh.cc` takes from the C library and from floating-point arithmetic.
`rand i` is the value of the `i`-th call of `rand()`; `shuffle` is the library call
`shuffle(p.begin(), p.end(), default_random_engine())`; `hot k` is the test `T > 0.0000005`
after `k` executions of `T *= 0.999` from `T = 0.1`; `accept delta k r` is the test
`random_value <= p` for `p = exp(-delta/T)` at that `T` and `random_value` computed from
the value `r` of `rand()`. -/
structure Library where
  rand : Nat → Nat
  shuffle : List Nat → List Nat
  hot : Nat → Bool
  accept : Int → Nat → Nat → Bool

/-- Function `generate_initial_solution`. -/
def generate_initial_solution (lib : Library) (relations_graph : Graph)
    (n_CinRooms n_films : Nat) : Organization :=
  (lib.shuffle (List.range n_films)).foldl
    (fun acc code => place_film relations_graph n_CinRooms acc code) []

/-- The variables changed while `GRASP` runs: the schedule `actual`, the counters `day_incomp`
and `incompatibilities` of one iteration, the global `best_days`, the arguments of the calls of
`write` made so far, and the number of calls of `rand()` made so far. -/
structure State where
  actual : Organization
  day_incomp : List Int
  incompatibilities : Int
  best_days : Nat
  written : List Organization
  draws : Nat

/-- How a part of the program ends: it returns (`done`, with the returned value), it is cut
because the bound on the number of loop iterations is reached (`timeout`), or it reaches an
operation without defined behaviour (`undefined`). The state reached is kept in each case. -/
inductive Res (α : Type) where
  | done (st : State) (value : α)
  | timeout (st : State)
  | undefined (st : State)

/-- The state in which a part of the program ends. -/
def Res.state {α : Type} : Res α → State
  | .done st _ => st
  | .timeout st => st
  | .undefined st => st

/-- Function `write` of `mh.cc`, called on `actual`. -/
def write (st : State) : State :=
  { st with written := st.written ++ [st.actual] }

/-- The statement `day_incomp[day] += delta`. -/
def add_at (day_incomp : List Int) (day : Nat) (delta : Int) : List Int :=
  day_incomp.set day (day_incomp.getD day 0 + delta)

/-- The statement `actual[day][room] = film`. -/
def set_film (actual : Organization) (day room film : Nat) : Organization :=
  actual.set day ((day_row actual day).set room film)

/-- The loop `for (int i = 0; i < day_to_remove; ++i)` of `improve`, run for `steps` more
days from day `i`; the triple is `new_incompatibilities`, `day_to_complete`, `empty_spaces`. -/
def spaces_loop (relations_graph : Graph) (n_CinRooms : Nat) (actual : Organization)
    (film_to_remove : Nat) : Nat → Nat → Nat × Nat × Bool → Nat × Nat × Bool
  | 0, _, acc => acc
  | steps + 1, i, acc =>
    if (day_row actual i).length < n_CinRooms then
      if how_many_incompatibilities relations_graph actual i film_to_remove < acc.1 then
        spaces_loop relations_graph n_CinRooms actual film_to_remove steps (i + 1)
          (how_many_incompatibilities relations_graph actual i film_to_remove, i, true)
      else spaces_loop relations_graph n_CinRooms actual film_to_remove steps (i + 1) acc
    else spaces_loop relations_graph n_CinRooms actual film_to_remove steps (i + 1) acc

/-- The loop `while (int(actual[day_to_remove].size()) > 0)` of `improve`. At the start of
every iteration `new_incompatibilities` is `1e6` and `empty_spaces` is false. -/
def improve_loop (relations_graph : Graph) (n_CinRooms day_to_remove : Nat) :
    Nat → State → Res Unit
  | 0, st => .timeout st
  | fuel + 1, st =>
    if (day_row st.actual day_to_remove).length > 0 then
      let film_to_remove :=
        (day_row st.actual day_to_remove).getD ((day_row st.actual day_to_remove).length - 1) 0
      let found := spaces_loop relations_graph n_CinRooms st.actual film_to_remove
        day_to_remove 0 (1000000, 0, false)
      if found.2.2 then
        improve_loop relations_graph n_CinRooms day_to_remove fuel
          { st with
            day_incomp := add_at st.day_incomp found.2.1 found.1
            incompatibilities := st.incompatibilities + found.1
            actual := push_back_at (pop_back_at st.actual day_to_remove) found.2.1
              film_to_remove }
      else if st.actual.length < st.best_days then
        improve_loop relations_graph n_CinRooms day_to_remove fuel
          (write { st with best_days := st.actual.length })
      else improve_loop relations_graph n_CinRooms day_to_remove fuel st
    else .done st ()

/-- Function `improve`. With an empty schedule `day_to_remove` is `-1` and `actual[-1]` is
read. -/
def improve (relations_graph : Graph) (n_CinRooms fuel : Nat) (st : State) : Res Unit :=
  if st.actual.length = 0 then .undefined st
  else
    match improve_loop relations_graph n_CinRooms (st.actual.length - 1) fuel st with
    | .done st1 _ =>
      if (day_row st1.actual (st.actual.length - 1)).length = 0 then
        .done { st1 with actual := st1.actual.dropLast, day_incomp := st1.day_incomp.dropLast } ()
      else .done st1 ()
    | .timeout st1 => .timeout st1
    | .undefined st1 => .undefined st1

/-- The first loop of `solve_incompatibilities`: the first day `i` with `day_incomp[i] > 0`,
if there is one (otherwise `day_to_solve` is not initialised). -/
def first_incomp : List Int → Nat → Option Nat
  | [], _ => none
  | count :: rest, i => if count > 0 then some i else first_incomp rest (i + 1)

/-- The loop `do random_day = rand()%int(actual.size()); while (random_day == day_to_solve)`:
the day drawn and the number of calls of `rand()` made after it. -/
def random_day_loop (lib : Library) (size day_to_solve : Nat) : Nat → Nat → Option (Nat × Nat)
  | 0, _ => none
  | fuel + 1, draws =>
    if lib.rand draws % size = day_to_solve then
      random_day_loop lib size day_to_solve fuel (draws + 1)
    else some (lib.rand draws % size, draws + 1)

/-- The body of `if (old_incompatibilities1 != 0)` in `solve_incompatibilities`, after
`random_day` is drawn: the swap is proposed and then accepted or undone. `k` counts the
executions of `T *= 0.999` so far. -/
def propose (lib : Library) (relations_graph : Graph) (day_to_solve film_index : Nat)
    (old_incompatibilities1 random_day k : Nat) (st : State) : State :=
  let random_film := lib.rand st.draws % (day_row st.actual random_day).length
  let old_incompatibilities2 := how_many_incompatibilities relations_graph st.actual random_day
    ((day_row st.actual random_day).getD random_film 0)
  let aux := (day_row st.actual day_to_solve).getD film_index 0
  let actual1 := set_film st.actual day_to_solve film_index
    ((day_row st.actual random_day).getD random_film 0)
  let actual2 := set_film actual1 random_day random_film aux
  let new_incompatibilities1 := how_many_incompatibilities relations_graph actual2 day_to_solve
    ((day_row actual2 day_to_solve).getD film_index 0)
  let new_incompatibilities2 := how_many_incompatibilities relations_graph actual2 random_day
    ((day_row actual2 random_day).getD random_film 0)
  let new_incompatibilities := new_incompatibilities1 + new_incompatibilities2
  let old_incompatibilities := old_incompatibilities1 + old_incompatibilities2
  let accepted : State :=
    { st with
      actual := actual2
      incompatibilities :=
        st.incompatibilities - (old_incompatibilities : Int) + (new_incompatibilities : Int)
      day_incomp :=
        add_at
          (add_at st.day_incomp day_to_solve
            ((new_incompatibilities1 : Int) - (old_incompatibilities1 : Int)))
          random_day ((new_incompatibilities2 : Int) - (old_incompatibilities2 : Int))
      draws := st.draws + 1 }
  if old_incompatibilities > new_incompatibilities then accepted
  else if lib.accept ((new_incompatibilities : Int) - (old_incompatibilities : Int)) k
      (lib.rand (st.draws + 1)) then
    { accepted with draws := st.draws + 2 }
  else
    { st with
      actual := set_film
        (set_film actual2 random_day random_film ((day_row actual2 day_to_solve).getD film_index 0))
        day_to_solve film_index aux
      draws := st.draws + 2 }

/-- The loop `for (int film_index = 0; film_index < int(actual[day_to_solve].size());
++film_index)` of `solve_incompatibilities`, run for `steps` more films; the value returned
is the number of executions of `T *= 0.999` so far. -/
def films_loop (lib : Library) (relations_graph : Graph) (day_to_solve fuel : Nat) :
    Nat → Nat → Nat → State → Res Nat
  | 0, _, k, st => .done st k
  | steps + 1, film_index, k, st =>
    if how_many_incompatibilities relations_graph st.actual day_to_solve
        ((day_row st.actual day_to_solve).getD film_index 0) ≠ 0 then
      match random_day_loop lib st.actual.length day_to_solve fuel st.draws with
      | none => .timeout st
      | some (random_day, draws) =>
        if (day_row st.actual random_day).length = 0 then .undefined { st with draws := draws }
        else
          films_loop lib relations_graph day_to_solve fuel steps (film_index + 1) (k + 1)
            (propose lib relations_graph day_to_solve film_index
              (how_many_incompatibilities relations_graph st.actual day_to_solve
                ((day_row st.actual day_to_solve).getD film_index 0))
              random_day k { st with draws := draws })
    else films_loop lib relations_graph day_to_solve fuel steps (film_index + 1) k st

/-- The loop `while (incompatibilities > 0 and T > 0.0000005)` of
`solve_incompatibilities`. Without a day with `day_incomp[i] > 0` the variable `day_to_solve`
is read uninitialised, and with `day_to_solve` beyond the schedule `actual[day_to_solve]` is
read out of range. -/
def annealing_loop (lib : Library) (relations_graph : Graph) : Nat → Nat → State → Res Nat
  | 0, _, st => .timeout st
  | fuel + 1, k, st =>
    if st.incompatibilities > 0 && lib.hot k then
      match first_incomp st.day_incomp 0 with
      | none => .undefined st
      | some day_to_solve =>
        if day_to_solve < st.actual.length then
          match films_loop lib relations_graph day_to_solve fuel
              (day_row st.actual day_to_solve).length 0 k st with
          | .done st1 k1 => annealing_loop lib relations_graph fuel k1 st1
          | .timeout st1 => .timeout st1
          | .undefined st1 => .undefined st1
        else .undefined st
    else .done st k

/-- Function `solve_incompatibilities`. -/
def solve_incompatibilities (lib : Library) (relations_graph : Graph) (fuel : Nat)
    (st : State) : Res Bool :=
  match annealing_loop lib relations_graph fuel 0 st with
  | .done st1 _ =>
    if st1.incompatibilities = 0 then
      if st1.actual.length < st1.best_days then
        .done (write { st1 with best_days := st1.actual.length }) true
      else .done st1 true
    else .done st1 false
  | .timeout st1 => .timeout st1
  | .undefined st1 => .undefined st1

/-- The loop `do improve(...); while (solve_incompatibilities(...));` of `GRASP`. -/
def repair_loop (lib : Library) (relations_graph : Graph) (n_CinRooms : Nat) :
    Nat → State → Res Unit
  | 0, st => .timeout st
  | fuel + 1, st =>
    match improve relations_graph n_CinRooms fuel st with
    | .done st1 _ =>
      match solve_incompatibilities lib relations_graph fuel st1 with
      | .done st2 true => repair_loop lib relations_graph n_CinRooms fuel st2
      | .done st2 false => .done st2 ()
      | .timeout st2 => .timeout st2
      | .undefined st2 => .undefined st2
    | .timeout st1 => .timeout st1
    | .undefined st1 => .undefined st1

/-- Function `GRASP`, `while(true)` cut after `fuel` iterations. -/
def GRASP (lib : Library) (relations_graph : Graph) (n_CinRooms n_films : Nat) :
    Nat → State → Res Unit
  | 0, st => .timeout st
  | fuel + 1, st =>
    let actual := generate_initial_solution lib relations_graph n_CinRooms n_films
    let days := actual.length
    let st1 : State :=
      if days < st.best_days then
        { write { st with actual := actual } with best_days := days }
      else { st with actual := actual }
    match repair_loop lib relations_graph n_CinRooms fuel
        { st1 with incompatibilities := 0, day_incomp := List.replicate days 0 } with
    | .done st2 _ => GRASP lib relations_graph n_CinRooms n_films fuel st2
    | .timeout st2 => .timeout st2
    | .undefined st2 => .undefined st2

/-- The run of `GRASP` started as in `main`: `best_days = n_films`, nothing written. -/
def run (lib : Library) (relations_graph : Graph) (n_CinRooms n_films fuel : Nat) : Res Unit :=
  GRASP lib relations_graph n_CinRooms n_films fuel
    { actual := [], day_incomp := [], incompatibilities := 0, best_days := n_films,
      written := [], draws := 0 }

/-- The number of conflicts inside a day: the pairs of rooms whose films are in conflict. -/
def conflicts (relations_graph : Graph) : List Nat → Nat
  | [] => 0
  | film :: rest => count_loop relations_graph film rest + conflicts relations_graph rest

/-- The calls of `write` made so far are in strictly decreasing number of days, and
`best_days` is the number of days of the last schedule written. -/
def order_ok (st : State) : Prop :=
  (st.written.map List.length).Pairwise (fun a b => b < a) ∧
    (∀ w ∈ st.written, st.best_days ≤ w.length) ∧
    (∀ w, st.written.getLast? = some w → st.best_days = w.length)

/-- No film of a day of the schedule is in conflict with a later film of the day. -/
def conflict_free (relations_graph : Graph) (schedule : Organization) : Prop :=
  ∀ day ∈ schedule, day.Pairwise (fun a b => incompatible relations_graph a b = false)

/-- The counters agree with the schedule: `day_incomp` holds the number of conflicts of each
day and `incompatibilities` is their sum. -/
def counts_ok (relations_graph : Graph) (st : State) : Prop :=
  st.day_incomp = st.actual.map (fun day => (conflicts relations_graph day : Int)) ∧
    st.incompatibilities = st.day_incomp.sum

/-- Every schedule passed to `write` so far is free of conflicts. -/
def feasible_log (relations_graph : Graph) (st : State) : Prop :=
  ∀ w ∈ st.written, conflict_free relations_graph w

/-- The condition kept by the loop of `improve` in a run of `GRASP`: the log is feasible,
the counters are right, `best_days` is at most the number of days, the last day is
`day_to_remove` and it has no conflict. -/
def improve_inv (relations_graph : Graph) (day_to_remove : Nat) (st : State) : Prop :=
  feasible_log relations_graph st ∧ counts_ok relations_graph st ∧
    st.best_days ≤ st.actual.length ∧ st.actual.length = day_to_remove + 1 ∧
    conflicts relations_graph (day_row st.actual day_to_remove) = 0

end Mh

/-- Conflict matrix of six films with the conflicts 5-2, 4-3 and 3-2. -/
def graph_six : Graph :=
  [[false, false, false, false, false, false],
   [false, false, false, false, false, false],
   [false, false, false, true, false, true],
   [false, false, true, false, true, false],
   [false, false, false, true, false, false],
   [false, false, true, false, false, false]]

/-- A library in which `rand()` returns 0, 1, 2, ..., the shuffle reverses, the temperature
test holds for the first fifty values of `T`, and a worse swap is accepted when the value
of `rand()` is even. -/
def library_example : Mh.Library :=
  { rand := fun i => i
    shuffle := fun l => l.reverse
    hot := fun k => decide (k < 50)
    accept := fun _ _ r => r % 2 == 0 }

/-! ## Further concrete instances and conditions used in the statements -/

/-- Conflict matrix of two films without conflict. -/
def graph_none : Graph := [[false, false], [false, false]]

/-- A state of `mh.cc` with two films on one day and all counters zero. -/
def state_no_pairs : Mh.State :=
  { actual := [[0, 1]], day_incomp := [0], incompatibilities := 0, best_days := 2,
    written := [], draws := 0 }

/-- A state of `mh.cc` with two days of one film and all counters zero. -/
def state_two_days : Mh.State :=
  { actual := [[0], [1]], day_incomp := [0, 0], incompatibilities := 0, best_days := 2,
    written := [], draws := 0 }

/-- A state of `mh.cc` whose last day holds the conflicting films 0 and 1 of `graph_AB`, with
counters that agree with the schedule. -/
def state_conflict_last : Mh.State :=
  { actual := [[2], [0, 1]], day_incomp := [0, 1], incompatibilities := 1, best_days := 2,
    written := [], draws := 0 }

/-- One film A and the pair (A, A). -/
def input_self_pair : Input :=
  { films := ["A"], pairs := [("A", "A")], CinRooms := ["R1"] }

/-- Films A and B and the pair (B, X), where X is not declared. -/
def input_undeclared : Input :=
  { films := ["A", "B"], pairs := [("B", "X")], CinRooms := ["R1"] }

/-- Films A and B and the pair (A, B) listed twice. -/
def input_repeated_pair : Input :=
  { films := ["A", "B"], pairs := [("A", "B"), ("A", "B")], CinRooms := ["R1"] }

/-- A state of `mh.cc` over `graph_six` with two conflicts on the first day, none on the last
day, and counters that agree with the schedule. -/
def state_six : Mh.State :=
  { actual := [[3, 2, 5], [4, 1], [0]], day_incomp := [2, 0, 0], incompatibilities := 2,
    best_days := 3, written := [], draws := 0 }

namespace Mh

/-- The condition kept by the loop of `improve` when it starts from right counters and a
last day without conflict. -/
def counts_inv (relations_graph : Graph) (day_to_remove : Nat) (st : State) : Prop :=
  counts_ok relations_graph st ∧ st.actual.length = day_to_remove + 1 ∧
    conflicts relations_graph (day_row st.actual day_to_remove) = 0

instance (relations_graph : Graph) (st : State) : Decidable (counts_ok relations_graph st) := by
  unfold counts_ok
  infer_instance

end Mh

/-! ## mh.cc: conditions and instances used in the statements on the local search -/

namespace Mh

/-- The schedule after the exchange made by a swap proposal of `solve_incompatibilities`:
`actual[day_to_solve][film_index]` and `actual[random_day][random_film]` change places. -/
def swap_films (actual : Organization) (day_to_solve film_index random_day random_film : Nat) :
    Organization :=
  set_film
    (set_film actual day_to_solve film_index ((day_row actual random_day).getD random_film 0))
    random_day random_film ((day_row actual day_to_solve).getD film_index 0)

/-- The swap proposed in `solve_incompatibilities` is not accepted: the old conflict sum is
not greater than the new one, and the test `random_value <= p` fails. -/
def rejected (lib : Library) (relations_graph : Graph) (day_to_solve film_index : Nat)
    (old_incompatibilities1 random_day k : Nat) (st : State) : Prop :=
  let random_film := lib.rand st.draws % (day_row st.actual random_day).length
  let old_incompatibilities2 := how_many_incompatibilities relations_graph st.actual random_day
    ((day_row st.actual random_day).getD random_film 0)
  let actual2 := swap_films st.actual day_to_solve film_index random_day random_film
  let new_incompatibilities1 := how_many_incompatibilities relations_graph actual2 day_to_solve
    ((day_row actual2 day_to_solve).getD film_index 0)
  let new_incompatibilities2 := how_many_incompatibilities relations_graph actual2 random_day
    ((day_row actual2 random_day).getD random_film 0)
  ¬ (old_incompatibilities1 + old_incompatibilities2
      > new_incompatibilities1 + new_incompatibilities2) ∧
    lib.accept
      (((new_incompatibilities1 + new_incompatibilities2 : Nat) : Int)
        - ((old_incompatibilities1 + old_incompatibilities2 : Nat) : Int)) k
      (lib.rand (st.draws + 1)) = false

instance (lib : Library) (relations_graph : Graph) (day_to_solve film_index : Nat)
    (old_incompatibilities1 random_day k : Nat) (st : State) :
    Decidable (rejected lib relations_graph day_to_solve film_index old_incompatibilities1
      random_day k st) := by
  unfold rejected
  infer_instance

/-- Every film index in `[0, n_films)` occurs exactly once in the schedule. -/
def complete (n_films : Nat) (actual : Organization) : Prop :=
  actual.flatten.Perm (List.range n_films)

/-- No day of the schedule holds more than `n_CinRooms` films. -/
def within_capacity (n_CinRooms : Nat) (actual : Organization) : Prop :=
  ∀ day ∈ actual, day.length ≤ n_CinRooms

instance (n_films : Nat) (actual : Organization) : Decidable (complete n_films actual) := by
  unfold complete
  infer_instance

instance (n_CinRooms : Nat) (actual : Organization) :
    Decidable (within_capacity n_CinRooms actual) := by
  unfold within_capacity
  infer_instance

/-- Each search `do random_day = rand() % size; while (random_day == day_to_solve)` ends
within `bound` calls of `rand()`, wherever in the stream of values it starts. -/
def fair_draws (lib : Library) (size bound : Nat) : Prop :=
  ∀ draws day_to_solve, day_to_solve < size →
    ∃ j, j < bound ∧ lib.rand (draws + j) % size ≠ day_to_solve

/-- The test `T > 0.0000005` fails once `T *= 0.999` has been executed `cold` times. -/
def cools (lib : Library) (cold : Nat) : Prop :=
  ∀ k, cold ≤ k → lib.hot k = false

/-- The condition kept by the swap proposals: the counters agree with the schedule, the
schedule has `size` days, none of them empty, and no day has more than `rooms` films. -/
def anneal_inv (relations_graph : Graph) (size rooms : Nat) (st : State) : Prop :=
  counts_ok relations_graph st ∧ st.actual.length = size ∧
    (∀ i, i < size → 0 < (day_row st.actual i).length) ∧
    ∀ i, (day_row st.actual i).length ≤ rooms

/-- Function `main` of `mh.cc`, with `while(true)` of `GRASP` cut after `fuel` iterations. -/
def main (lib : Library) (input : Input) (fuel : Nat) : Res Unit :=
  let data := read_data input
  run lib data.relations_graph data.n_CinRooms data.n_films fuel

end Mh

/-- A state of `mh.cc` over `graph_six` with the conflict 2-3 on the first day and counters
that agree with the schedule. -/
def state_swap : Mh.State :=
  { actual := [[2, 3], [5, 0]], day_incomp := [1, 0], incompatibilities := 1,
    best_days := 2, written := [], draws := 0 }

/-- A state of `mh.cc` over `graph_six` without conflict, in which the film 3 at the end of
the last day has one incompatible film on each earlier day. -/
def state_tie : Mh.State :=
  { actual := [[2, 0], [4, 1], [5, 3]], day_incomp := [0, 0, 0], incompatibilities := 0,
    best_days := 3, written := [], draws := 0 }

/-- Films A and B, the pair (A, B), two rooms. -/
def input_conflict_two_rooms : Input :=
  { films := ["A", "B"], pairs := [("A", "B")], CinRooms := ["R1", "R2"] }

/-- The start schedule of `mh.cc` on `input_conflict_two_rooms` with the counters set by
`GRASP`. -/
def state_start : Mh.State :=
  { actual := [[1], [0]], day_incomp := [0, 0], incompatibilities := 0, best_days := 2,
    written := [], draws := 0 }

/-- The state of `mh.cc` on `input_conflict_two_rooms` after `improve` has moved film 0 next
to film 1 and removed the emptied second day. -/
def state_after_improve : Mh.State :=
  { actual := [[1, 0]], day_incomp := [1], incompatibilities := 1, best_days := 2,
    written := [], draws := 0 }

/-! ## Lemmas on rows -/

theorem length_push_back_at (actual : Organization) (day code : Nat) :
    (push_back_at actual day code).length = actual.length := by
  induction actual generalizing day with
  | nil => rfl
  | cons row rest ih =>
    cases day with
    | zero => rfl
    | succ d => simp [push_back_at, ih]

theorem mem_push_back_at (actual : Organization) (day code : Nat) (row : List Nat)
    (h : row ∈ push_back_at actual day code) :
    row ∈ actual ∨ (day < actual.length ∧ row = day_row actual day ++ [code]) := by
  induction actual generalizing day with
  | nil => simp [push_back_at] at h
  | cons r rest ih =>
    cases day with
    | zero =>
      simp only [push_back_at, List.mem_cons] at h
      rcases h with h | h
      · right; simp [day_row, h]
      · left; simp [h]
    | succ d =>
      simp only [push_back_at, List.mem_cons] at h
      rcases h with h | h
      · left; simp [h]
      · rcases ih d h with h1 | ⟨h1, h2⟩
        · left; simp [h1]
        · right
          refine ⟨by simpa using h1, ?_⟩
          simpa [day_row] using h2

theorem day_row_mem (actual : Organization) (day : Nat) (h : day < actual.length) :
    day_row actual day ∈ actual := by
  unfold day_row
  rw [List.getD_eq_getElem _ _ h]
  exact List.getElem_mem h

theorem flatten_push_back_at (actual : Organization) (day code : Nat)
    (h : day < actual.length) :
    (push_back_at actual day code).flatten.Perm (code :: actual.flatten) := by
  induction actual generalizing day with
  | nil => simp at h
  | cons r rest ih =>
    cases day with
    | zero =>
      simp only [push_back_at, List.flatten_cons]
      simp
    | succ d =>
      simp only [push_back_at, List.flatten_cons]
      have h1 : d < rest.length := by simpa using h
      have := (ih d h1).append_left r
      exact this.trans (List.perm_middle)

/-! ## greedy.cc: the day found by the scan -/

namespace Greedy

theorem rooms_loop_eq_true (relations_graph : Graph) (code : Nat) (row : List Nat) :
    rooms_loop relations_graph code row = true ↔
      ∀ film ∈ row, incompatible relations_graph code film = false := by
  induction row with
  | nil => simp [rooms_loop]
  | cons f rest ih =>
    by_cases h : incompatible relations_graph code f = true
    · simp [rooms_loop, h]
    · simp [rooms_loop, h, ih]

theorem days_loop_spec (relations_graph : Graph) (n_CinRooms code : Nat)
    (steps day : Nat) (actual : Organization) (hsteps : actual.length ≤ day + steps) :
    (∃ d, day ≤ d ∧ d < actual.length ∧ qualifies relations_graph n_CinRooms actual code d ∧
        (∀ d', day ≤ d' → d' < d → ¬ qualifies relations_graph n_CinRooms actual code d') ∧
        days_loop relations_graph n_CinRooms code steps day actual
          = (push_back_at actual d code, true)) ∨
    ((∀ d, day ≤ d → d < actual.length →
        ¬ qualifies relations_graph n_CinRooms actual code d) ∧
      days_loop relations_graph n_CinRooms code steps day actual = (actual, false)) := by
  induction steps generalizing day with
  | zero =>
    right
    refine ⟨fun d h1 h2 => by omega, rfl⟩
  | succ k ih =>
    by_cases hday : day < actual.length
    · by_cases hq : qualifies relations_graph n_CinRooms actual code day
      · left
        refine ⟨day, le_refl _, hday, hq, fun d' h1 h2 => by omega, ?_⟩
        have h2 := (rooms_loop_eq_true relations_graph code _).2 hq.2
        simp [days_loop, hday, hq.1, can_be_projected, h2]
      · have hstep : days_loop relations_graph n_CinRooms code (k + 1) day actual
            = days_loop relations_graph n_CinRooms code k (day + 1) actual := by
          have : ¬ ((day_row actual day).length < n_CinRooms ∧
              can_be_projected relations_graph actual day code = true) := by
            rintro ⟨h1, h2⟩
            exact hq ⟨h1, (rooms_loop_eq_true relations_graph code _).1 h2⟩
          simp only [days_loop, hday, if_true, Bool.and_eq_true, decide_eq_true_eq]
          rw [if_neg this]
        rcases ih (day + 1) (by omega) with ⟨d, h1, h2, h3, h4, h5⟩ | ⟨h1, h2⟩
        · left
          refine ⟨d, by omega, h2, h3, ?_, by rw [hstep, h5]⟩
          intro d' hd1 hd2
          by_cases hd : d' = day
          · subst hd; exact hq
          · exact h4 d' (by omega) hd2
        · right
          refine ⟨?_, by rw [hstep, h2]⟩
          intro d hd1 hd2
          by_cases hd : d = day
          · subst hd; exact hq
          · exact h1 d (by omega) hd2
    · right
      refine ⟨fun d h1 h2 => by omega, ?_⟩
      simp [days_loop, hday]

theorem place_film_spec (relations_graph : Graph) (n_CinRooms : Nat) (actual : Organization)
    (code : Nat) :
    (∃ d, d < actual.length ∧ qualifies relations_graph n_CinRooms actual code d ∧
        (∀ d', d' < d → ¬ qualifies relations_graph n_CinRooms actual code d') ∧
        place_film relations_graph n_CinRooms actual code = push_back_at actual d code) ∨
    ((∀ d, d < actual.length → ¬ qualifies relations_graph n_CinRooms actual code d) ∧
      place_film relations_graph n_CinRooms actual code = actual ++ [[code]]) := by
  rcases days_loop_spec relations_graph n_CinRooms code actual.length 0 actual (by omega)
    with ⟨d, _, h2, h3, h4, h5⟩ | ⟨h1, h2⟩
  · left
    exact ⟨d, h2, h3, fun d' hd => h4 d' (Nat.zero_le _) hd, by simp [place_film, h5]⟩
  · right
    exact ⟨fun d hd => h1 d (Nat.zero_le _) hd, by simp [place_film, h2]⟩

end Greedy

namespace Greedy

theorem feasible_append_day (relations_graph : Graph) (actual : Organization) (code : Nat)
    (h : feasible relations_graph actual) : feasible relations_graph (actual ++ [[code]]) := by
  intro day hday a ha b hb hab
  rcases List.mem_append.1 hday with h1 | h1
  · exact h day h1 a ha b hb hab
  · simp only [List.mem_singleton] at h1
    subst h1
    simp only [List.mem_singleton] at ha hb
    omega

theorem feasible_push_back_at (relations_graph : Graph) (actual : Organization)
    (day code : Nat) (hsym : symmetric relations_graph) (h : feasible relations_graph actual)
    (hq : ∀ film ∈ day_row actual day, incompatible relations_graph code film = false) :
    feasible relations_graph (push_back_at actual day code) := by
  intro row hrow a ha b hb hab
  rcases mem_push_back_at actual day code row hrow with h1 | ⟨h1, h2⟩
  · exact h row h1 a ha b hb hab
  · subst h2
    have hmem := day_row_mem actual day h1
    rcases List.mem_append.1 ha with ha1 | ha1 <;> rcases List.mem_append.1 hb with hb1 | hb1
    · exact h _ hmem a ha1 b hb1 hab
    · simp only [List.mem_singleton] at hb1
      subst hb1
      rw [hsym]; exact hq a ha1
    · simp only [List.mem_singleton] at ha1
      subst ha1
      exact hq b hb1
    · simp only [List.mem_singleton] at ha1 hb1
      omega

theorem feasible_place_film (relations_graph : Graph) (n_CinRooms : Nat)
    (actual : Organization) (code : Nat) (hsym : symmetric relations_graph)
    (h : feasible relations_graph actual) :
    feasible relations_graph (place_film relations_graph n_CinRooms actual code) := by
  rcases place_film_spec relations_graph n_CinRooms actual code with
    ⟨d, _, h2, _, h4⟩ | ⟨_, h2⟩
  · rw [h4]; exact feasible_push_back_at relations_graph actual d code hsym h h2.2
  · rw [h2]; exact feasible_append_day relations_graph actual code h

theorem feasible_schedule_festival (relations_graph : Graph) (n_CinRooms : Nat)
    (restrictions : List Pair) (actual : Organization) (hsym : symmetric relations_graph)
    (h : feasible relations_graph actual) :
    feasible relations_graph
      (schedule_festival relations_graph n_CinRooms restrictions actual) := by
  induction restrictions generalizing actual with
  | nil => exact h
  | cons p rest ih =>
    exact ih _ (feasible_place_film relations_graph n_CinRooms actual p.1 hsym h)

theorem flatten_place_film (relations_graph : Graph) (n_CinRooms : Nat)
    (actual : Organization) (code : Nat) :
    (place_film relations_graph n_CinRooms actual code).flatten.Perm
      (code :: actual.flatten) := by
  rcases place_film_spec relations_graph n_CinRooms actual code with
    ⟨d, h1, _, _, h4⟩ | ⟨_, h2⟩
  · rw [h4]; exact flatten_push_back_at actual d code h1
  · rw [h2]
    simp only [List.flatten_append, List.flatten_cons, List.flatten_nil, List.append_nil]
    exact List.perm_append_comm

theorem flatten_schedule_festival (relations_graph : Graph) (n_CinRooms : Nat)
    (restrictions : List Pair) (actual : Organization) :
    (schedule_festival relations_graph n_CinRooms restrictions actual).flatten.Perm
      (restrictions.map Prod.fst ++ actual.flatten) := by
  induction restrictions generalizing actual with
  | nil => simp [schedule_festival]
  | cons p rest ih =>
    have h1 := ih (place_film relations_graph n_CinRooms actual p.1)
    have h2 := (flatten_place_film relations_graph n_CinRooms actual p.1).append_left
      (rest.map Prod.fst)
    have h3 : (rest.map Prod.fst ++ p.1 :: actual.flatten).Perm
        (p.1 :: (rest.map Prod.fst ++ actual.flatten)) := List.perm_middle
    simpa [schedule_festival] using (h1.trans h2).trans h3

end Greedy

/-- A film of a schedule without repetition sits at exactly one day and one room. -/
theorem unique_position (actual : Organization) (film : Nat) (hnd : actual.flatten.Nodup)
    (hmem : film ∈ actual.flatten) :
    ∃! pos : Nat × Nat, (day_row actual pos.1)[pos.2]? = some film := by
  induction actual with
  | nil => simp at hmem
  | cons row rest ih =>
    rw [List.flatten_cons, List.nodup_append] at hnd
    obtain ⟨hrow, hrest, hdis⟩ := hnd
    rw [List.flatten_cons, List.mem_append] at hmem
    have hzero : ∀ p : Nat, (day_row (row :: rest) 0)[p]? = row[p]? := fun p => by simp [day_row]
    have hsucc : ∀ d p : Nat, (day_row (row :: rest) (d + 1))[p]? = (day_row rest d)[p]? :=
      fun d p => by simp [day_row]
    have hin : ∀ d p : Nat, (day_row rest d)[p]? = some film → film ∈ rest.flatten := by
      intro d p h
      have h1 : film ∈ day_row rest d := List.getElem?_mem h
      by_cases hd : d < rest.length
      · exact List.mem_flatten.2 ⟨_, day_row_mem rest d hd, h1⟩
      · rw [day_row, List.getD_eq_default _ _ (Nat.le_of_not_lt hd)] at h1
        simp at h1
    rcases hmem with h | h
    · obtain ⟨p, hp, hpe⟩ := List.getElem_of_mem h
      refine ⟨(0, p), ?_, ?_⟩
      · simp [hzero, List.getElem?_eq_getElem hp, hpe]
      · rintro ⟨d, q⟩ hq
        cases d with
        | zero =>
          simp only [hzero] at hq
          obtain ⟨hq1, hq2⟩ := List.getElem?_eq_some_iff.1 hq
          have : q = p := (hrow.getElem_inj_iff).1 (hq2.trans hpe.symm)
          simp [this]
        | succ d =>
          simp only [hsucc] at hq
          exact absurd (hin d q hq) (fun h2 => hdis h h2)
    · obtain ⟨⟨d, p⟩, hex, huniq⟩ := ih hrest h
      refine ⟨(d + 1, p), by simpa [hsucc] using hex, ?_⟩
      rintro ⟨d', q⟩ hq
      cases d' with
      | zero =>
        simp only [hzero] at hq
        exact absurd h (fun h2 => hdis (List.getElem?_mem hq) h2)
      | succ d' =>
        simp only [hsucc] at hq
        have := huniq (d', q) hq
        simp only [Prod.mk.injEq] at this
        simp [this.1, this.2]

theorem symmetric_graph_AB : symmetric graph_AB := by
  intro a b
  rcases a with _ | _ | _ | a <;> rcases b with _ | _ | _ | b <;>
    simp [incompatible, graph_AB]

theorem take_succ_foldl {α β : Type} (f : β → α → β) (l : List α) (k : Nat)
    (hk : k < l.length) (init : β) :
    (l.take (k + 1)).foldl f init = f ((l.take k).foldl f init) (l.get ⟨k, hk⟩) := by
  rw [List.take_succ, List.foldl_append]
  simp [List.getElem?_eq_getElem hk]

namespace Greedy

theorem sizes_place_film (relations_graph : Graph) (n_CinRooms : Nat)
    (actual : Organization) (code : Nat)
    (h : ∀ day ∈ actual, 1 ≤ day.length ∧ day.length ≤ max 1 n_CinRooms) :
    ∀ day ∈ place_film relations_graph n_CinRooms actual code,
      1 ≤ day.length ∧ day.length ≤ max 1 n_CinRooms := by
  intro day hday
  rcases place_film_spec relations_graph n_CinRooms actual code with
    ⟨d, _, h2, _, h4⟩ | ⟨_, h2⟩
  · rw [h4] at hday
    rcases mem_push_back_at actual d code day hday with h5 | ⟨_, h6⟩
    · exact h day h5
    · subst h6
      have := h2.1
      simp only [List.length_append, List.length_singleton]
      omega
  · rw [h2] at hday
    rcases List.mem_append.1 hday with h5 | h5
    · exact h day h5
    · simp only [List.mem_singleton] at h5
      subst h5
      simp

theorem sizes_schedule_festival (relations_graph : Graph) (n_CinRooms : Nat)
    (restrictions : List Pair) (actual : Organization)
    (h : ∀ day ∈ actual, 1 ≤ day.length ∧ day.length ≤ max 1 n_CinRooms) :
    ∀ day ∈ schedule_festival relations_graph n_CinRooms restrictions actual,
      1 ≤ day.length ∧ day.length ≤ max 1 n_CinRooms := by
  induction restrictions generalizing actual with
  | nil => exact h
  | cons p rest ih =>
    exact ih _ (sizes_place_film relations_graph n_CinRooms actual p.1 h)

/-- C3: for a symmetric conflict relation and every item order, no day of the schedule built
by `schedule_festival` of `greedy.cc` holds two distinct films in conflict. -/
theorem schedule_festival_feasible (relations_graph : Graph) (n_CinRooms : Nat)
    (restrictions : List Pair) (hsym : symmetric relations_graph) :
    ∀ day ∈ schedule_festival relations_graph n_CinRooms restrictions [],
      ∀ a ∈ day, ∀ b ∈ day, a ≠ b → incompatible relations_graph a b = false :=
  feasible_schedule_festival relations_graph n_CinRooms restrictions [] hsym
    (fun day hday => by simp at hday)

theorem schedule_festival_feasible_witness :
    symmetric graph_AB ∧ incompatible graph_AB 0 2 = false :=
  ⟨symmetric_graph_AB,
    schedule_festival_feasible graph_AB 2 [(0, 1), (1, 1), (2, 0)] symmetric_graph_AB
      [0, 2] (by decide) 0 (by decide) 2 (by decide) (by decide)⟩

/-- C4: when the order `restrictions` is a permutation of the film codes `0..n_films-1`,
the schedule built by `schedule_festival` of `greedy.cc` holds every film exactly once:
its rows together are a permutation of the codes, and each film sits at exactly one
(day, room) position. -/
theorem schedule_festival_complete (relations_graph : Graph) (n_CinRooms n_films : Nat)
    (restrictions : List Pair)
    (hperm : (restrictions.map Prod.fst).Perm (List.range n_films)) :
    (schedule_festival relations_graph n_CinRooms restrictions []).flatten.Perm
        (List.range n_films) ∧
      ∀ film, film < n_films →
        ∃! pos : Nat × Nat,
          (day_row (schedule_festival relations_graph n_CinRooms restrictions []) pos.1)[pos.2]?
            = some film := by
  have h1 : (schedule_festival relations_graph n_CinRooms restrictions []).flatten.Perm
      (List.range n_films) := by
    have := flatten_schedule_festival relations_graph n_CinRooms restrictions []
    simp only [List.flatten_nil, List.append_nil] at this
    exact this.trans hperm
  refine ⟨h1, fun film hfilm => ?_⟩
  exact unique_position _ film (h1.nodup_iff.2 (List.nodup_range n_films))
    (h1.mem_iff.2 (List.mem_range.2 hfilm))

theorem schedule_festival_complete_witness :
    ((schedule_festival graph_AB 2 [(0, 1), (1, 1), (2, 0)] []).flatten.Perm (List.range 3) ∧
      ∀ film, film < 3 →
        ∃! pos : Nat × Nat,
          (day_row (schedule_festival graph_AB 2 [(0, 1), (1, 1), (2, 0)] []) pos.1)[pos.2]?
            = some film) :=
  schedule_festival_complete graph_AB 2 3 [(0, 1), (1, 1), (2, 0)] (by decide)

/-- C5 fails as stated: with zero rooms and one film the only day holds one film, which is
more than `n_CinRooms = 0`. -/
theorem schedule_festival_zero_rooms_exceeds :
    schedule_festival [[false]] 0 [(0, 0)] [] = [[0]] ∧
      ¬ ∀ day ∈ schedule_festival [[false]] 0 [(0, 0)] [], day.length ≤ 0 := by
  decide

/-- C5 (amended): every day of the schedule built by `schedule_festival` of `greedy.cc`
holds at least one film and at most `max 1 n_CinRooms` films: at most `n_CinRooms` when
there is at least one room, exactly one when there is none. -/
theorem schedule_festival_capacity (relations_graph : Graph) (n_CinRooms : Nat)
    (restrictions : List Pair) :
    ∀ day ∈ schedule_festival relations_graph n_CinRooms restrictions [],
      1 ≤ day.length ∧ day.length ≤ max 1 n_CinRooms ∧
        (1 ≤ n_CinRooms → day.length ≤ n_CinRooms) ∧ (n_CinRooms = 0 → day.length = 1) := by
  intro day hday
  have := sizes_schedule_festival relations_graph n_CinRooms restrictions []
    (fun day hday => by simp at hday) day hday
  refine ⟨this.1, this.2, fun h => ?_, fun h => ?_⟩
  · have := this.2; omega
  · have := this.2; omega

theorem schedule_festival_capacity_witness :
    1 ≤ [0, 2].length ∧ [0, 2].length ≤ max 1 2 ∧
        (1 ≤ 2 → [0, 2].length ≤ 2) ∧ (2 = 0 → [0, 2].length = 1) :=
  schedule_festival_capacity graph_AB 2 [(0, 1), (1, 1), (2, 0)] [0, 2] (by decide)

/-- C8: in `schedule_festival` of `greedy.cc`, the film processed at step `k` is appended
to the lowest-indexed existing day that then has fewer than `n_CinRooms` films and no film
in conflict with it; a new day holding just that film is appended after the existing days
if and only if no existing day qualifies. -/
theorem schedule_festival_first_fit (relations_graph : Graph) (n_CinRooms : Nat)
    (restrictions : List Pair) (k : Nat) (hk : k < restrictions.length) :
    (∀ d, d < (schedule_festival relations_graph n_CinRooms (restrictions.take k) []).length →
        qualifies relations_graph n_CinRooms
          (schedule_festival relations_graph n_CinRooms (restrictions.take k) [])
          (restrictions.get ⟨k, hk⟩).1 d →
        (∀ d', d' < d → ¬ qualifies relations_graph n_CinRooms
          (schedule_festival relations_graph n_CinRooms (restrictions.take k) [])
          (restrictions.get ⟨k, hk⟩).1 d') →
        schedule_festival relations_graph n_CinRooms (restrictions.take (k + 1)) []
          = push_back_at (schedule_festival relations_graph n_CinRooms (restrictions.take k) [])
              d (restrictions.get ⟨k, hk⟩).1) ∧
    ((∀ d, d < (schedule_festival relations_graph n_CinRooms (restrictions.take k) []).length →
        ¬ qualifies relations_graph n_CinRooms
          (schedule_festival relations_graph n_CinRooms (restrictions.take k) [])
          (restrictions.get ⟨k, hk⟩).1 d) ↔
      schedule_festival relations_graph n_CinRooms (restrictions.take (k + 1)) []
        = schedule_festival relations_graph n_CinRooms (restrictions.take k) []
            ++ [[(restrictions.get ⟨k, hk⟩).1]]) := by
  have hstep : schedule_festival relations_graph n_CinRooms (restrictions.take (k + 1)) []
      = place_film relations_graph n_CinRooms
          (schedule_festival relations_graph n_CinRooms (restrictions.take k) [])
          (restrictions.get ⟨k, hk⟩).1 := by
    unfold schedule_festival
    exact take_succ_foldl _ restrictions k hk []
  rw [hstep]
  generalize schedule_festival relations_graph n_CinRooms (restrictions.take k) [] = before
  generalize (restrictions.get ⟨k, hk⟩).1 = code
  rcases place_film_spec relations_graph n_CinRooms before code with
    ⟨d0, h1, h2, h3, h4⟩ | ⟨h1, h2⟩
  · refine ⟨fun d hd hq hleast => ?_, ⟨fun hnone => absurd h2 (hnone d0 h1), fun heq => ?_⟩⟩
    · have : d = d0 := by
        rcases Nat.lt_trichotomy d d0 with h | h | h
        · exact absurd hq (h3 d h)
        · exact h
        · exact absurd h2 (hleast d0 h)
      rw [this, h4]
    · have := congrArg List.length heq
      rw [h4, length_push_back_at] at this
      simp at this
  · exact ⟨fun d hd hq _ => absurd hq (h1 d hd), ⟨fun _ => h2, fun _ => h1⟩⟩

theorem schedule_festival_first_fit_witness :
    ((∀ d, d < (schedule_festival graph_AB 2 ([(0, 1), (1, 1), (2, 0)].take 2) []).length →
        qualifies graph_AB 2 (schedule_festival graph_AB 2 ([(0, 1), (1, 1), (2, 0)].take 2) [])
          2 d →
        (∀ d', d' < d → ¬ qualifies graph_AB 2
          (schedule_festival graph_AB 2 ([(0, 1), (1, 1), (2, 0)].take 2) []) 2 d') →
        schedule_festival graph_AB 2 ([(0, 1), (1, 1), (2, 0)].take (2 + 1)) []
          = push_back_at (schedule_festival graph_AB 2 ([(0, 1), (1, 1), (2, 0)].take 2) [])
              d 2) ∧
    ((∀ d, d < (schedule_festival graph_AB 2 ([(0, 1), (1, 1), (2, 0)].take 2) []).length →
        ¬ qualifies graph_AB 2
          (schedule_festival graph_AB 2 ([(0, 1), (1, 1), (2, 0)].take 2) []) 2 d) ↔
      schedule_festival graph_AB 2 ([(0, 1), (1, 1), (2, 0)].take (2 + 1)) []
        = schedule_festival graph_AB 2 ([(0, 1), (1, 1), (2, 0)].take 2) [] ++ [[2]])) :=
  schedule_festival_first_fit graph_AB 2 [(0, 1), (1, 1), (2, 0)] 2 (by decide)

end Greedy

theorem exh_rooms_loop_eq_true (relations_graph : Graph) (code : Nat) (row : List Nat) :
    Exh.rooms_loop relations_graph code row = true ↔
      ∀ film ∈ row, incompatible relations_graph film code = false := by
  induction row with
  | nil => simp [Exh.rooms_loop]
  | cons f rest ih =>
    by_cases h : incompatible relations_graph f code = true
    · simp [Exh.rooms_loop, h]
    · simp [Exh.rooms_loop, h, ih]

theorem mh_rooms_loop_eq_greedy (relations_graph : Graph) (code : Nat) (row : List Nat) :
    Mh.rooms_loop relations_graph code row = Greedy.rooms_loop relations_graph code row := by
  induction row with
  | nil => rfl
  | cons f rest ih => simp [Mh.rooms_loop, Greedy.rooms_loop, ih]

theorem bool_eq_false_iff_not_true (b : Bool) (p : Prop) (h : b = true ↔ ¬ p) :
    b = false ↔ p := by
  cases b <;> simp_all

/-- C9: for a valid day index, each `can_be_projected` returns false exactly when some film
already in that day is in conflict with the given film (`greedy.cc` and `mh.cc` read
`relations_graph[code][film]`, `exh.cc` reads `relations_graph[film][code]`), and under a
symmetric `relations_graph` the three implementations return the same value. -/
theorem can_be_projected_spec (relations_graph : Graph) (actual : Organization)
    (day code : Nat) (hday : day < actual.length) :
    (Greedy.can_be_projected relations_graph actual day code = false ↔
        ∃ film ∈ actual.get ⟨day, hday⟩, incompatible relations_graph code film = true) ∧
    (Mh.can_be_projected relations_graph actual day code = false ↔
        ∃ film ∈ actual.get ⟨day, hday⟩, incompatible relations_graph code film = true) ∧
    (Exh.can_be_projected relations_graph actual day code = false ↔
        ∃ film ∈ actual.get ⟨day, hday⟩, incompatible relations_graph film code = true) ∧
    (symmetric relations_graph →
      Exh.can_be_projected relations_graph actual day code
          = Greedy.can_be_projected relations_graph actual day code ∧
        Mh.can_be_projected relations_graph actual day code
          = Greedy.can_be_projected relations_graph actual day code) := by
  have hrow : day_row actual day = actual.get ⟨day, hday⟩ := by
    rw [day_row, List.getD_eq_getElem _ _ hday]
    rfl
  have hg : Greedy.can_be_projected relations_graph actual day code = false ↔
      ∃ film ∈ actual.get ⟨day, hday⟩, incompatible relations_graph code film = true := by
    apply bool_eq_false_iff_not_true
    rw [Greedy.can_be_projected, hrow, Greedy.rooms_loop_eq_true]
    simp
  have hm : Mh.can_be_projected relations_graph actual day code
      = Greedy.can_be_projected relations_graph actual day code := by
    simp [Mh.can_be_projected, Greedy.can_be_projected, mh_rooms_loop_eq_greedy]
  have he : Exh.can_be_projected relations_graph actual day code = false ↔
      ∃ film ∈ actual.get ⟨day, hday⟩, incompatible relations_graph film code = true := by
    apply bool_eq_false_iff_not_true
    rw [Exh.can_be_projected, hrow, exh_rooms_loop_eq_true]
    simp
  refine ⟨hg, by rw [hm]; exact hg, he, fun hsym => ⟨?_, hm⟩⟩
  have : ∀ b c : Bool, (b = false ↔ c = false) → b = c := by decide
  apply this
  rw [he, hg]
  constructor
  · rintro ⟨film, h1, h2⟩; exact ⟨film, h1, by rw [hsym]; exact h2⟩
  · rintro ⟨film, h1, h2⟩; exact ⟨film, h1, by rw [hsym]; exact h2⟩

theorem can_be_projected_spec_witness :
    (Greedy.can_be_projected graph_AB [[0, 2]] 0 1 = false ↔
        ∃ film ∈ [[0, 2]].get ⟨0, by decide⟩, incompatible graph_AB 1 film = true) ∧
    (Mh.can_be_projected graph_AB [[0, 2]] 0 1 = false ↔
        ∃ film ∈ [[0, 2]].get ⟨0, by decide⟩, incompatible graph_AB 1 film = true) ∧
    (Exh.can_be_projected graph_AB [[0, 2]] 0 1 = false ↔
        ∃ film ∈ [[0, 2]].get ⟨0, by decide⟩, incompatible graph_AB film 1 = true) ∧
    (symmetric graph_AB →
      Exh.can_be_projected graph_AB [[0, 2]] 0 1
          = Greedy.can_be_projected graph_AB [[0, 2]] 0 1 ∧
        Mh.can_be_projected graph_AB [[0, 2]] 0 1
          = Greedy.can_be_projected graph_AB [[0, 2]] 0 1) :=
  can_be_projected_spec graph_AB [[0, 2]] 0 1 (by decide)

theorem insertion_sort_sorts : sorts_by_comparator insertion_sort := by
  intro l
  refine ⟨List.perm_insertionSort _ l, ?_⟩
  have h : List.Sorted (fun a b : Pair => a.2 ≥ b.2) (insertion_sort l) := by
    haveI : IsTotal Pair (fun a b : Pair => a.2 ≥ b.2) := ⟨fun a b => Nat.le_total b.2 a.2⟩
    haveI : IsTrans Pair (fun a b : Pair => a.2 ≥ b.2) :=
      ⟨fun a b c h1 h2 => Nat.le_trans h2 h1⟩
    exact List.sorted_insertionSort _ l
  refine List.Pairwise.imp ?_ h
  intro a b hab
  simp only [comparator, decide_eq_false_iff_not, not_lt]
  omega

theorem sorted_ABC (l : List Pair) (hperm : l.Perm [(0, 1), (1, 1), (2, 0)])
    (hsorted : l.Pairwise (fun a b => comparator b a = false)) :
    l = [(0, 1), (1, 1), (2, 0)] ∨ l = [(1, 1), (0, 1), (2, 0)] := by
  have hlen := hperm.length_eq
  match l, hlen with
  | [x, y, z], _ =>
    have hx : x ∈ [((0 : Nat), (1 : Nat)), (1, 1), (2, 0)] := hperm.subset (by simp)
    have hy : y ∈ [((0 : Nat), (1 : Nat)), (1, 1), (2, 0)] := hperm.subset (by simp)
    have hz : z ∈ [((0 : Nat), (1 : Nat)), (1, 1), (2, 0)] := hperm.subset (by simp)
    have hnd : [x, y, z].Nodup := hperm.nodup_iff.2 (by decide)
    simp only [List.mem_cons, List.mem_singleton, List.not_mem_nil, or_false] at hx hy hz
    rcases hx with rfl | rfl | rfl <;> rcases hy with rfl | rfl | rfl <;>
      rcases hz with rfl | rfl | rfl <;> simp [comparator] at hnd hsorted ⊢

theorem read_data_ABC_one_room (sort : List Pair → List Pair) :
    read_data sort input_ABC_one_room =
      { n_films := 3
        films := ["A", "B", "C"]
        film_code := [("A", 0), ("B", 1), ("C", 2)]
        restrictions := sort [(0, 1), (1, 1), (2, 0)]
        relations_graph := graph_AB
        n_CinRooms := 1
        CinRooms := ["R1"] } := by
  rfl

theorem greedy_example_schedule (sort : List Pair → List Pair)
    (hsort : sorts_by_comparator sort) :
    Greedy.main sort input_ABC_one_room = [[0], [1], [2]] ∨
      Greedy.main sort input_ABC_one_room = [[1], [0], [2]] := by
  unfold Greedy.main
  rw [read_data_ABC_one_room]
  rcases sorted_ABC _ (hsort _).1 (hsort _).2 with h | h
  · left; simp only [h]; decide
  · right; simp only [h]; decide

namespace Greedy

/-- C10 fails as stated: on films A, B, C with the pair (A, B) and one room the greedy
solver builds three days, one film each, and no sort of `restrictions` gives two days. -/
theorem main_example_not_two_days :
    main insertion_sort input_ABC_one_room = [[0], [1], [2]] ∧
      ¬ ∃ sort, sorts_by_comparator sort ∧ (main sort input_ABC_one_room).length = 2 := by
  refine ⟨by decide, ?_⟩
  rintro ⟨sort, hsort, hlen⟩
  rcases greedy_example_schedule sort hsort with h | h <;> rw [h] at hlen <;> simp at hlen

/-- C10 (amended): on films A, B, C (codes 0, 1, 2) with the pair (A, B) and one room,
whatever order `sort` leaves between the equally restricted A and B, the greedy solver
builds exactly three days of one film each: A and B on the first two days, C alone on the
third. -/
theorem main_example_three_days (sort : List Pair → List Pair) (hsort : sorts_by_comparator sort) :
    (read_data sort input_ABC_one_room).film_code = [("A", 0), ("B", 1), ("C", 2)] ∧
      (main sort input_ABC_one_room).length = 3 ∧
      (∀ day ∈ main sort input_ABC_one_room, day.length = 1) ∧
      (main sort input_ABC_one_room = [[0], [1], [2]] ∨
        main sort input_ABC_one_room = [[1], [0], [2]]) := by
  refine ⟨by rw [read_data_ABC_one_room], ?_⟩
  rcases greedy_example_schedule sort hsort with h | h <;> rw [h] <;> simp

theorem main_example_three_days_witness :
    sorts_by_comparator insertion_sort ∧
    (read_data insertion_sort input_ABC_one_room).film_code = [("A", 0), ("B", 1), ("C", 2)] ∧
      (main insertion_sort input_ABC_one_room).length = 3 ∧
      (∀ day ∈ main insertion_sort input_ABC_one_room, day.length = 1) ∧
      (main insertion_sort input_ABC_one_room = [[0], [1], [2]] ∨
        main insertion_sort input_ABC_one_room = [[1], [0], [2]]) :=
  ⟨insertion_sort_sorts, main_example_three_days insertion_sort insertion_sort_sorts⟩

end Greedy

theorem read_data_ABC_two_rooms (sort : List Pair → List Pair) :
    read_data sort input_ABC_two_rooms =
      { n_films := 3
        films := ["A", "B", "C"]
        film_code := [("A", 0), ("B", 1), ("C", 2)]
        restrictions := sort [(0, 1), (1, 1), (2, 0)]
        relations_graph := graph_AB
        n_CinRooms := 2
        CinRooms := ["R1", "R2"] } := by
  rfl

/-- With two rooms instead of one, the greedy solver builds the two-day schedule of the
example: A and B on different days, C on the first day. -/
theorem greedy_example_two_rooms (sort : List Pair → List Pair)
    (hsort : sorts_by_comparator sort) :
    Greedy.main sort input_ABC_two_rooms = [[0, 2], [1]] ∨
      Greedy.main sort input_ABC_two_rooms = [[1, 2], [0]] := by
  unfold Greedy.main
  rw [read_data_ABC_two_rooms]
  rcases sorted_ABC _ (hsort _).1 (hsort _).2 with h | h
  · left; simp only [h]; decide
  · right; simp only [h]; decide

/-! ## read_data: the conflict matrix is square and symmetric -/

theorem square_set_incompatible (n : Nat) (relations_graph : Graph) (a b : Nat)
    (h : square n relations_graph) : square n (set_incompatible relations_graph a b) := by
  by_cases ha : a < relations_graph.length
  · refine ⟨by simp [set_incompatible, h.1], ?_⟩
    intro row hrow
    rcases List.mem_or_eq_of_mem_set hrow with h1 | h1
    · exact h.2 row h1
    · rw [h1, List.length_set, List.getD_eq_getElem _ _ ha]
      exact h.2 _ (List.getElem_mem ha)
  · rw [set_incompatible, List.set_eq_of_length_le (Nat.le_of_not_lt ha)]
    exact h

theorem incompatible_set_incompatible (n : Nat) (relations_graph : Graph) (a b x y : Nat)
    (h : square n relations_graph) :
    incompatible (set_incompatible relations_graph a b) x y
      = (decide (x = a ∧ y = b ∧ a < n ∧ b < n) || incompatible relations_graph x y) := by
  by_cases ha : a < relations_graph.length
  · have hrow : (relations_graph.getD a []).length = n := by
      rw [List.getD_eq_getElem _ _ ha]
      exact h.2 _ (List.getElem_mem ha)
    have han : a < n := by rw [← h.1]; exact ha
    by_cases hx : x = a
    · subst hx
      have h1 : (set_incompatible relations_graph x b).getD x []
          = (relations_graph.getD x []).set b true := by
        simp [set_incompatible, List.getD_eq_getElem?_getD, List.getElem?_set, ha]
      rw [incompatible, h1]
      by_cases hy : y = b
      · subst hy
        by_cases hb : y < n
        · have : ((relations_graph.getD x []).set y true).getD y false = true := by
            have hlt : y < (relations_graph.getD x []).length := by rw [hrow]; exact hb
            rw [List.getD_eq_getElem?_getD, List.getElem?_set, if_pos rfl, if_pos hlt]
            rfl
          rw [this]
          simp [han, hb]
        · have hle : (relations_graph.getD x []).length ≤ y := by omega
          rw [List.set_eq_of_length_le hle]
          simp [hb, incompatible]
      · have : ((relations_graph.getD x []).set b true).getD y false
            = (relations_graph.getD x []).getD y false := by
          simp [List.getD_eq_getElem?_getD, List.getElem?_set, Ne.symm hy]
        rw [this]
        simp [hy, incompatible]
    · have h1 : (set_incompatible relations_graph a b).getD x [] = relations_graph.getD x [] := by
        simp [set_incompatible, List.getD_eq_getElem?_getD, List.getElem?_set, Ne.symm hx]
      rw [incompatible, h1]
      simp [hx, incompatible]
  · have han : ¬ a < n := by rw [← h.1]; exact ha
    rw [set_incompatible, List.set_eq_of_length_le (Nat.le_of_not_lt ha)]
    simp [han]

theorem symmetric_set_both (n : Nat) (relations_graph : Graph) (a b : Nat)
    (hsq : square n relations_graph) (hsym : symmetric relations_graph) :
    square n (set_incompatible (set_incompatible relations_graph a b) b a) ∧
      symmetric (set_incompatible (set_incompatible relations_graph a b) b a) := by
  have h1 := square_set_incompatible n relations_graph a b hsq
  refine ⟨square_set_incompatible n _ b a h1, ?_⟩
  intro x y
  rw [incompatible_set_incompatible n _ b a x y h1, incompatible_set_incompatible n _ a b x y hsq,
    incompatible_set_incompatible n _ b a y x h1, incompatible_set_incompatible n _ a b y x hsq,
    hsym x y]
  by_cases c1 : x = a <;> by_cases c2 : y = b <;> by_cases c3 : x = b <;> by_cases c4 : y = a <;>
    by_cases c5 : a < n <;> by_cases c6 : b < n <;> simp [c1, c2, c3, c4, c5, c6]

theorem read_pairs_symmetric (n : Nat) (pairs : List (String × String))
    (st : FilmCode × List Pair × Graph) (hsq : square n st.2.2) (hsym : symmetric st.2.2) :
    square n (pairs.foldl read_pair st).2.2 ∧ symmetric (pairs.foldl read_pair st).2.2 := by
  induction pairs generalizing st with
  | nil => exact ⟨hsq, hsym⟩
  | cons p rest ih =>
    have h := symmetric_set_both n st.2.2 (film_code_index st.1 p.1).1
      (film_code_index (film_code_index st.1 p.1).2 p.2).1 hsq hsym
    exact ih (read_pair st p) h.1 h.2

/-- The matrix `relations_graph` built by `read_data` is symmetric, whatever the input. -/
theorem read_data_symmetric (sort : List Pair → List Pair) (input : Input) :
    symmetric (read_data sort input).relations_graph := by
  have hsq : square input.films.length
      (List.replicate input.films.length (List.replicate input.films.length false)) := by
    refine ⟨by simp, ?_⟩
    intro row hrow
    rw [List.eq_of_mem_replicate hrow]
    simp
  have hsym : symmetric
      (List.replicate input.films.length (List.replicate input.films.length false)) := by
    have hfalse : ∀ a b, incompatible
        (List.replicate input.films.length (List.replicate input.films.length false)) a b
        = false := by
      intro a b
      unfold incompatible
      by_cases ha : a < input.films.length
      · by_cases hb : b < input.films.length
        · simp [List.getD_eq_getElem?_getD, List.getElem?_replicate, ha, hb]
        · simp [List.getD_eq_getElem?_getD, List.getElem?_replicate, ha, hb]
      · simp [List.getD_eq_getElem?_getD, List.getElem?_replicate, ha]
    intro a b
    rw [hfalse, hfalse]
  exact (read_pairs_symmetric input.films.length input.pairs _ hsq hsym).2

/-! ## exh.cc: the search computes `search` -/

theorem pop_back_at_push_back_at (actual : Organization) (day code : Nat) :
    pop_back_at (push_back_at actual day code) day = actual := by
  induction actual generalizing day with
  | nil => rfl
  | cons row rest ih =>
    cases day with
    | zero => simp [push_back_at, pop_back_at]
    | succ d => simp [push_back_at, pop_back_at, ih]

namespace Exh

theorem test_eq_qualifies (relations_graph : Graph) (n_CinRooms : Nat) (actual : Organization)
    (code day : Nat) :
    (((day_row actual day).length < n_CinRooms
        && can_be_projected relations_graph actual day code) = true) ↔
      qualifies relations_graph n_CinRooms actual code day := by
  simp [qualifies, can_be_projected, exh_rooms_loop_eq_true]

theorem for_days_eq_search_days (call : State → Option State)
    (below : Organization → Nat → Nat × List Written) (relations_graph : Graph)
    (n_CinRooms code : Nat) (actual : Organization)
    (hcall : ∀ st : State, st.actual.length = actual.length →
      call st = some (after st (below st.actual st.BestDays)))
    (steps i : Nat) (st : State) (hst : st.actual = actual)
    (hsteps : i + steps = actual.length) :
    for_days call relations_graph n_CinRooms code steps i st =
      some (after st
        (search_days below relations_graph n_CinRooms code actual steps i st.BestDays)) := by
  induction steps generalizing i st with
  | zero =>
    have : ¬ i < st.actual.length := by rw [hst]; omega
    simp [for_days, this, search_days, after]
  | succ k ih =>
    have hi : i < st.actual.length := by rw [hst]; omega
    by_cases hq : qualifies relations_graph n_CinRooms actual code i
    · have hq' := (test_eq_qualifies relations_graph n_CinRooms st.actual code i).2
        (by rw [hst]; exact hq)
      have hc := hcall { st with actual := push_back_at st.actual i code }
        (by simp [length_push_back_at, hst])
      simp only [for_days, hi, if_true, hq', hc]
      rw [ih (i + 1) _ (by simp [after, pop_back_at_push_back_at, hst]) (by omega)]
      simp [after, search_days, hq, pop_back_at_push_back_at, hst]
    · have hq' : ¬ (((day_row st.actual i).length < n_CinRooms
          && can_be_projected relations_graph st.actual i code) = true) := by
        rw [test_eq_qualifies, hst]; exact hq
      simp only [for_days, hi, if_true, hq']
      rw [ih (i + 1) st hst (by omega)]
      simp [search_days, hq]

theorem schedule_festival_eq_search (relations_graph : Graph) (n_CinRooms n_films : Nat)
    (restrictions : List Pair) (hlen : restrictions.length = n_films)
    (fuel film_index : Nat) (st : State) (ActualDays : Nat)
    (hindex : film_index ≤ n_films) (hfuel : n_films - film_index < fuel)
    (hdays : ActualDays = st.actual.length) :
    schedule_festival relations_graph n_CinRooms n_films restrictions fuel st ActualDays
        film_index =
      some (after st (search relations_graph n_CinRooms
        ((restrictions.drop film_index).map Prod.fst) st.actual st.BestDays)) := by
  induction fuel generalizing film_index st ActualDays with
  | zero => omega
  | succ fuel ih =>
    subst hdays
    by_cases hprune : st.actual.length < st.BestDays
    · by_cases hend : film_index = n_films
      · have hdrop : restrictions.drop film_index = [] := by
          rw [List.drop_eq_nil_iff]; omega
        rw [hdrop]
        simp [schedule_festival, hprune, hend, search, write, after]
      · have hlt : film_index < restrictions.length := by omega
        have hdrop : restrictions.drop film_index
            = restrictions[film_index] :: restrictions.drop (film_index + 1) :=
          List.drop_eq_getElem_cons hlt
        have hget : restrictions.getD film_index (0, 0) = restrictions[film_index] :=
          List.getD_eq_getElem _ _ hlt
        have hloop := for_days_eq_search_days
          (fun s => schedule_festival relations_graph n_CinRooms n_films restrictions fuel s
            st.actual.length (film_index + 1))
          (search relations_graph n_CinRooms ((restrictions.drop (film_index + 1)).map Prod.fst))
          relations_graph n_CinRooms (restrictions[film_index]).1 st.actual
          (fun s hs => ih (film_index + 1) s st.actual.length (by omega) (by omega) hs.symm)
          st.actual.length 0 st rfl (by omega)
        rw [schedule_festival]
        simp only [hprune, if_true, hend, if_false]
        rw [hget, hloop]
        dsimp only
        have hrhs : search relations_graph n_CinRooms
            ((restrictions.drop film_index).map Prod.fst) st.actual st.BestDays
            = ((search relations_graph n_CinRooms
                  ((restrictions.drop (film_index + 1)).map Prod.fst)
                  (st.actual ++ [[(restrictions[film_index]).1]])
                  (search_days
                    (search relations_graph n_CinRooms
                      ((restrictions.drop (film_index + 1)).map Prod.fst))
                    relations_graph n_CinRooms (restrictions[film_index]).1 st.actual
                    st.actual.length 0 st.BestDays).1).1,
                (search_days
                    (search relations_graph n_CinRooms
                      ((restrictions.drop (film_index + 1)).map Prod.fst))
                    relations_graph n_CinRooms (restrictions[film_index]).1 st.actual
                    st.actual.length 0 st.BestDays).2 ++
                (search relations_graph n_CinRooms
                  ((restrictions.drop (film_index + 1)).map Prod.fst)
                  (st.actual ++ [[(restrictions[film_index]).1]])
                  (search_days
                    (search relations_graph n_CinRooms
                      ((restrictions.drop (film_index + 1)).map Prod.fst))
                    relations_graph n_CinRooms (restrictions[film_index]).1 st.actual
                    st.actual.length 0 st.BestDays).1).2) := by
          rw [hdrop]
          simp only [List.map_cons, search, hprune, if_true]
        rw [hrhs]
        generalize search_days
          (search relations_graph n_CinRooms ((restrictions.drop (film_index + 1)).map Prod.fst))
          relations_graph n_CinRooms (restrictions[film_index]).1 st.actual st.actual.length 0
          st.BestDays = r1
        have hnew := ih (film_index + 1)
          { actual := (after st r1).actual ++ [[(restrictions[film_index]).1]]
            BestDays := (after st r1).BestDays
            written := (after st r1).written }
          (st.actual.length + 1) (by omega) (by omega) (by simp [after])
        rw [hnew]
        simp [after]
    · cases todo : (restrictions.drop film_index).map Prod.fst <;>
        simp [schedule_festival, hprune, search, after]

theorem run_eq_search (relations_graph : Graph) (n_CinRooms : Nat) (restrictions : List Pair) :
    run relations_graph n_CinRooms restrictions.length restrictions =
      some { actual := []
             BestDays := (search relations_graph n_CinRooms (restrictions.map Prod.fst) []
               restrictions.length).1
             written := (search relations_graph n_CinRooms (restrictions.map Prod.fst) []
               restrictions.length).2 } := by
  unfold run
  rw [schedule_festival_eq_search relations_graph n_CinRooms restrictions.length restrictions
    rfl (restrictions.length + 1) 0 { actual := [], BestDays := restrictions.length, written := [] }
    0 (by omega) (by omega) rfl]
  simp [after]

end Exh

namespace Exh

theorem produces_refl (good : Organization → Prop) (best : Nat) :
    produces good best (best, []) := by
  simp [produces]

theorem produces_trans (good : Organization → Prop) (best : Nat) (r1 r2 : Nat × List Written)
    (h1 : produces good best r1) (h2 : produces good r1.1 r2) :
    produces good best (r2.1, r1.2 ++ r2.2) := by
  obtain ⟨a1, b1, c1, d1, e1⟩ := h1
  obtain ⟨a2, b2, c2, d2, e2⟩ := h2
  refine ⟨le_trans a2 a1, ?_, ?_, ?_, ?_⟩
  · intro w hw
    rcases List.mem_append.1 hw with h | h
    · obtain ⟨h3, h4, h5, h6⟩ := b1 w h
      exact ⟨h3, h4, le_trans a2 h5, h6⟩
    · obtain ⟨h3, h4, h5, h6⟩ := b2 w h
      exact ⟨h3, lt_of_lt_of_le h4 a1, h5, h6⟩
  · rw [List.map_append, List.pairwise_append]
    refine ⟨c1, c2, ?_⟩
    intro a ha b hb
    obtain ⟨wa, hwa, rfl⟩ := List.mem_map.1 ha
    obtain ⟨wb, hwb, rfl⟩ := List.mem_map.1 hb
    exact lt_of_lt_of_le (b2 wb hwb).2.1 (b1 wa hwa).2.2.1
  · intro h
    rw [List.append_eq_nil] at h
    show r2.1 = best
    rw [d2 h.2, d1 h.1]
  · intro w hw
    show r2.1 = w.days
    by_cases hnil : r2.2 = []
    · rw [hnil, List.append_nil] at hw
      rw [d2 hnil]
      exact e1 w hw
    · rw [List.getLast?_append_of_ne_nil _ hnil] at hw
      exact e2 w hw

theorem search_days_produces (good : Organization → Prop)
    (below : Organization → Nat → Nat × List Written) (relations_graph : Graph)
    (n_CinRooms code : Nat) (actual : Organization)
    (hbelow : ∀ d, d < actual.length → qualifies relations_graph n_CinRooms actual code d →
      ∀ best, produces good best (below (push_back_at actual d code) best))
    (steps i best : Nat) (hsteps : i + steps = actual.length) :
    produces good best
      (search_days below relations_graph n_CinRooms code actual steps i best) := by
  induction steps generalizing i best with
  | zero => exact produces_refl good best
  | succ k ih =>
    by_cases hq : qualifies relations_graph n_CinRooms actual code i
    · simp only [search_days, hq, if_true]
      exact produces_trans good best _ _ (hbelow i (by omega) hq best) (ih (i + 1) _ (by omega))
    · simp only [search_days, hq, if_false]
      exact ih (i + 1) best (by omega)

/-- The search keeps any property `inv` of the nodes that holds at the root and is kept by
both kinds of placement, and it writes only leaves, which satisfy `good`. -/
theorem search_produces (relations_graph : Graph) (n_CinRooms : Nat)
    (inv : List Nat → Organization → Prop) (good : Organization → Prop)
    (hleaf : ∀ actual, inv [] actual → good actual)
    (hpush : ∀ code todo actual d, inv (code :: todo) actual → d < actual.length →
      qualifies relations_graph n_CinRooms actual code d →
      inv todo (push_back_at actual d code))
    (hnew : ∀ code todo actual, inv (code :: todo) actual → inv todo (actual ++ [[code]]))
    (todo : List Nat) (actual : Organization) (best : Nat) (hinv : inv todo actual) :
    produces good best (search relations_graph n_CinRooms todo actual best) := by
  induction todo generalizing actual best with
  | nil =>
    by_cases h : actual.length < best
    · simp only [search, h, if_true]
      refine ⟨le_of_lt h, ?_, by simp, by simp, by simp⟩
      intro w hw
      simp only [List.mem_singleton] at hw
      subst hw
      exact ⟨rfl, h, le_refl _, hleaf actual hinv⟩
    · simp only [search, h, if_false]
      exact produces_refl good best
  | cons code todo ih =>
    by_cases h : actual.length < best
    · simp only [search, h, if_true]
      refine produces_trans good best _ _ ?_ (ih _ _ (hnew code todo actual hinv))
      exact search_days_produces good _ relations_graph n_CinRooms code actual
        (fun d hd hq b => ih _ b (hpush code todo actual d hinv hd hq)) _ 0 best (by omega)
    · simp only [search, h, if_false]
      exact produces_refl good best

theorem search_le (relations_graph : Graph) (n_CinRooms : Nat) (todo : List Nat)
    (actual : Organization) (best : Nat) :
    (search relations_graph n_CinRooms todo actual best).1 ≤ best :=
  (search_produces relations_graph n_CinRooms (fun _ _ => True) (fun _ => True)
    (fun _ _ => trivial) (fun _ _ _ _ _ _ _ => trivial) (fun _ _ _ _ => trivial)
    todo actual best trivial).1

theorem node_ok_push (relations_graph : Graph) (n_CinRooms : Nat) (films : List Nat)
    (code : Nat) (todo : List Nat) (actual : Organization) (d : Nat)
    (h : node_ok relations_graph n_CinRooms films (code :: todo) actual)
    (hd : d < actual.length) (hq : qualifies relations_graph n_CinRooms actual code d) :
    node_ok relations_graph n_CinRooms films todo (push_back_at actual d code) := by
  obtain ⟨h1, h2, h3⟩ := h
  refine ⟨?_, ?_, ?_⟩
  · intro day hday
    rcases mem_push_back_at actual d code day hday with h5 | ⟨_, h6⟩
    · exact h1 day h5
    · subst h6
      have := hq.1
      simp only [List.length_append, List.length_singleton]
      omega
  · intro day hday
    rcases mem_push_back_at actual d code day hday with h5 | ⟨_, h6⟩
    · exact h2 day h5
    · subst h6
      rw [List.pairwise_append]
      refine ⟨h2 _ (day_row_mem actual d hd), by simp, ?_⟩
      intro a ha b hb
      simp only [List.mem_singleton] at hb
      subst hb
      exact hq.2 a ha
  · refine List.Perm.trans ?_ h3
    refine ((flatten_push_back_at actual d code hd).append_right todo).trans ?_
    have hmid : (actual.flatten ++ code :: todo).Perm (code :: (actual.flatten ++ todo)) :=
      List.perm_middle
    exact hmid.symm

theorem node_ok_new (relations_graph : Graph) (n_CinRooms : Nat) (films : List Nat)
    (code : Nat) (todo : List Nat) (actual : Organization)
    (h : node_ok relations_graph n_CinRooms films (code :: todo) actual) :
    node_ok relations_graph n_CinRooms films todo (actual ++ [[code]]) := by
  obtain ⟨h1, h2, h3⟩ := h
  refine ⟨?_, ?_, ?_⟩
  · intro day hday
    rcases List.mem_append.1 hday with h5 | h5
    · exact h1 day h5
    · simp only [List.mem_singleton] at h5
      subst h5
      simp
  · intro day hday
    rcases List.mem_append.1 hday with h5 | h5
    · exact h2 day h5
    · simp only [List.mem_singleton] at h5
      subst h5
      simp
  · refine List.Perm.trans ?_ h3
    simp

theorem search_node_ok (relations_graph : Graph) (n_CinRooms : Nat) (films : List Nat)
    (todo : List Nat) (actual : Organization) (best : Nat)
    (h : node_ok relations_graph n_CinRooms films todo actual) :
    produces (node_ok relations_graph n_CinRooms films []) best
      (search relations_graph n_CinRooms todo actual best) :=
  search_produces relations_graph n_CinRooms (node_ok relations_graph n_CinRooms films)
    (node_ok relations_graph n_CinRooms films []) (fun _ h => h)
    (fun code todo actual d h hd hq =>
      node_ok_push relations_graph n_CinRooms films code todo actual d h hd hq)
    (fun code todo actual h => node_ok_new relations_graph n_CinRooms films code todo actual h)
    todo actual best h

end Exh

theorem length_flatten_le (actual : Organization) (h : ∀ day ∈ actual, day.length ≤ 1) :
    actual.flatten.length ≤ actual.length := by
  induction actual with
  | nil => simp
  | cons row rest ih =>
    have h1 := h row (by simp)
    have h2 := ih (fun day hday => h day (by simp [hday]))
    simp only [List.flatten_cons, List.length_append, List.length_cons]
    omega

theorem pairwise_distinct_of_symmetric (relations_graph : Graph) (hsym : symmetric relations_graph)
    (day : List Nat) (h : day.Pairwise (fun a b => incompatible relations_graph a b = false)) :
    ∀ a ∈ day, ∀ b ∈ day, a ≠ b → incompatible relations_graph a b = false := by
  have h1 : day.Pairwise (fun a b => a ≠ b → incompatible relations_graph a b = false) :=
    List.Pairwise.imp (S := fun a b => a ≠ b → incompatible relations_graph a b = false)
      (fun hab _ => hab) h
  refine List.Pairwise.forall_of_forall ?_ ?_ h1
  · intro a b hab hne
    rw [hsym]
    exact hab (Ne.symm hne)
  · intro a _ hne
    exact absurd rfl hne

namespace Exh

theorem agrees_labels_lt (target actual : Organization) (labels : List Nat)
    (h : List.Forall₂ (fun row l => l < target.length ∧ ∀ x ∈ row, x ∈ day_row target l)
      actual labels) :
    ∀ l ∈ labels, l < target.length := by
  induction h with
  | nil => simp
  | cons hrl _ ih =>
    intro l hl
    rcases List.mem_cons.1 hl with h1 | h1
    · rw [h1]; exact hrl.1
    · exact ih l h1

theorem agrees_length_le (target actual : Organization) (labels : List Nat)
    (h : agrees target actual labels) : actual.length ≤ target.length := by
  have h1 : labels ⊆ List.range target.length := fun l hl =>
    List.mem_range.2 (agrees_labels_lt target actual labels h.2 l hl)
  have h2 := (h.1.subperm h1).length_le
  rw [List.length_range] at h2
  rw [h.2.length_eq]
  exact h2

theorem agrees_find (target actual : Organization) (labels : List Nat) (r code : Nat)
    (h : List.Forall₂ (fun row l => l < target.length ∧ ∀ x ∈ row, x ∈ day_row target l)
      actual labels)
    (hr : r ∈ labels) (hcode : code ∈ day_row target r) :
    ∃ j, j < actual.length ∧ (∀ x ∈ day_row actual j, x ∈ day_row target r) ∧
      List.Forall₂ (fun row l => l < target.length ∧ ∀ x ∈ row, x ∈ day_row target l)
        (push_back_at actual j code) labels := by
  induction h with
  | nil => simp at hr
  | @cons row l rows ls hrl hrest ih =>
    by_cases hl : l = r
    · subst hl
      refine ⟨0, by simp, by simpa [day_row] using hrl.2, ?_⟩
      refine List.Forall₂.cons ⟨hrl.1, ?_⟩ hrest
      intro x hx
      rcases List.mem_append.1 hx with h1 | h1
      · exact hrl.2 x h1
      · simp only [List.mem_singleton] at h1
        rw [h1]; exact hcode
    · have hr' : r ∈ ls := by
        rcases List.mem_cons.1 hr with h1 | h1
        · exact absurd h1.symm hl
        · exact h1
      obtain ⟨j, hj1, hj2, hj3⟩ := ih hr'
      refine ⟨j + 1, by simpa using hj1, by simpa [day_row] using hj2, ?_⟩
      exact List.Forall₂.cons hrl hj3

theorem mem_flatten_day_row (target : Organization) (x : Nat) (hx : x ∈ target.flatten) :
    ∃ r, r < target.length ∧ x ∈ day_row target r := by
  obtain ⟨row, hrow, hxr⟩ := List.mem_flatten.1 hx
  obtain ⟨r, hr, hre⟩ := List.getElem_of_mem hrow
  refine ⟨r, hr, ?_⟩
  rw [day_row, List.getD_eq_getElem _ _ hr, hre]
  exact hxr

theorem qualifies_of_agrees (relations_graph : Graph) (n_CinRooms : Nat)
    (target actual : Organization) (code j r : Nat)
    (hcap : ∀ day ∈ target, day.length ≤ n_CinRooms)
    (hfeas : ∀ day ∈ target, ∀ a ∈ day, ∀ b ∈ day, a ≠ b →
      incompatible relations_graph a b = false)
    (hj : j < actual.length) (hr : r < target.length)
    (hsub : ∀ x ∈ day_row actual j, x ∈ day_row target r)
    (hcode : code ∈ day_row target r)
    (hnd : actual.flatten.Nodup) (hnew : code ∉ actual.flatten) :
    qualifies relations_graph n_CinRooms actual code j := by
  have hrow : day_row actual j ∈ actual := day_row_mem actual j hj
  have hnotin : code ∉ day_row actual j := fun h => hnew (List.mem_flatten.2 ⟨_, hrow, h⟩)
  have hrownd : (day_row actual j).Nodup :=
    (List.nodup_flatten.1 hnd).1 _ hrow
  constructor
  · have h1 : (day_row actual j ++ [code]).Nodup := by
      rw [List.nodup_append]
      refine ⟨hrownd, by simp, ?_⟩
      intro a ha hb
      simp only [List.mem_singleton] at hb
      exact hnotin (hb ▸ ha)
    have h2 : day_row actual j ++ [code] ⊆ day_row target r := by
      intro x hx
      rcases List.mem_append.1 hx with h3 | h3
      · exact hsub x h3
      · simp only [List.mem_singleton] at h3
        rw [h3]; exact hcode
    have h3 := (h1.subperm h2).length_le
    have h4 := hcap _ (day_row_mem target r hr)
    simp only [List.length_append, List.length_singleton] at h3
    omega
  · intro film hfilm
    exact hfeas _ (day_row_mem target r hr) film (hsub film hfilm) code hcode
      (fun h => hnotin (h ▸ hfilm))

theorem search_days_le (below : Organization → Nat → Nat × List Written)
    (relations_graph : Graph) (n_CinRooms code : Nat) (actual : Organization)
    (hmono : ∀ next best, (below next best).1 ≤ best)
    (steps i best : Nat) :
    (search_days below relations_graph n_CinRooms code actual steps i best).1 ≤ best := by
  induction steps generalizing i best with
  | zero => simp [search_days]
  | succ k ih =>
    by_cases hq : qualifies relations_graph n_CinRooms actual code i
    · simp only [search_days, hq, if_true]
      exact le_trans (ih (i + 1) _) (hmono _ _)
    · simp only [search_days, hq, if_false]
      exact ih (i + 1) best

theorem search_days_reaches (below : Organization → Nat → Nat × List Written)
    (relations_graph : Graph) (n_CinRooms code : Nat) (actual : Organization)
    (hmono : ∀ next best, (below next best).1 ≤ best)
    (j bound : Nat) (hj : j < actual.length)
    (hq : qualifies relations_graph n_CinRooms actual code j)
    (hbound : ∀ best, (below (push_back_at actual j code) best).1 ≤ bound)
    (steps i best : Nat) (hsteps : i + steps = actual.length) (hi : i ≤ j) :
    (search_days below relations_graph n_CinRooms code actual steps i best).1 ≤ bound := by
  induction steps generalizing i best with
  | zero => omega
  | succ k ih =>
    by_cases hij : i = j
    · subst hij
      simp only [search_days, hq, if_true]
      exact le_trans (search_days_le below relations_graph n_CinRooms code actual hmono _ _ _)
        (hbound best)
    · by_cases hqi : qualifies relations_graph n_CinRooms actual code i
      · simp only [search_days, hqi, if_true]
        exact ih (i + 1) _ (by omega) (by omega)
      · simp only [search_days, hqi, if_false]
        exact ih (i + 1) best (by omega) (by omega)

/-- The search is complete: below a node that agrees with a valid complete schedule
`target`, the bound on return is at most the number of days of `target`. -/
theorem search_complete (relations_graph : Graph) (n_CinRooms : Nat) (target : Organization)
    (hcap : ∀ day ∈ target, day.length ≤ n_CinRooms)
    (hfeas : ∀ day ∈ target, ∀ a ∈ day, ∀ b ∈ day, a ≠ b →
      incompatible relations_graph a b = false)
    (todo : List Nat) (actual : Organization) (labels : List Nat) (best : Nat)
    (hagree : agrees target actual labels)
    (hnd : (actual.flatten ++ todo).Nodup)
    (htodo : ∀ code ∈ todo, code ∈ target.flatten) :
    (search relations_graph n_CinRooms todo actual best).1 ≤ target.length := by
  induction todo generalizing actual labels best with
  | nil =>
    have := agrees_length_le target actual labels hagree
    by_cases h : actual.length < best
    · simp only [search, h, if_true]; exact this
    · simp only [search, h, if_false]; omega
  | cons code todo ih =>
    have hlen := agrees_length_le target actual labels hagree
    by_cases h : actual.length < best
    · simp only [search, h, if_true]
      obtain ⟨r, hr, hcode⟩ := mem_flatten_day_row target code (htodo code (by simp))
      have hnd1 : actual.flatten.Nodup := (List.nodup_append.1 hnd).1
      have hnew : code ∉ actual.flatten := fun hc =>
        (List.nodup_append.1 hnd).2.2 hc (by simp)
      have htodo' : ∀ c ∈ todo, c ∈ target.flatten := fun c hc => htodo c (by simp [hc])
      by_cases hlab : r ∈ labels
      · obtain ⟨j, hj1, hj2, hj3⟩ := agrees_find target actual labels r code hagree.2 hlab hcode
        have hq := qualifies_of_agrees relations_graph n_CinRooms target actual code j r
          hcap hfeas hj1 hr hj2 hcode hnd1 hnew
        have hnd2 : ((push_back_at actual j code).flatten ++ todo).Nodup := by
          refine (List.Perm.nodup_iff ?_).2 hnd
          refine ((flatten_push_back_at actual j code hj1).append_right todo).trans ?_
          have hmid : (actual.flatten ++ code :: todo).Perm
              (code :: (actual.flatten ++ todo)) := List.perm_middle
          exact hmid.symm
        have hloop := search_days_reaches (search relations_graph n_CinRooms todo)
          relations_graph n_CinRooms code actual
          (fun next b => search_le relations_graph n_CinRooms todo next b)
          j target.length hj1 hq
          (fun b => ih (push_back_at actual j code) labels b ⟨hagree.1, hj3⟩ hnd2 htodo')
          actual.length 0 best (by omega) (Nat.zero_le _)
        exact le_trans (search_le relations_graph n_CinRooms todo _ _) hloop
      · have hagree' : agrees target (actual ++ [[code]]) (labels ++ [r]) := by
          refine ⟨?_, ?_⟩
          · rw [List.nodup_append]
            refine ⟨hagree.1, by simp, ?_⟩
            intro a ha hb
            simp only [List.mem_singleton] at hb
            exact hlab (hb ▸ ha)
          · refine List.rel_append hagree.2 (List.Forall₂.cons ⟨hr, ?_⟩ List.Forall₂.nil)
            intro x hx
            simp only [List.mem_singleton] at hx
            rw [hx]; exact hcode
        have hnd2 : ((actual ++ [[code]]).flatten ++ todo).Nodup := by
          refine (List.Perm.nodup_iff ?_).2 hnd
          simp
        exact ih (actual ++ [[code]]) (labels ++ [r]) _ hagree' hnd2 htodo'
    · simp only [search, h, if_false]; omega

end Exh

namespace Exh

theorem run_produces (relations_graph : Graph) (n_CinRooms n_films : Nat)
    (restrictions : List Pair)
    (hperm : (restrictions.map Prod.fst).Perm (List.range n_films)) :
    ∃ st, run relations_graph n_CinRooms n_films restrictions = some st ∧
      produces (node_ok relations_graph n_CinRooms (List.range n_films) []) n_films
        (st.BestDays, st.written) := by
  have hlen : restrictions.length = n_films := by
    have := hperm.length_eq
    simpa using this
  subst hlen
  refine ⟨_, run_eq_search relations_graph n_CinRooms restrictions, ?_⟩
  exact search_node_ok relations_graph n_CinRooms (List.range restrictions.length)
    (restrictions.map Prod.fst) [] restrictions.length
    ⟨by simp, by simp, by simpa using hperm⟩

theorem node_ok_capacity (relations_graph : Graph) (n_CinRooms n_films : Nat)
    (actual : Organization)
    (h : node_ok relations_graph n_CinRooms (List.range n_films) [] actual)
    (hdays : actual.length < n_films) :
    ∀ day ∈ actual, day.length ≤ n_CinRooms := by
  obtain ⟨h1, _, h3⟩ := h
  have hflat : actual.flatten.length = n_films := by
    have := h3.length_eq
    simpa using this
  have hrooms : 1 ≤ n_CinRooms := by
    by_contra hc
    have h0 : n_CinRooms = 0 := by omega
    have := length_flatten_le actual (fun day hday => by
      have := (h1 day hday).2
      rw [h0] at this
      simpa using this)
    omega
  intro day hday
  have := (h1 day hday).2
  omega

/-- C2: in the run of `schedule_festival` of `exh.cc` started as in `main`, with
`restrictions` a permutation of the films, every schedule passed to `write` is a valid
complete schedule: `BestDays` is its number of rows, its first `BestDays` rows hold every
film of `0..n_films-1` exactly once (each at exactly one day and room), no row has more than
`n_CinRooms` films, no film of a row is in conflict with a later film of the row, and under
a symmetric `relations_graph` (the only kind `read_data` builds) no two distinct films of a
row are in conflict. -/
theorem run_writes_valid (relations_graph : Graph) (n_CinRooms n_films : Nat)
    (restrictions : List Pair)
    (hperm : (restrictions.map Prod.fst).Perm (List.range n_films)) :
    ∃ st, run relations_graph n_CinRooms n_films restrictions = some st ∧
      ∀ w ∈ st.written,
        w.days = w.best.length ∧
        (w.best.take w.days).flatten.Perm (List.range n_films) ∧
        (∀ film, film < n_films →
          ∃! pos : Nat × Nat, (day_row (w.best.take w.days) pos.1)[pos.2]? = some film) ∧
        (∀ day ∈ w.best.take w.days, day.length ≤ n_CinRooms) ∧
        (∀ day ∈ w.best.take w.days,
          day.Pairwise (fun a b => incompatible relations_graph a b = false)) ∧
        (symmetric relations_graph →
          ∀ day ∈ w.best.take w.days, ∀ a ∈ day, ∀ b ∈ day, a ≠ b →
            incompatible relations_graph a b = false) := by
  obtain ⟨st, hrun, hprod⟩ := run_produces relations_graph n_CinRooms n_films restrictions hperm
  refine ⟨st, hrun, fun w hw => ?_⟩
  obtain ⟨hdays, hlt, _, hok⟩ := hprod.2.1 w hw
  have htake : w.best.take w.days = w.best := by
    rw [hdays]; exact List.take_length _
  rw [htake]
  have hflat : w.best.flatten.Perm (List.range n_films) := by
    simpa using hok.2.2
  refine ⟨hdays, hflat, fun film hfilm => ?_, ?_, hok.2.1, fun hsym day hday => ?_⟩
  · exact unique_position _ film (hflat.nodup_iff.2 (List.nodup_range n_films))
      (hflat.mem_iff.2 (List.mem_range.2 hfilm))
  · exact node_ok_capacity relations_graph n_CinRooms n_films w.best hok
      (by rw [← hdays]; exact hlt)
  · exact pairwise_distinct_of_symmetric relations_graph hsym day (hok.2.1 day hday)

theorem run_writes_valid_witness :
    ∃ st, run graph_AB 2 3 [(0, 1), (1, 1), (2, 0)] = some st ∧
      ∀ w ∈ st.written,
        w.days = w.best.length ∧
        (w.best.take w.days).flatten.Perm (List.range 3) ∧
        (∀ film, film < 3 →
          ∃! pos : Nat × Nat, (day_row (w.best.take w.days) pos.1)[pos.2]? = some film) ∧
        (∀ day ∈ w.best.take w.days, day.length ≤ 2) ∧
        (∀ day ∈ w.best.take w.days,
          day.Pairwise (fun a b => incompatible graph_AB a b = false)) ∧
        (symmetric graph_AB →
          ∀ day ∈ w.best.take w.days, ∀ a ∈ day, ∀ b ∈ day, a ≠ b →
            incompatible graph_AB a b = false) :=
  run_writes_valid graph_AB 2 3 [(0, 1), (1, 1), (2, 0)] (by decide)

end Exh

namespace Exh

/-- Optimality of the search when some valid schedule has fewer than `n_films` days: the run
started as in `main` then calls `write` at least once, and the last schedule written is
valid and has the least number of days among all valid schedules. -/
theorem run_optimal (relations_graph : Graph) (n_CinRooms n_films : Nat)
    (restrictions : List Pair)
    (hperm : (restrictions.map Prod.fst).Perm (List.range n_films))
    (hsym : symmetric relations_graph) (target : Organization)
    (hvalid : valid_schedule relations_graph n_CinRooms n_films target)
    (hless : target.length < n_films) :
    ∃ st w, run relations_graph n_CinRooms n_films restrictions = some st ∧
      st.written.getLast? = some w ∧
      w.days = (w.best.take w.days).length ∧
      valid_schedule relations_graph n_CinRooms n_films (w.best.take w.days) ∧
      ∀ other, valid_schedule relations_graph n_CinRooms n_films other →
        w.days ≤ other.length := by
  obtain ⟨st, hrun, hprod⟩ := run_produces relations_graph n_CinRooms n_films restrictions hperm
  have hlen : restrictions.length = n_films := by
    have := hperm.length_eq
    simpa using this
  have hbest : ∀ other, valid_schedule relations_graph n_CinRooms n_films other →
      st.BestDays ≤ other.length := by
    intro other hother
    have hrun2 := run_eq_search relations_graph n_CinRooms restrictions
    rw [hlen, hrun] at hrun2
    have hb : st.BestDays = (search relations_graph n_CinRooms (restrictions.map Prod.fst) []
        n_films).1 := by
      have := congrArg (Option.map State.BestDays) hrun2
      simpa using this
    rw [hb]
    refine search_complete relations_graph n_CinRooms other hother.2.1 hother.2.2
      (restrictions.map Prod.fst) [] [] n_films ⟨List.nodup_nil, List.Forall₂.nil⟩ ?_ ?_
    · simpa using hperm.nodup_iff.2 (List.nodup_range n_films)
    · intro code hcode
      exact hother.1.mem_iff.2 (hperm.mem_iff.1 hcode)
  have hne : st.written ≠ [] := by
    intro h
    have h1 : st.BestDays = n_films := hprod.2.2.2.1 h
    have h2 := hbest target hvalid
    omega
  obtain ⟨w, hw⟩ : ∃ w, st.written.getLast? = some w := by
    cases hl : st.written.getLast? with
    | none => exact absurd (List.getLast?_eq_none_iff.1 hl) hne
    | some w => exact ⟨w, rfl⟩
  have hmem : w ∈ st.written := List.mem_of_getLast?_eq_some hw
  obtain ⟨hdays, hlt, _, hok⟩ := hprod.2.1 w hmem
  have htake : w.best.take w.days = w.best := by
    rw [hdays]; exact List.take_length _
  have hlast : st.BestDays = w.days := hprod.2.2.2.2 w hw
  refine ⟨st, w, hrun, hw, by rw [htake]; exact hdays, ?_, fun other hother => ?_⟩
  · rw [htake]
    refine ⟨by simpa using hok.2.2, ?_, fun day hday => ?_⟩
    · exact node_ok_capacity relations_graph n_CinRooms n_films w.best hok
        (by rw [← hdays]; exact hlt)
    · exact pairwise_distinct_of_symmetric relations_graph hsym day (hok.2.1 day hday)
  · rw [← hlast]; exact hbest other hother

theorem run_optimal_example :
    ∃ st w, run graph_AB 2 3 [(0, 1), (1, 1), (2, 0)] = some st ∧
      st.written.getLast? = some w ∧
      w.days = (w.best.take w.days).length ∧
      valid_schedule graph_AB 2 3 (w.best.take w.days) ∧
      ∀ other, valid_schedule graph_AB 2 3 other → w.days ≤ other.length :=
  run_optimal graph_AB 2 3 [(0, 1), (1, 1), (2, 0)] (by decide) symmetric_graph_AB
    [[0, 2], [1]] (by unfold valid_schedule; decide) (by decide)

/-- C1 fails on `exh.cc`: on the instance with one film, no pair and one room the run ends
without any call of `write`, although the one-day schedule holding the film is valid. -/
theorem main_one_film_writes_nothing :
    main insertion_sort input_one_film = some { actual := [], BestDays := 1, written := [] } ∧
      (read_data insertion_sort input_one_film).relations_graph = [[false]] ∧
      valid_schedule [[false]] 1 1 [[0]] := by
  refine ⟨by decide, by decide, ?_⟩
  unfold valid_schedule
  decide

end Exh

/-! ## mh.cc: conflicts inside a day -/

namespace Mh

theorem count_loop_append (relations_graph : Graph) (code : Nat) (l1 l2 : List Nat) :
    count_loop relations_graph code (l1 ++ l2)
      = count_loop relations_graph code l1 + count_loop relations_graph code l2 := by
  induction l1 with
  | nil => simp [count_loop]
  | cons x rest ih => simp [count_loop, ih]; omega

theorem count_loop_eq_zero (relations_graph : Graph) (code : Nat) (row : List Nat) :
    count_loop relations_graph code row = 0 ↔
      ∀ film ∈ row, incompatible relations_graph code film = false := by
  induction row with
  | nil => simp [count_loop]
  | cons x rest ih =>
    by_cases h : incompatible relations_graph code x = true
    · simp [count_loop, h]
    · simp [count_loop, h, ih]

theorem conflicts_eq_zero (relations_graph : Graph) (row : List Nat) :
    conflicts relations_graph row = 0 ↔
      row.Pairwise (fun a b => incompatible relations_graph a b = false) := by
  induction row with
  | nil => simp [conflicts]
  | cons x rest ih =>
    simp only [conflicts, List.pairwise_cons, Nat.add_eq_zero_iff, count_loop_eq_zero, ih]

theorem conflicts_append_singleton (relations_graph : Graph) (hsym : symmetric relations_graph)
    (row : List Nat) (code : Nat) :
    conflicts relations_graph (row ++ [code])
      = conflicts relations_graph row + count_loop relations_graph code row := by
  induction row with
  | nil => simp [conflicts, count_loop]
  | cons x rest ih =>
    have h1 : conflicts relations_graph (x :: rest ++ [code])
        = count_loop relations_graph x (rest ++ [code])
          + conflicts relations_graph (rest ++ [code]) := rfl
    rw [h1, ih, count_loop_append]
    simp only [conflicts, count_loop, hsym code x]
    omega

theorem conflicts_dropLast (relations_graph : Graph) (hsym : symmetric relations_graph)
    (row : List Nat) (h : conflicts relations_graph row = 0) :
    conflicts relations_graph row.dropLast = 0 := by
  rcases List.eq_nil_or_concat row with h1 | ⟨l, x, h1⟩
  · subst h1; simp [conflicts]
  · subst h1
    rw [List.concat_eq_append] at h ⊢
    rw [List.dropLast_concat]
    rw [conflicts_append_singleton relations_graph hsym] at h
    omega

theorem count_loop_set (relations_graph : Graph) (code film : Nat) (row : List Nat) (k : Nat)
    (hk : k < row.length) :
    count_loop relations_graph code (row.set k film)
        + (if incompatible relations_graph code (row.getD k 0) then 1 else 0)
      = count_loop relations_graph code row
        + (if incompatible relations_graph code film then 1 else 0) := by
  induction row generalizing k with
  | nil => simp at hk
  | cons x rest ih =>
    cases k with
    | zero => simp [count_loop]; omega
    | succ k =>
      have := ih k (by simpa using hk)
      simp only [List.set_cons_succ, count_loop, List.getD_cons_succ]
      omega

theorem conflicts_set (relations_graph : Graph) (hsym : symmetric relations_graph)
    (hirr : irreflexive relations_graph) (film : Nat) (row : List Nat) (k : Nat)
    (hk : k < row.length) :
    conflicts relations_graph (row.set k film)
        + count_loop relations_graph (row.getD k 0) row
      = conflicts relations_graph row
        + count_loop relations_graph film (row.set k film) := by
  induction row generalizing k with
  | nil => simp at hk
  | cons x rest ih =>
    cases k with
    | zero =>
      simp only [List.set_cons_zero, conflicts, List.getD_cons_zero, count_loop, hirr x,
        hirr film]
      simp
      omega
    | succ k =>
      have h1 := ih k (by simpa using hk)
      have h2 := count_loop_set relations_graph x film rest k (by simpa using hk)
      simp only [List.set_cons_succ, conflicts, List.getD_cons_succ, count_loop,
        hsym (rest.getD k 0) x, hsym film x]
      omega

end Mh

/-! ## mh.cc: the bound decreases at every write -/

namespace Mh

theorem order_ok_write (st : State) (h : order_ok st) (hlt : st.actual.length < st.best_days) :
    order_ok (write { st with best_days := st.actual.length }) := by
  obtain ⟨h1, h2, h3⟩ := h
  refine ⟨?_, ?_, ?_⟩
  · simp only [write, List.map_append, List.map_cons, List.map_nil]
    rw [List.pairwise_append]
    refine ⟨h1, by simp, ?_⟩
    intro a ha b hb
    obtain ⟨w, hw, rfl⟩ := List.mem_map.1 ha
    simp only [List.mem_singleton] at hb
    subst hb
    exact lt_of_lt_of_le hlt (h2 w hw)
  · intro w hw
    simp only [write, List.mem_append, List.mem_singleton] at hw
    rcases hw with hw | hw
    · exact le_of_lt (lt_of_lt_of_le hlt (h2 w hw))
    · subst hw; exact le_refl _
  · intro w hw
    simp only [write, List.getLast?_concat, Option.some.injEq] at hw
    subst hw
    rfl

theorem order_ok_congr (st st' : State) (h : order_ok st)
    (h1 : st'.best_days = st.best_days) (h2 : st'.written = st.written) : order_ok st' := by
  unfold order_ok at *
  rw [h1, h2]
  exact h

theorem order_ok_improve_loop (relations_graph : Graph) (n_CinRooms day_to_remove fuel : Nat)
    (st : State) (h : order_ok st) :
    order_ok (improve_loop relations_graph n_CinRooms day_to_remove fuel st).state := by
  induction fuel generalizing st with
  | zero => exact h
  | succ fuel ih =>
    unfold improve_loop
    dsimp only
    split_ifs with h1 h2 h3
    · exact ih _ (order_ok_congr st _ h rfl rfl)
    · exact ih _ (order_ok_write st h h3)
    · exact ih _ h
    · exact h

theorem order_ok_improve (relations_graph : Graph) (n_CinRooms fuel : Nat) (st : State)
    (h : order_ok st) : order_ok (improve relations_graph n_CinRooms fuel st).state := by
  have h1 := order_ok_improve_loop relations_graph n_CinRooms (st.actual.length - 1) fuel st h
  unfold improve
  split_ifs with h2
  · exact h
  · cases hr : improve_loop relations_graph n_CinRooms (st.actual.length - 1) fuel st with
    | done st1 v =>
      rw [hr] at h1
      simp only []
      split_ifs
      · exact order_ok_congr st1 _ h1 rfl rfl
      · exact h1
    | timeout st1 => rw [hr] at h1; exact h1
    | undefined st1 => rw [hr] at h1; exact h1

theorem propose_log (lib : Library) (relations_graph : Graph) (day_to_solve film_index : Nat)
    (old1 random_day k : Nat) (st : State) :
    (propose lib relations_graph day_to_solve film_index old1 random_day k st).best_days
        = st.best_days ∧
      (propose lib relations_graph day_to_solve film_index old1 random_day k st).written
        = st.written := by
  unfold propose
  simp only []
  split_ifs <;> exact ⟨rfl, rfl⟩

theorem films_loop_log (lib : Library) (relations_graph : Graph) (day_to_solve fuel : Nat)
    (steps film_index k : Nat) (st : State) :
    (films_loop lib relations_graph day_to_solve fuel steps film_index k st).state.best_days
        = st.best_days ∧
      (films_loop lib relations_graph day_to_solve fuel steps film_index k st).state.written
        = st.written := by
  induction steps generalizing film_index k st with
  | zero => exact ⟨rfl, rfl⟩
  | succ steps ih =>
    unfold films_loop
    split_ifs with h1
    · cases hr : random_day_loop lib st.actual.length day_to_solve fuel st.draws with
      | none => exact ⟨rfl, rfl⟩
      | some r =>
        obtain ⟨random_day, draws⟩ := r
        simp only []
        split_ifs with h2
        · exact ⟨rfl, rfl⟩
        · have h3 := ih (film_index + 1) (k + 1) (propose lib relations_graph day_to_solve
            film_index (how_many_incompatibilities relations_graph st.actual day_to_solve
              ((day_row st.actual day_to_solve).getD film_index 0)) random_day k
            { st with draws := draws })
          have h4 := propose_log lib relations_graph day_to_solve film_index
            (how_many_incompatibilities relations_graph st.actual day_to_solve
              ((day_row st.actual day_to_solve).getD film_index 0)) random_day k
            { st with draws := draws }
          exact ⟨h3.1.trans h4.1, h3.2.trans h4.2⟩
    · exact ih (film_index + 1) k st

theorem annealing_loop_log (lib : Library) (relations_graph : Graph) (fuel k : Nat)
    (st : State) :
    (annealing_loop lib relations_graph fuel k st).state.best_days = st.best_days ∧
      (annealing_loop lib relations_graph fuel k st).state.written = st.written := by
  induction fuel generalizing k st with
  | zero => exact ⟨rfl, rfl⟩
  | succ fuel ih =>
    unfold annealing_loop
    split_ifs with h1
    · cases hd : first_incomp st.day_incomp 0 with
      | none => exact ⟨rfl, rfl⟩
      | some day_to_solve =>
        have h2 := films_loop_log lib relations_graph day_to_solve fuel
          (day_row st.actual day_to_solve).length 0 k st
        simp only []
        split_ifs with hrange
        · cases hr : films_loop lib relations_graph day_to_solve fuel
              (day_row st.actual day_to_solve).length 0 k st with
          | done st1 k1 =>
            rw [hr] at h2
            have h3 := ih k1 st1
            exact ⟨h3.1.trans h2.1, h3.2.trans h2.2⟩
          | timeout st1 => rw [hr] at h2; exact h2
          | undefined st1 => rw [hr] at h2; exact h2
        · exact ⟨rfl, rfl⟩
    · exact ⟨rfl, rfl⟩

theorem order_ok_solve_incompatibilities (lib : Library) (relations_graph : Graph)
    (fuel : Nat) (st : State) (h : order_ok st) :
    order_ok (solve_incompatibilities lib relations_graph fuel st).state := by
  have h1 := annealing_loop_log lib relations_graph fuel 0 st
  have h2 : order_ok (annealing_loop lib relations_graph fuel 0 st).state :=
    order_ok_congr st _ h h1.1 h1.2
  unfold solve_incompatibilities
  cases hr : annealing_loop lib relations_graph fuel 0 st with
  | done st1 k1 =>
    rw [hr] at h2
    simp only []
    split_ifs with h3 h4
    · exact order_ok_write st1 h2 h4
    · exact h2
    · exact h2
  | timeout st1 => rw [hr] at h2; exact h2
  | undefined st1 => rw [hr] at h2; exact h2

theorem order_ok_repair_loop (lib : Library) (relations_graph : Graph) (n_CinRooms fuel : Nat)
    (st : State) (h : order_ok st) :
    order_ok (repair_loop lib relations_graph n_CinRooms fuel st).state := by
  induction fuel generalizing st with
  | zero => exact h
  | succ fuel ih =>
    have h1 := order_ok_improve relations_graph n_CinRooms fuel st h
    unfold repair_loop
    cases hr : improve relations_graph n_CinRooms fuel st with
    | done st1 v =>
      rw [hr] at h1
      have h2 := order_ok_solve_incompatibilities lib relations_graph fuel st1 h1
      simp only []
      cases hs : solve_incompatibilities lib relations_graph fuel st1 with
      | done st2 b =>
        rw [hs] at h2
        cases b with
        | true => exact ih st2 h2
        | false => exact h2
      | timeout st2 => rw [hs] at h2; exact h2
      | undefined st2 => rw [hs] at h2; exact h2
    | timeout st1 => rw [hr] at h1; exact h1
    | undefined st1 => rw [hr] at h1; exact h1

theorem order_ok_GRASP (lib : Library) (relations_graph : Graph) (n_CinRooms n_films : Nat)
    (fuel : Nat) (st : State) (h : order_ok st) :
    order_ok (GRASP lib relations_graph n_CinRooms n_films fuel st).state := by
  induction fuel generalizing st with
  | zero => exact h
  | succ fuel ih =>
    unfold GRASP
    simp only []
    have h1 : order_ok
        { (if (generate_initial_solution lib relations_graph n_CinRooms n_films).length
              < st.best_days then
            { write { st with
                actual := generate_initial_solution lib relations_graph n_CinRooms n_films } with
              best_days :=
                (generate_initial_solution lib relations_graph n_CinRooms n_films).length }
          else { st with
            actual := generate_initial_solution lib relations_graph n_CinRooms n_films }) with
          incompatibilities := 0
          day_incomp := List.replicate
            (generate_initial_solution lib relations_graph n_CinRooms n_films).length 0 } := by
      split_ifs with h2
      · exact order_ok_congr _ _
          (order_ok_write { st with
            actual := generate_initial_solution lib relations_graph n_CinRooms n_films }
            (order_ok_congr st _ h rfl rfl) h2) rfl rfl
      · exact order_ok_congr st _ h rfl rfl
    have h2 := order_ok_repair_loop lib relations_graph n_CinRooms fuel _ h1
    cases hr : repair_loop lib relations_graph n_CinRooms fuel
        { (if (generate_initial_solution lib relations_graph n_CinRooms n_films).length
              < st.best_days then
            { write { st with
                actual := generate_initial_solution lib relations_graph n_CinRooms n_films } with
              best_days :=
                (generate_initial_solution lib relations_graph n_CinRooms n_films).length }
          else { st with
            actual := generate_initial_solution lib relations_graph n_CinRooms n_films }) with
          incompatibilities := 0
          day_incomp := List.replicate
            (generate_initial_solution lib relations_graph n_CinRooms n_films).length 0 } with
    | done st2 v => rw [hr] at h2; exact ih st2 h2
    | timeout st2 => rw [hr] at h2; exact h2
    | undefined st2 => rw [hr] at h2; exact h2

end Mh

/-! ## mh.cc: rows and counters under the updates of `improve` and `propose` -/

theorem length_pop_back_at (actual : Organization) (day : Nat) :
    (pop_back_at actual day).length = actual.length := by
  induction actual generalizing day with
  | nil => rfl
  | cons row rest ih =>
    cases day with
    | zero => rfl
    | succ d => simp [pop_back_at, ih]

theorem day_row_push_back_at (actual : Organization) (day code i : Nat) :
    day_row (push_back_at actual day code) i
      = if i = day ∧ day < actual.length then day_row actual day ++ [code]
        else day_row actual i := by
  induction actual generalizing day i with
  | nil => simp [push_back_at, day_row]
  | cons row rest ih =>
    cases day with
    | zero =>
      cases i with
      | zero => simp [push_back_at, day_row]
      | succ i => simp [push_back_at, day_row]
    | succ d =>
      cases i with
      | zero => simp [push_back_at, day_row]
      | succ i =>
        simpa [push_back_at, day_row] using ih d i

theorem day_row_pop_back_at (actual : Organization) (day i : Nat) :
    day_row (pop_back_at actual day) i
      = if i = day then (day_row actual day).dropLast else day_row actual i := by
  induction actual generalizing day i with
  | nil => simp [pop_back_at, day_row]
  | cons row rest ih =>
    cases day with
    | zero =>
      cases i with
      | zero => simp [pop_back_at, day_row]
      | succ i => simp [pop_back_at, day_row]
    | succ d =>
      cases i with
      | zero => simp [pop_back_at, day_row]
      | succ i =>
        simpa [pop_back_at, day_row] using ih d i

theorem day_row_of_length_le (actual : Organization) (i : Nat) (h : actual.length ≤ i) :
    day_row actual i = [] := by
  rw [day_row, List.getD_eq_default _ _ h]

theorem organization_ext (a b : Organization) (hlen : a.length = b.length)
    (hrow : ∀ i, i < a.length → day_row a i = day_row b i) : a = b := by
  apply List.ext_getElem hlen
  intro i h1 h2
  have := hrow i h1
  rw [day_row, day_row, List.getD_eq_getElem _ _ h1, List.getD_eq_getElem _ _ h2] at this
  exact this

namespace Mh

theorem length_set_film (actual : Organization) (day room film : Nat) :
    (set_film actual day room film).length = actual.length := by
  simp [set_film]

theorem day_row_set_film (actual : Organization) (day room film i : Nat) :
    day_row (set_film actual day room film) i
      = if i = day then (day_row actual day).set room film else day_row actual i := by
  by_cases hd : day < actual.length
  · by_cases hi : i = day
    · subst hi
      simp [set_film, day_row, List.getD_eq_getElem?_getD, List.getElem?_set, hd]
    · simp [set_film, day_row, List.getD_eq_getElem?_getD, List.getElem?_set, hi, Ne.symm hi]
  · have h1 : set_film actual day room film = actual := by
      simp [set_film, List.set_eq_of_length_le (Nat.le_of_not_lt hd)]
    rw [h1]
    by_cases hi : i = day
    · subst hi
      simp [day_row_of_length_le actual i (Nat.le_of_not_lt hd)]
    · simp [hi]

theorem list_set_getD_self (row : List Nat) (k : Nat) : row.set k (row.getD k 0) = row := by
  induction row generalizing k with
  | nil => simp
  | cons x rest ih =>
    cases k with
    | zero => simp
    | succ k => simpa using ih k

theorem list_getD_set_self (row : List Nat) (k film : Nat) (hk : k < row.length) :
    (row.set k film).getD k 0 = film := by
  simp [List.getD_eq_getElem?_getD, List.getElem?_set, hk]

theorem add_at_map (relations_graph : Graph) (actual : Organization) (day : Nat)
    (row : List Nat) (delta : Int) (hday : day < actual.length)
    (h : (conflicts relations_graph row : Int)
      = conflicts relations_graph (day_row actual day) + delta) :
    (actual.set day row).map (fun d => (conflicts relations_graph d : Int))
      = add_at (actual.map (fun d => (conflicts relations_graph d : Int))) day delta := by
  induction actual generalizing day with
  | nil => simp at hday
  | cons r rest ih =>
    cases day with
    | zero =>
      simp only [day_row, List.getD_cons_zero] at h
      simp [add_at, h]
    | succ d =>
      have := ih d (by simpa using hday) (by simpa [day_row] using h)
      simp only [add_at, List.getD_eq_getElem?_getD] at this
      simp [add_at, this]

theorem sum_add_at (l : List Int) (day : Nat) (delta : Int) (hday : day < l.length) :
    (add_at l day delta).sum = l.sum + delta := by
  induction l generalizing day with
  | nil => simp at hday
  | cons x rest ih =>
    cases day with
    | zero => simp [add_at]; omega
    | succ d =>
      have := ih d (by simpa using hday)
      simp only [add_at, List.getD_eq_getElem?_getD] at this
      simp [add_at, this]
      omega

theorem set_eq_of_day_row (actual : Organization) (day : Nat) (row : List Nat)
    (hday : day < actual.length) (next : Organization)
    (hlen : next.length = actual.length)
    (hrow : ∀ i, day_row next i = if i = day then row else day_row actual i) :
    next = actual.set day row := by
  apply organization_ext
  · simp [hlen]
  · intro i hi
    rw [hrow i]
    by_cases h : i = day
    · subst h
      simp [day_row, List.getD_eq_getElem?_getD, List.getElem?_set, hday]
    · simp [day_row, List.getD_eq_getElem?_getD, List.getElem?_set, h, Ne.symm h]

end Mh

/-! ## mh.cc: a proposed swap keeps the counters right -/

namespace Mh

theorem length_add_at (l : List Int) (day : Nat) (delta : Int) :
    (add_at l day delta).length = l.length := by
  simp [add_at]

theorem swap_rows (actual : Organization) (day_to_solve film_index random_day random_film : Nat)
    (hne : random_day ≠ day_to_solve) (i : Nat) :
    day_row
        (set_film
          (set_film actual day_to_solve film_index
            ((day_row actual random_day).getD random_film 0))
          random_day random_film ((day_row actual day_to_solve).getD film_index 0)) i
      = if i = random_day then
          (day_row actual random_day).set random_film
            ((day_row actual day_to_solve).getD film_index 0)
        else if i = day_to_solve then
          (day_row actual day_to_solve).set film_index
            ((day_row actual random_day).getD random_film 0)
        else day_row actual i := by
  rw [day_row_set_film]
  by_cases h1 : i = random_day
  · subst h1
    simp [day_row_set_film, hne]
  · simp [h1, day_row_set_film]

theorem swap_undo (actual : Organization) (day_to_solve film_index random_day random_film : Nat)
    (hne : random_day ≠ day_to_solve)
    (hfi : film_index < (day_row actual day_to_solve).length) :
    set_film
        (set_film
          (set_film
            (set_film actual day_to_solve film_index
              ((day_row actual random_day).getD random_film 0))
            random_day random_film ((day_row actual day_to_solve).getD film_index 0))
          random_day random_film
          ((day_row
            (set_film
              (set_film actual day_to_solve film_index
                ((day_row actual random_day).getD random_film 0))
              random_day random_film ((day_row actual day_to_solve).getD film_index 0))
            day_to_solve).getD film_index 0))
        day_to_solve film_index ((day_row actual day_to_solve).getD film_index 0)
      = actual := by
  apply organization_ext
  · simp [length_set_film]
  · intro i _
    have hne' : day_to_solve ≠ random_day := Ne.symm hne
    rw [day_row_set_film]
    by_cases h1 : i = day_to_solve
    · subst h1
      rw [if_pos rfl, day_row_set_film, if_neg hne', swap_rows actual i film_index random_day
        random_film hne, if_neg hne', if_pos rfl, List.set_set, list_set_getD_self]
    · rw [if_neg h1, day_row_set_film]
      by_cases h2 : i = random_day
      · subst h2
        rw [if_pos rfl, swap_rows actual day_to_solve film_index i random_film hne,
          swap_rows actual day_to_solve film_index i random_film hne, if_pos rfl, if_neg hne',
          if_pos rfl, List.set_set, list_getD_set_self _ _ _ hfi, list_set_getD_self]
      · rw [if_neg h2, swap_rows actual day_to_solve film_index random_day random_film hne,
          if_neg h2, if_neg h1]

theorem swap_counts (relations_graph : Graph) (hsym : symmetric relations_graph)
    (hirr : irreflexive relations_graph) (actual : Organization)
    (day_to_solve film_index random_day random_film : Nat)
    (hds : day_to_solve < actual.length) (hrd : random_day < actual.length)
    (hne : random_day ≠ day_to_solve)
    (hfi : film_index < (day_row actual day_to_solve).length)
    (hrf : random_film < (day_row actual random_day).length) :
    (set_film
        (set_film actual day_to_solve film_index
          ((day_row actual random_day).getD random_film 0))
        random_day random_film ((day_row actual day_to_solve).getD film_index 0)).map
        (fun d => (conflicts relations_graph d : Int))
      = add_at
          (add_at (actual.map (fun d => (conflicts relations_graph d : Int))) day_to_solve
            ((how_many_incompatibilities relations_graph
                (set_film
                  (set_film actual day_to_solve film_index
                    ((day_row actual random_day).getD random_film 0))
                  random_day random_film ((day_row actual day_to_solve).getD film_index 0))
                day_to_solve
                ((day_row
                  (set_film
                    (set_film actual day_to_solve film_index
                      ((day_row actual random_day).getD random_film 0))
                    random_day random_film ((day_row actual day_to_solve).getD film_index 0))
                  day_to_solve).getD film_index 0) : Int)
              - (how_many_incompatibilities relations_graph actual day_to_solve
                  ((day_row actual day_to_solve).getD film_index 0) : Int)))
          random_day
          ((how_many_incompatibilities relations_graph
              (set_film
                (set_film actual day_to_solve film_index
                  ((day_row actual random_day).getD random_film 0))
                random_day random_film ((day_row actual day_to_solve).getD film_index 0))
              random_day
              ((day_row
                (set_film
                  (set_film actual day_to_solve film_index
                    ((day_row actual random_day).getD random_film 0))
                  random_day random_film ((day_row actual day_to_solve).getD film_index 0))
                random_day).getD random_film 0) : Int)
            - (how_many_incompatibilities relations_graph actual random_day
                ((day_row actual random_day).getD random_film 0) : Int)) := by
  have hne' : day_to_solve ≠ random_day := Ne.symm hne
  have hrow1 := swap_rows actual day_to_solve film_index random_day random_film hne day_to_solve
  rw [if_neg hne', if_pos rfl] at hrow1
  have hrow2 := swap_rows actual day_to_solve film_index random_day random_film hne random_day
  rw [if_pos rfl] at hrow2
  simp only [how_many_incompatibilities, hrow1, hrow2, list_getD_set_self _ _ _ hfi,
    list_getD_set_self _ _ _ hrf]
  have h1 := conflicts_set relations_graph hsym hirr
    ((day_row actual random_day).getD random_film 0) (day_row actual day_to_solve)
    film_index hfi
  have h2 := conflicts_set relations_graph hsym hirr
    ((day_row actual day_to_solve).getD film_index 0) (day_row actual random_day)
    random_film hrf
  have hmid : day_row (set_film actual day_to_solve film_index
      ((day_row actual random_day).getD random_film 0)) random_day = day_row actual random_day := by
    rw [day_row_set_film, if_neg hne]
  have e1 : set_film
      (set_film actual day_to_solve film_index ((day_row actual random_day).getD random_film 0))
      random_day random_film ((day_row actual day_to_solve).getD film_index 0)
      = (actual.set day_to_solve ((day_row actual day_to_solve).set film_index
          ((day_row actual random_day).getD random_film 0))).set random_day
          ((day_row actual random_day).set random_film
            ((day_row actual day_to_solve).getD film_index 0)) := by
    have : set_film actual day_to_solve film_index
        ((day_row actual random_day).getD random_film 0)
        = actual.set day_to_solve ((day_row actual day_to_solve).set film_index
          ((day_row actual random_day).getD random_film 0)) := rfl
    rw [← this]
    show List.set _ _ _ = _
    rw [hmid]
  rw [e1]
  rw [add_at_map relations_graph _ random_day _
    ((count_loop relations_graph ((day_row actual day_to_solve).getD film_index 0)
        ((day_row actual random_day).set random_film
          ((day_row actual day_to_solve).getD film_index 0)) : Int)
      - (count_loop relations_graph ((day_row actual random_day).getD random_film 0)
          (day_row actual random_day) : Int))
    (by simpa using hrd)]
  · rw [add_at_map relations_graph actual day_to_solve _
      ((count_loop relations_graph ((day_row actual random_day).getD random_film 0)
          ((day_row actual day_to_solve).set film_index
            ((day_row actual random_day).getD random_film 0)) : Int)
        - (count_loop relations_graph ((day_row actual day_to_solve).getD film_index 0)
            (day_row actual day_to_solve) : Int)) hds]
    omega
  · have : day_row (actual.set day_to_solve ((day_row actual day_to_solve).set film_index
        ((day_row actual random_day).getD random_film 0))) random_day
        = day_row actual random_day := hmid
    rw [this]
    omega

end Mh

/-! ## mh.cc: `solve_incompatibilities` keeps the counters right -/

namespace Mh

theorem propose_counts (lib : Library) (relations_graph : Graph)
    (hsym : symmetric relations_graph) (hirr : irreflexive relations_graph)
    (day_to_solve film_index random_day k : Nat) (st : State)
    (hc : counts_ok relations_graph st)
    (hds : day_to_solve < st.actual.length) (hrd : random_day < st.actual.length)
    (hne : random_day ≠ day_to_solve)
    (hfi : film_index < (day_row st.actual day_to_solve).length)
    (hpos : 0 < (day_row st.actual random_day).length) :
    counts_ok relations_graph
        (propose lib relations_graph day_to_solve film_index
          (how_many_incompatibilities relations_graph st.actual day_to_solve
            ((day_row st.actual day_to_solve).getD film_index 0)) random_day k st) ∧
      (propose lib relations_graph day_to_solve film_index
          (how_many_incompatibilities relations_graph st.actual day_to_solve
            ((day_row st.actual day_to_solve).getD film_index 0)) random_day k st).actual.length
        = st.actual.length ∧
      ∀ i, (day_row (propose lib relations_graph day_to_solve film_index
          (how_many_incompatibilities relations_graph st.actual day_to_solve
            ((day_row st.actual day_to_solve).getD film_index 0)) random_day k st).actual
          i).length = (day_row st.actual i).length := by
  have hrf : lib.rand st.draws % (day_row st.actual random_day).length
      < (day_row st.actual random_day).length := Nat.mod_lt _ hpos
  have hcounts := swap_counts relations_graph hsym hirr st.actual day_to_solve film_index
    random_day (lib.rand st.draws % (day_row st.actual random_day).length) hds hrd hne hfi hrf
  have hundo := swap_undo st.actual day_to_solve film_index random_day
    (lib.rand st.draws % (day_row st.actual random_day).length) hne hfi
  have hrows : ∀ i, (day_row (set_film
      (set_film st.actual day_to_solve film_index
        ((day_row st.actual random_day).getD
          (lib.rand st.draws % (day_row st.actual random_day).length) 0))
      random_day (lib.rand st.draws % (day_row st.actual random_day).length)
      ((day_row st.actual day_to_solve).getD film_index 0)) i).length
      = (day_row st.actual i).length := by
    intro i
    rw [swap_rows _ _ _ _ _ hne]
    split_ifs with h1 h2
    · subst h1; simp
    · subst h2; simp
    · rfl
  unfold propose
  dsimp only
  split_ifs with h1 h2
  · refine ⟨⟨?_, ?_⟩, by simp [length_set_film], hrows⟩
    · show _ = List.map _ _
      rw [hcounts, ← hc.1]
    · show _ = List.sum _
      rw [sum_add_at _ _ _ (by rw [length_add_at, hc.1]; simpa using hrd),
        sum_add_at _ _ _ (by rw [hc.1]; simpa using hds), ← hc.2]
      push_cast
      omega
  · refine ⟨⟨?_, ?_⟩, by simp [length_set_film], hrows⟩
    · show _ = List.map _ _
      rw [hcounts, ← hc.1]
    · show _ = List.sum _
      rw [sum_add_at _ _ _ (by rw [length_add_at, hc.1]; simpa using hrd),
        sum_add_at _ _ _ (by rw [hc.1]; simpa using hds), ← hc.2]
      push_cast
      omega
  · refine ⟨?_, ?_, ?_⟩
    · refine ⟨?_, hc.2⟩
      show st.day_incomp = List.map _ _
      rw [hundo]
      exact hc.1
    · show List.length _ = _
      rw [hundo]
    · intro i
      show List.length (day_row _ i) = _
      rw [hundo]

theorem random_day_loop_spec (lib : Library) (size day_to_solve fuel draws : Nat)
    (r : Nat × Nat) (hsize : 0 < size)
    (h : random_day_loop lib size day_to_solve fuel draws = some r) :
    r.1 ≠ day_to_solve ∧ r.1 < size := by
  induction fuel generalizing draws with
  | zero => simp [random_day_loop] at h
  | succ fuel ih =>
    unfold random_day_loop at h
    split_ifs at h with h1
    · exact ih _ h
    · simp only [Option.some.injEq] at h
      subst h
      exact ⟨h1, Nat.mod_lt _ hsize⟩

theorem first_incomp_spec (l : List Int) (i d : Nat) (h : first_incomp l i = some d) :
    i ≤ d ∧ d < i + l.length := by
  induction l generalizing i with
  | nil => simp [first_incomp] at h
  | cons x rest ih =>
    unfold first_incomp at h
    split_ifs at h with h1
    · simp only [Option.some.injEq] at h
      subst h
      simp
    · have := ih (i + 1) h
      simp only [List.length_cons]
      omega

theorem films_loop_counts (lib : Library) (relations_graph : Graph)
    (hsym : symmetric relations_graph) (hirr : irreflexive relations_graph)
    (day_to_solve fuel steps film_index k : Nat) (st : State)
    (hc : counts_ok relations_graph st) (hds : day_to_solve < st.actual.length)
    (hsteps : film_index + steps = (day_row st.actual day_to_solve).length) :
    ∀ st1 k1,
      films_loop lib relations_graph day_to_solve fuel steps film_index k st = .done st1 k1 →
      counts_ok relations_graph st1 ∧ st1.actual.length = st.actual.length := by
  induction steps generalizing film_index k st with
  | zero =>
    intro st1 k1 h
    simp only [films_loop, Res.done.injEq] at h
    rw [← h.1]
    exact ⟨hc, rfl⟩
  | succ steps ih =>
    intro st1 k1 h
    unfold films_loop at h
    split_ifs at h with h1
    · cases hr : random_day_loop lib st.actual.length day_to_solve fuel st.draws with
      | none => rw [hr] at h; simp at h
      | some r =>
        obtain ⟨random_day, draws⟩ := r
        rw [hr] at h
        dsimp only at h
        have hspec := random_day_loop_spec lib st.actual.length day_to_solve fuel st.draws
          (random_day, draws) (by omega) hr
        split_ifs at h with h2
        have hfi : film_index < (day_row st.actual day_to_solve).length := by omega
        have hp := propose_counts lib relations_graph hsym hirr day_to_solve film_index
          random_day k { st with draws := draws } hc hds hspec.2 hspec.1 hfi
          (Nat.pos_of_ne_zero h2)
        have hlen2 : film_index + 1 + steps = (day_row st.actual day_to_solve).length := by
          omega
        have := ih (film_index + 1) (k + 1) _ hp.1 (by rw [hp.2.1]; exact hds)
          (by rw [hp.2.2 day_to_solve]; exact hlen2) st1 k1 h
        exact ⟨this.1, this.2.trans hp.2.1⟩
    · exact ih (film_index + 1) k st hc hds (by omega) st1 k1 h

theorem annealing_loop_counts (lib : Library) (relations_graph : Graph)
    (hsym : symmetric relations_graph) (hirr : irreflexive relations_graph)
    (fuel k : Nat) (st : State) (hc : counts_ok relations_graph st) :
    ∀ st1 k1, annealing_loop lib relations_graph fuel k st = .done st1 k1 →
      counts_ok relations_graph st1 ∧ st1.actual.length = st.actual.length := by
  induction fuel generalizing k st with
  | zero => intro st1 k1 h; simp [annealing_loop] at h
  | succ fuel ih =>
    intro st1 k1 h
    unfold annealing_loop at h
    split_ifs at h with h1
    · cases hd : first_incomp st.day_incomp 0 with
      | none => rw [hd] at h; simp at h
      | some day_to_solve =>
        rw [hd] at h
        dsimp only at h
        have hspec := first_incomp_spec st.day_incomp 0 day_to_solve hd
        have hds : day_to_solve < st.actual.length := by
          have := hspec.2
          rw [hc.1] at this
          simpa using this
        rw [if_pos hds] at h
        cases hr : films_loop lib relations_graph day_to_solve fuel
            (day_row st.actual day_to_solve).length 0 k st with
        | done st2 k2 =>
          rw [hr] at h
          dsimp only at h
          have h2 := films_loop_counts lib relations_graph hsym hirr day_to_solve fuel
            (day_row st.actual day_to_solve).length 0 k st hc hds (by omega) st2 k2 hr
          have h3 := ih k2 st2 h2.1 st1 k1 h
          exact ⟨h3.1, h3.2.trans h2.2⟩
        | timeout st2 => rw [hr] at h; simp at h
        | undefined st2 => rw [hr] at h; simp at h
    · simp only [Res.done.injEq] at h
      rw [← h.1]
      exact ⟨hc, rfl⟩

theorem sum_conflicts_nonneg (relations_graph : Graph) (actual : Organization) :
    0 ≤ (actual.map (fun d => (conflicts relations_graph d : Int))).sum := by
  induction actual with
  | nil => simp
  | cons row rest ih => simp only [List.map_cons, List.sum_cons]; omega

theorem conflict_free_of_counts (relations_graph : Graph) (st : State)
    (hc : counts_ok relations_graph st) (hzero : st.incompatibilities = 0) :
    conflict_free relations_graph st.actual := by
  have hsum : (st.actual.map (fun d => (conflicts relations_graph d : Int))).sum = 0 := by
    rw [← hc.1, ← hc.2, hzero]
  generalize st.actual = actual at hsum
  induction actual with
  | nil => intro day hday; simp at hday
  | cons row rest ih =>
    simp only [List.map_cons, List.sum_cons] at hsum
    have h1 := sum_conflicts_nonneg relations_graph rest
    intro day hday
    rcases List.mem_cons.1 hday with h2 | h2
    · subst h2
      exact (conflicts_eq_zero relations_graph day).1 (by omega)
    · exact ih (by omega) day h2

theorem feasible_log_write (relations_graph : Graph) (st : State)
    (h : feasible_log relations_graph st) (hfree : conflict_free relations_graph st.actual) :
    feasible_log relations_graph (write { st with best_days := st.actual.length }) := by
  intro w hw
  simp only [write, List.mem_append, List.mem_singleton] at hw
  rcases hw with hw | hw
  · exact h w hw
  · subst hw; exact hfree

theorem solve_incompatibilities_post (lib : Library) (relations_graph : Graph)
    (hsym : symmetric relations_graph) (hirr : irreflexive relations_graph)
    (fuel : Nat) (st : State) (hlog : feasible_log relations_graph st)
    (hc : counts_ok relations_graph st) :
    feasible_log relations_graph (solve_incompatibilities lib relations_graph fuel st).state ∧
      ∀ st1, solve_incompatibilities lib relations_graph fuel st = .done st1 true →
        counts_ok relations_graph st1 ∧ st1.incompatibilities = 0 ∧
          st1.best_days ≤ st1.actual.length := by
  have h1 := annealing_loop_log lib relations_graph fuel 0 st
  have h2 := annealing_loop_counts lib relations_graph hsym hirr fuel 0 st hc
  unfold solve_incompatibilities
  cases hr : annealing_loop lib relations_graph fuel 0 st with
  | done st1 k1 =>
    rw [hr] at h1
    have hlog1 : feasible_log relations_graph st1 := by
      intro w hw
      have : st1.written = st.written := h1.2
      rw [this] at hw
      exact hlog w hw
    have hc1 := (h2 st1 k1 hr).1
    dsimp only
    split_ifs with h3 h4
    · refine ⟨feasible_log_write relations_graph st1 hlog1
        (conflict_free_of_counts relations_graph st1 hc1 h3), ?_⟩
      intro st2 hst2
      simp only [Res.done.injEq, and_true] at hst2
      subst hst2
      exact ⟨hc1, h3, le_refl _⟩
    · refine ⟨hlog1, ?_⟩
      intro st2 hst2
      simp only [Res.done.injEq, and_true] at hst2
      subst hst2
      exact ⟨hc1, h3, by omega⟩
    · refine ⟨hlog1, ?_⟩
      intro st2 hst2
      simp at hst2
  | timeout st1 =>
    rw [hr] at h1
    refine ⟨?_, by intro st2 hst2; simp at hst2⟩
    intro w hw
    have : st1.written = st.written := h1.2
    rw [show (Res.timeout st1 : Res Bool).state = st1 from rfl, this] at hw
    exact hlog w hw
  | undefined st1 =>
    rw [hr] at h1
    refine ⟨?_, by intro st2 hst2; simp at hst2⟩
    intro w hw
    have : st1.written = st.written := h1.2
    rw [show (Res.undefined st1 : Res Bool).state = st1 from rfl, this] at hw
    exact hlog w hw

end Mh

/-! ## mh.cc: `improve` keeps the counters right when it starts without conflicts -/

namespace Mh

theorem spaces_loop_spec (relations_graph : Graph) (n_CinRooms : Nat) (actual : Organization)
    (film : Nat) (steps i : Nat) (acc : Nat × Nat × Bool)
    (hacc : acc.2.2 = true →
      acc.2.1 < i ∧ acc.1 = how_many_incompatibilities relations_graph actual acc.2.1 film) :
    (spaces_loop relations_graph n_CinRooms actual film steps i acc).2.2 = true →
      (spaces_loop relations_graph n_CinRooms actual film steps i acc).2.1 < i + steps ∧
      (spaces_loop relations_graph n_CinRooms actual film steps i acc).1
        = how_many_incompatibilities relations_graph actual
            (spaces_loop relations_graph n_CinRooms actual film steps i acc).2.1 film := by
  induction steps generalizing i acc with
  | zero => intro h; simpa [spaces_loop] using hacc h
  | succ steps ih =>
    intro h
    unfold spaces_loop at h ⊢
    split_ifs at h ⊢ with h1 h2
    · have := ih (i + 1) _ (fun _ => ⟨Nat.lt_succ_self i, rfl⟩) h
      exact ⟨by omega, this.2⟩
    · have := ih (i + 1) acc (fun hb => ⟨by have := (hacc hb).1; omega, (hacc hb).2⟩) h
      exact ⟨by omega, this.2⟩
    · have := ih (i + 1) acc (fun hb => ⟨by have := (hacc hb).1; omega, (hacc hb).2⟩) h
      exact ⟨by omega, this.2⟩

theorem add_at_zero (l : List Int) (day : Nat) : add_at l day 0 = l := by
  induction l generalizing day with
  | nil => simp [add_at]
  | cons x rest ih =>
    cases day with
    | zero => simp [add_at]
    | succ d =>
      have := ih d
      simp only [add_at, List.getD_eq_getElem?_getD] at this
      simpa [add_at] using this

theorem improve_step (relations_graph : Graph) (hsym : symmetric relations_graph)
    (actual : Organization) (day_to_remove target film : Nat)
    (hlen : actual.length = day_to_remove + 1) (htarget : target < day_to_remove)
    (hlast : conflicts relations_graph (day_row actual day_to_remove) = 0) :
    (push_back_at (pop_back_at actual day_to_remove) target film).map
        (fun d => (conflicts relations_graph d : Int))
      = add_at (actual.map (fun d => (conflicts relations_graph d : Int))) target
          (how_many_incompatibilities relations_graph actual target film : Int) ∧
    conflicts relations_graph
      (day_row (push_back_at (pop_back_at actual day_to_remove) target film) day_to_remove)
      = 0 := by
  have hpop : pop_back_at actual day_to_remove
      = actual.set day_to_remove (day_row actual day_to_remove).dropLast :=
    set_eq_of_day_row actual day_to_remove _ (by omega) _ (length_pop_back_at _ _)
      (fun i => day_row_pop_back_at actual day_to_remove i)
  have hrow : day_row (pop_back_at actual day_to_remove) target = day_row actual target := by
    rw [day_row_pop_back_at, if_neg (by omega)]
  have hpush : push_back_at (pop_back_at actual day_to_remove) target film
      = (pop_back_at actual day_to_remove).set target (day_row actual target ++ [film]) := by
    refine set_eq_of_day_row _ target _ (by rw [length_pop_back_at]; omega) _
      (length_push_back_at _ _ _) (fun i => ?_)
    rw [day_row_push_back_at, hrow]
    by_cases hi : i = target
    · subst hi
      simp [length_pop_back_at]
      omega
    · simp [hi]
  have hdrop := conflicts_dropLast relations_graph hsym _ hlast
  constructor
  · rw [hpush, add_at_map relations_graph _ target _
      (how_many_incompatibilities relations_graph actual target film : Int)
      (by rw [length_pop_back_at]; omega)
      (by rw [hrow, conflicts_append_singleton relations_graph hsym]
          simp [how_many_incompatibilities])]
    rw [hpop, add_at_map relations_graph actual day_to_remove _ 0 (by omega)
      (by rw [hdrop, hlast]; simp), add_at_zero]
  · rw [day_row_push_back_at, if_neg (by omega), day_row_pop_back_at, if_pos rfl]
    exact hdrop

theorem improve_loop_post (relations_graph : Graph) (hsym : symmetric relations_graph)
    (n_CinRooms day_to_remove fuel : Nat) (st : State)
    (h : improve_inv relations_graph day_to_remove st) :
    feasible_log relations_graph
        (improve_loop relations_graph n_CinRooms day_to_remove fuel st).state ∧
      ∀ st1, improve_loop relations_graph n_CinRooms day_to_remove fuel st = .done st1 () →
        improve_inv relations_graph day_to_remove st1 ∧
          (day_row st1.actual day_to_remove).length = 0 := by
  induction fuel generalizing st with
  | zero => exact ⟨h.1, by intro st1 h1; simp [improve_loop] at h1⟩
  | succ fuel ih =>
    obtain ⟨hlog, hc, hbest, hlen, hlast⟩ := h
    unfold improve_loop
    dsimp only
    have hspec0 := spaces_loop_spec relations_graph n_CinRooms st.actual
      ((day_row st.actual day_to_remove).getD ((day_row st.actual day_to_remove).length - 1) 0)
      day_to_remove 0 (1000000, 0, false) (by simp)
    generalize (day_row st.actual day_to_remove).getD
      ((day_row st.actual day_to_remove).length - 1) 0 = film at hspec0 ⊢
    generalize spaces_loop relations_graph n_CinRooms st.actual film day_to_remove 0
      (1000000, 0, false) = found at hspec0 ⊢
    split_ifs with h1 h2 h3
    · have hspec := hspec0 h2
      have htarget : found.2.1 < day_to_remove := by
        have := hspec.1
        omega
      have hstep := improve_step relations_graph hsym st.actual day_to_remove found.2.1 film
        hlen htarget hlast
      apply ih
      refine ⟨hlog, ⟨?_, ?_⟩, ?_, ?_, hstep.2⟩
      · show _ = List.map _ _
        rw [hstep.1, ← hc.1, hspec.2]
      · show _ = List.sum _
        rw [sum_add_at _ _ _ (by
          rw [hc.1, List.length_map, hlen]
          omega), ← hc.2]
      · show st.best_days ≤ List.length _
        rw [length_push_back_at, length_pop_back_at]
        exact hbest
      · show List.length _ = _
        rw [length_push_back_at, length_pop_back_at]
        exact hlen
    · omega
    · exact ih st ⟨hlog, hc, hbest, hlen, hlast⟩
    · refine ⟨hlog, ?_⟩
      intro st1 hst1
      simp only [Res.done.injEq, and_true] at hst1
      subst hst1
      exact ⟨⟨hlog, hc, hbest, hlen, hlast⟩, by omega⟩

theorem all_zero_of_counts (relations_graph : Graph) (st : State)
    (hc : counts_ok relations_graph st) (hzero : st.incompatibilities = 0) (day : Nat) :
    conflicts relations_graph (day_row st.actual day) = 0 := by
  by_cases h : day < st.actual.length
  · exact (conflicts_eq_zero relations_graph _).2
      (conflict_free_of_counts relations_graph st hc hzero _ (day_row_mem st.actual day h))
  · rw [day_row_of_length_le _ _ (Nat.le_of_not_lt h)]
    rfl

theorem counts_ok_dropLast (relations_graph : Graph) (st : State)
    (hc : counts_ok relations_graph st) (day_to_remove : Nat)
    (hlen : st.actual.length = day_to_remove + 1)
    (hempty : (day_row st.actual day_to_remove).length = 0) :
    counts_ok relations_graph
      { st with actual := st.actual.dropLast, day_incomp := st.day_incomp.dropLast } := by
  obtain ⟨h1, h2⟩ := hc
  rcases List.eq_nil_or_concat st.actual with h3 | ⟨init, last, h3⟩
  · rw [h3] at hlen; simp at hlen
  · rw [List.concat_eq_append] at h3
    have hinit : init.length = day_to_remove := by
      rw [h3] at hlen
      simpa using hlen
    have hlast : last = [] := by
      have : day_row st.actual day_to_remove = last := by
        rw [h3, day_row, ← hinit]
        simp
      rw [this] at hempty
      exact List.length_eq_zero.1 hempty
    refine ⟨?_, ?_⟩
    · show st.day_incomp.dropLast = List.map _ st.actual.dropLast
      rw [h1, h3, List.map_append, List.map_cons, List.map_nil, List.dropLast_concat,
        List.dropLast_concat]
    · show st.incompatibilities = List.sum st.day_incomp.dropLast
      rw [h2, h1, h3, List.map_append, List.map_cons, List.map_nil, List.dropLast_concat,
        List.sum_append, hlast]
      simp [conflicts]

theorem improve_post (relations_graph : Graph) (hsym : symmetric relations_graph)
    (n_CinRooms fuel : Nat) (st : State) (hlog : feasible_log relations_graph st)
    (hc : counts_ok relations_graph st) (hzero : st.incompatibilities = 0)
    (hbest : st.best_days ≤ st.actual.length) :
    feasible_log relations_graph (improve relations_graph n_CinRooms fuel st).state ∧
      ∀ st1, improve relations_graph n_CinRooms fuel st = .done st1 () →
        counts_ok relations_graph st1 := by
  unfold improve
  split_ifs with h0
  · exact ⟨hlog, by intro st1 h1; simp at h1⟩
  · have hinv : improve_inv relations_graph (st.actual.length - 1) st :=
      ⟨hlog, hc, hbest, by omega, all_zero_of_counts relations_graph st hc hzero _⟩
    have hpost := improve_loop_post relations_graph hsym n_CinRooms (st.actual.length - 1)
      fuel st hinv
    cases hr : improve_loop relations_graph n_CinRooms (st.actual.length - 1) fuel st with
    | done st1 v =>
      rw [hr] at hpost
      obtain ⟨hinv1, hempty⟩ := hpost.2 st1 rfl
      dsimp only
      rw [if_pos hempty]
      refine ⟨hinv1.1, ?_⟩
      intro st2 hst2
      simp only [Res.done.injEq, and_true] at hst2
      subst hst2
      exact counts_ok_dropLast relations_graph st1 hinv1.2.1 _ hinv1.2.2.2.1 hempty
    | timeout st1 =>
      rw [hr] at hpost
      exact ⟨hpost.1, by intro st2 h2; simp at h2⟩
    | undefined st1 =>
      rw [hr] at hpost
      exact ⟨hpost.1, by intro st2 h2; simp at h2⟩

end Mh

/-! ## mh.cc: the schedules written by `GRASP` -/

namespace Mh

theorem days_loop_eq_greedy (relations_graph : Graph) (n_CinRooms code steps day : Nat)
    (actual : Organization) :
    days_loop relations_graph n_CinRooms code steps day actual
      = Greedy.days_loop relations_graph n_CinRooms code steps day actual := by
  induction steps generalizing day with
  | zero => rfl
  | succ steps ih =>
    simp [days_loop, Greedy.days_loop, ih, can_be_projected, Greedy.can_be_projected,
      mh_rooms_loop_eq_greedy]

theorem place_film_eq_greedy (relations_graph : Graph) (n_CinRooms : Nat)
    (actual : Organization) (code : Nat) :
    place_film relations_graph n_CinRooms actual code
      = Greedy.place_film relations_graph n_CinRooms actual code := by
  simp [place_film, Greedy.place_film, days_loop_eq_greedy]

theorem generate_initial_solution_conflict_free (lib : Library) (relations_graph : Graph)
    (hsym : symmetric relations_graph) (hirr : irreflexive relations_graph)
    (n_CinRooms n_films : Nat) :
    conflict_free relations_graph
      (generate_initial_solution lib relations_graph n_CinRooms n_films) := by
  have hfeas : ∀ (codes : List Nat) (actual : Organization),
      Greedy.feasible relations_graph actual →
      Greedy.feasible relations_graph
        (codes.foldl (fun acc code => place_film relations_graph n_CinRooms acc code)
          actual) := by
    intro codes
    induction codes with
    | nil => intro actual h; exact h
    | cons c rest ih =>
      intro actual h
      refine ih _ ?_
      show Greedy.feasible relations_graph (place_film relations_graph n_CinRooms actual c)
      rw [place_film_eq_greedy]
      exact Greedy.feasible_place_film relations_graph n_CinRooms actual c hsym h
  have h := hfeas (lib.shuffle (List.range n_films)) [] (fun day hday => by simp at hday)
  intro day hday
  refine List.pairwise_of_forall_mem_list (fun a ha b hb => ?_)
  by_cases hab : a = b
  · rw [hab]; exact hirr b
  · exact h day hday a ha b hb hab

theorem repair_loop_log (lib : Library) (relations_graph : Graph)
    (hsym : symmetric relations_graph) (hirr : irreflexive relations_graph)
    (n_CinRooms fuel : Nat) (st : State) (hlog : feasible_log relations_graph st)
    (hc : counts_ok relations_graph st) (hzero : st.incompatibilities = 0)
    (hbest : st.best_days ≤ st.actual.length) :
    feasible_log relations_graph (repair_loop lib relations_graph n_CinRooms fuel st).state := by
  induction fuel generalizing st with
  | zero => exact hlog
  | succ fuel ih =>
    have h1 := improve_post relations_graph hsym n_CinRooms fuel st hlog hc hzero hbest
    unfold repair_loop
    cases hr : improve relations_graph n_CinRooms fuel st with
    | done st1 v =>
      rw [hr] at h1
      have h2 := solve_incompatibilities_post lib relations_graph hsym hirr fuel st1 h1.1
        (h1.2 st1 rfl)
      dsimp only
      cases hs : solve_incompatibilities lib relations_graph fuel st1 with
      | done st2 b =>
        rw [hs] at h2
        cases b with
        | true =>
          obtain ⟨h3, h4, h5⟩ := h2.2 st2 rfl
          exact ih st2 h2.1 h3 h4 h5
        | false => exact h2.1
      | timeout st2 => rw [hs] at h2; exact h2.1
      | undefined st2 => rw [hs] at h2; exact h2.1
    | timeout st1 => rw [hr] at h1; exact h1.1
    | undefined st1 => rw [hr] at h1; exact h1.1

theorem map_conflicts_of_conflict_free (relations_graph : Graph) (actual : Organization)
    (h : conflict_free relations_graph actual) :
    List.replicate actual.length (0 : Int)
      = actual.map (fun d => (conflicts relations_graph d : Int)) := by
  induction actual with
  | nil => rfl
  | cons row rest ih =>
    have h1 := (conflicts_eq_zero relations_graph row).2 (h row (by simp))
    have h2 := ih (fun day hday => h day (by simp [hday]))
    simp only [List.length_cons, List.replicate_succ, List.map_cons, h1, h2]
    rfl

theorem GRASP_log (lib : Library) (relations_graph : Graph)
    (hsym : symmetric relations_graph) (hirr : irreflexive relations_graph)
    (n_CinRooms n_films fuel : Nat) (st : State) (hlog : feasible_log relations_graph st) :
    feasible_log relations_graph
      (GRASP lib relations_graph n_CinRooms n_films fuel st).state := by
  induction fuel generalizing st with
  | zero => exact hlog
  | succ fuel ih =>
    have hfree := generate_initial_solution_conflict_free lib relations_graph hsym hirr
      n_CinRooms n_films
    unfold GRASP
    dsimp only
    generalize generate_initial_solution lib relations_graph n_CinRooms n_films = actual
      at hfree ⊢
    have h1 : feasible_log relations_graph
        { (if actual.length < st.best_days then
            { write { st with actual := actual } with best_days := actual.length }
          else { st with actual := actual }) with
          incompatibilities := 0
          day_incomp := List.replicate actual.length 0 } ∧
        counts_ok relations_graph
        { (if actual.length < st.best_days then
            { write { st with actual := actual } with best_days := actual.length }
          else { st with actual := actual }) with
          incompatibilities := 0
          day_incomp := List.replicate actual.length 0 } ∧
        ({ (if actual.length < st.best_days then
            { write { st with actual := actual } with best_days := actual.length }
          else { st with actual := actual }) with
          incompatibilities := 0
          day_incomp := List.replicate actual.length 0 } : State).best_days
          ≤ ({ (if actual.length < st.best_days then
            { write { st with actual := actual } with best_days := actual.length }
          else { st with actual := actual }) with
          incompatibilities := 0
          day_incomp := List.replicate actual.length 0 } : State).actual.length := by
      split_ifs with h2
      · refine ⟨?_, ⟨?_, ?_⟩, ?_⟩
        · intro w hw
          simp only [write, List.mem_append, List.mem_singleton] at hw
          rcases hw with hw | hw
          · exact hlog w hw
          · subst hw; exact hfree
        · exact map_conflicts_of_conflict_free relations_graph actual hfree
        · show (0 : Int) = List.sum (List.replicate actual.length 0)
          simp
        · exact le_refl _
      · refine ⟨hlog, ⟨?_, ?_⟩, ?_⟩
        · exact map_conflicts_of_conflict_free relations_graph actual hfree
        · show (0 : Int) = List.sum (List.replicate actual.length 0)
          simp
        · show st.best_days ≤ actual.length
          omega
    have h3 := repair_loop_log lib relations_graph hsym hirr n_CinRooms fuel _ h1.1 h1.2.1 rfl
      h1.2.2
    cases hr : repair_loop lib relations_graph n_CinRooms fuel
        { (if actual.length < st.best_days then
            { write { st with actual := actual } with best_days := actual.length }
          else { st with actual := actual }) with
          incompatibilities := 0
          day_incomp := List.replicate actual.length 0 } with
    | done st2 v => rw [hr] at h3; exact ih st2 h3
    | timeout st2 => rw [hr] at h3; exact h3
    | undefined st2 => rw [hr] at h3; exact h3

/-- C6: in every run of `GRASP` (symmetric and irreflexive conflict relation, any values of
`rand()`, any shuffle, any outcome of the floating-point tests, any number of loop
iterations), every schedule passed to `write`, by `GRASP`, by `improve` or by
`solve_incompatibilities`, is feasible: no film of a day is in conflict with a later film of
the day, and no two distinct films of a day are in conflict. -/
theorem GRASP_writes_feasible (lib : Library) (relations_graph : Graph)
    (hsym : symmetric relations_graph) (hirr : irreflexive relations_graph)
    (n_CinRooms n_films fuel : Nat) :
    ∀ w ∈ (run lib relations_graph n_CinRooms n_films fuel).state.written,
      ∀ day ∈ w,
        day.Pairwise (fun a b => incompatible relations_graph a b = false) ∧
          ∀ a ∈ day, ∀ b ∈ day, a ≠ b → incompatible relations_graph a b = false := by
  intro w hw day hday
  have h := GRASP_log lib relations_graph hsym hirr n_CinRooms n_films fuel
    { actual := [], day_incomp := [], incompatibilities := 0, best_days := n_films,
      written := [], draws := 0 } (fun w hw => by simp at hw) w hw day hday
  exact ⟨h, pairwise_distinct_of_symmetric relations_graph hsym day h⟩

end Mh

theorem symmetric_graph_six : symmetric graph_six := by
  intro a b
  rcases a with _ | _ | _ | _ | _ | _ | a <;> rcases b with _ | _ | _ | _ | _ | _ | b <;>
    simp [incompatible, graph_six]

theorem irreflexive_graph_six : irreflexive graph_six := by
  intro a
  rcases a with _ | _ | _ | _ | _ | _ | a <;> simp [incompatible, graph_six]

namespace Mh

theorem GRASP_writes_feasible_witness :
    symmetric graph_six ∧ irreflexive graph_six ∧
      ([4, 0, 2].Pairwise (fun a b => incompatible graph_six a b = false) ∧
        ∀ a ∈ [4, 0, 2], ∀ b ∈ [4, 0, 2], a ≠ b → incompatible graph_six a b = false) :=
  ⟨symmetric_graph_six, irreflexive_graph_six,
    GRASP_writes_feasible library_example graph_six symmetric_graph_six irreflexive_graph_six
      3 6 4 [[5, 3, 1], [4, 0, 2]] (by decide) [4, 0, 2] (by decide)⟩

end Mh

/-- C7: in every run of the exhaustive solver and of the local-search solver the schedules
passed to `write` have strictly decreasing numbers of days, and after each write the bound
(`BestDays` in `exh.cc`, `best_days` in `mh.cc`) is the number of days of the schedule written
last. For `exh.cc` the run is the one of `main`; for `mh.cc` the statement holds after any
number of loop iterations of `GRASP`. -/
theorem written_days_strictly_decrease (relations_graph : Graph) (n_CinRooms : Nat) :
    (∀ restrictions : List Pair,
      ∃ st, Exh.run relations_graph n_CinRooms restrictions.length restrictions = some st ∧
        (st.written.map (fun w => w.best.length)).Pairwise (fun a b => b < a) ∧
        (∀ w ∈ st.written, w.days = w.best.length) ∧
        (∀ w, st.written.getLast? = some w → st.BestDays = w.best.length)) ∧
    (∀ (lib : Mh.Library) (n_films fuel : Nat),
      ((Mh.run lib relations_graph n_CinRooms n_films fuel).state.written.map
          List.length).Pairwise (fun a b => b < a) ∧
        (∀ w, (Mh.run lib relations_graph n_CinRooms n_films fuel).state.written.getLast?
            = some w →
          (Mh.run lib relations_graph n_CinRooms n_films fuel).state.best_days = w.length)) := by
  constructor
  · intro restrictions
    refine ⟨_, Exh.run_eq_search relations_graph n_CinRooms restrictions, ?_⟩
    have h := Exh.search_produces relations_graph n_CinRooms (fun _ _ => True) (fun _ => True)
      (fun _ _ => trivial) (fun _ _ _ _ _ _ _ => trivial) (fun _ _ _ _ => trivial)
      (restrictions.map Prod.fst) [] restrictions.length trivial
    obtain ⟨_, h2, h3, _, h5⟩ := h
    have hdays : ∀ w ∈ (Exh.search relations_graph n_CinRooms (restrictions.map Prod.fst) []
        restrictions.length).2, w.days = w.best.length := fun w hw => (h2 w hw).1
    refine ⟨?_, hdays, ?_⟩
    · have : List.map (fun w : Exh.Written => w.best.length)
          (Exh.search relations_graph n_CinRooms (restrictions.map Prod.fst) []
            restrictions.length).2
          = List.map Exh.Written.days
            (Exh.search relations_graph n_CinRooms (restrictions.map Prod.fst) []
              restrictions.length).2 :=
        List.map_congr_left (fun w hw => (hdays w hw).symm)
      show List.Pairwise _ (List.map _ _)
      rw [this]
      exact h3
    · intro w hw
      show (Exh.search relations_graph n_CinRooms (restrictions.map Prod.fst) []
        restrictions.length).1 = _
      rw [h5 w hw]
      exact hdays w (List.mem_of_getLast?_eq_some hw)
  · intro lib n_films fuel
    have h := Mh.order_ok_GRASP lib relations_graph n_CinRooms n_films fuel
      { actual := [], day_incomp := [], incompatibilities := 0, best_days := n_films,
        written := [], draws := 0 } ⟨by simp, by simp, by simp⟩
    exact ⟨h.1, h.2.2⟩
/-! ## Zero rooms (greedy) and instances without conflicts (mh) -/

namespace Greedy

theorem place_film_zero_rooms (relations_graph : Graph) (actual : Organization) (code : Nat) :
    place_film relations_graph 0 actual code = actual ++ [[code]] := by
  rcases place_film_spec relations_graph 0 actual code with ⟨d, _, h2, _, _⟩ | ⟨_, h2⟩
  · exact absurd h2.1 (Nat.not_lt_zero _)
  · exact h2

theorem schedule_festival_zero_rooms_from (relations_graph : Graph) (restrictions : List Pair)
    (actual : Organization) :
    schedule_festival relations_graph 0 restrictions actual
      = actual ++ restrictions.map (fun p => [p.1]) := by
  induction restrictions generalizing actual with
  | nil => simp [schedule_festival]
  | cons p rest ih =>
    have h := ih (place_film relations_graph 0 actual p.1)
    simp only [schedule_festival, List.foldl_cons] at h ⊢
    rw [h, place_film_zero_rooms]
    simp

/-- C16: with `n_CinRooms = 0` the schedule built by `schedule_festival` of `greedy.cc` has
one day per film, the `k`-th day holding exactly the `k`-th film of the order. -/
theorem zero_rooms_one_film_per_day (relations_graph : Graph) (restrictions : List Pair) :
    schedule_festival relations_graph 0 restrictions [] = restrictions.map (fun p => [p.1]) ∧
      (schedule_festival relations_graph 0 restrictions []).length = restrictions.length := by
  have h := schedule_festival_zero_rooms_from relations_graph restrictions []
  rw [List.nil_append] at h
  rw [h]
  exact ⟨rfl, by simp⟩

end Greedy

namespace Mh

theorem conflicts_of_no_pairs (relations_graph : Graph)
    (hfalse : ∀ a b, incompatible relations_graph a b = false) (row : List Nat) :
    conflicts relations_graph row = 0 :=
  (conflicts_eq_zero relations_graph row).2
    (List.pairwise_of_forall_mem_list (fun a _ b _ => hfalse a b))

theorem counts_zero_of_no_pairs (relations_graph : Graph)
    (hfalse : ∀ a b, incompatible relations_graph a b = false) (st : State)
    (hc : counts_ok relations_graph st) :
    st.incompatibilities = 0 ∧ ∀ count ∈ st.day_incomp, count = 0 := by
  have hall : ∀ count ∈ st.day_incomp, count = 0 := by
    intro count hcount
    rw [hc.1] at hcount
    obtain ⟨row, _, hrow⟩ := List.mem_map.1 hcount
    rw [← hrow, conflicts_of_no_pairs relations_graph hfalse row]
    rfl
  refine ⟨?_, hall⟩
  rw [hc.2]
  exact List.sum_eq_zero hall

/-- C17: when no two films are in conflict and the counters agree with the schedule,
`incompatibilities` and every `day_incomp[d]` are zero and `solve_incompatibilities` returns
true at once: no call of `rand()` is made (no swap is proposed) and the schedule, `day_incomp`
and `incompatibilities` are unchanged. -/
theorem solve_incompatibilities_no_pairs (lib : Library) (relations_graph : Graph)
    (hfalse : ∀ a b, incompatible relations_graph a b = false) (fuel : Nat) (st : State)
    (hc : counts_ok relations_graph st) :
    st.incompatibilities = 0 ∧ (∀ count ∈ st.day_incomp, count = 0) ∧
      ∃ st1, solve_incompatibilities lib relations_graph (fuel + 1) st = .done st1 true ∧
        st1.incompatibilities = 0 ∧ st1.actual = st.actual ∧
        st1.day_incomp = st.day_incomp ∧ st1.draws = st.draws := by
  obtain ⟨hzero, hall⟩ := counts_zero_of_no_pairs relations_graph hfalse st hc
  refine ⟨hzero, hall, ?_⟩
  have hloop : annealing_loop lib relations_graph (fuel + 1) 0 st = .done st 0 := by
    simp [annealing_loop, hzero]
  unfold solve_incompatibilities
  rw [hloop]
  dsimp only
  rw [if_pos hzero]
  split_ifs with h
  · exact ⟨_, rfl, hzero, rfl, rfl, rfl⟩
  · exact ⟨_, rfl, hzero, rfl, rfl, rfl⟩

end Mh



theorem graph_none_no_pairs : ∀ a b, incompatible graph_none a b = false := by
  intro a b
  rcases a with _ | _ | a <;> rcases b with _ | _ | b <;> simp [incompatible, graph_none]

namespace Mh

theorem solve_incompatibilities_no_pairs_witness :
    state_no_pairs.incompatibilities = 0 ∧ (∀ count ∈ state_no_pairs.day_incomp, count = 0) ∧
      ∃ st1, solve_incompatibilities library_example graph_none (0 + 1) state_no_pairs
          = .done st1 true ∧
        st1.incompatibilities = 0 ∧ st1.actual = state_no_pairs.actual ∧
        st1.day_incomp = state_no_pairs.day_incomp ∧ st1.draws = state_no_pairs.draws :=
  solve_incompatibilities_no_pairs library_example graph_none graph_none_no_pairs 0
    state_no_pairs ⟨by decide, by decide⟩

end Mh

namespace Exh

theorem valid_one_room_length (relations_graph : Graph) (n_films : Nat)
    (target : Organization) (h : valid_schedule relations_graph 1 n_films target) :
    n_films ≤ target.length := by
  have h1 := length_flatten_le target h.2.1
  have h2 := h.1.length_eq
  rw [List.length_range] at h2
  omega

theorem main_ABC_one_room_state (sort : List Pair → List Pair)
    (hsort : sorts_by_comparator sort) :
    main sort input_ABC_one_room = some { actual := [], BestDays := 3, written := [] } := by
  unfold main
  rw [read_data_ABC_one_room]
  rcases sorted_ABC _ (hsort _).1 (hsort _).2 with h | h
  · simp only [h]; decide
  · simp only [h]; decide

/-- C11 fails as stated: on films A, B, C with the pair (A, B) and one room the run of `main`
of `exh.cc` ends with `BestDays = 3` and no call of `write`, so no 2-day schedule is
written. -/
theorem main_example_writes_no_two_days :
    main insertion_sort input_ABC_one_room
        = some { actual := [], BestDays := 3, written := [] } ∧
      ¬ ∃ st w, main insertion_sort input_ABC_one_room = some st ∧ w ∈ st.written ∧
        w.days = 2 := by
  refine ⟨by decide, ?_⟩
  rintro ⟨st, w, hst, hw, _⟩
  rw [main_ABC_one_room_state insertion_sort insertion_sort_sorts] at hst
  simp only [Option.some.injEq] at hst
  subst hst
  simp at hw

end Exh

/-! ## The loop of improve when no earlier day has a free room -/



theorem irreflexive_graph_AB : irreflexive graph_AB := by
  intro a
  rcases a with _ | _ | _ | a <;> simp [incompatible, graph_AB]

namespace Mh

theorem spaces_loop_full (relations_graph : Graph) (n_CinRooms : Nat) (actual : Organization)
    (film steps i : Nat) (acc : Nat × Nat × Bool)
    (hfull : ∀ j, i ≤ j → j < i + steps → ¬ (day_row actual j).length < n_CinRooms) :
    spaces_loop relations_graph n_CinRooms actual film steps i acc = acc := by
  induction steps generalizing i with
  | zero => rfl
  | succ steps ih =>
    unfold spaces_loop
    rw [if_neg (hfull i (le_refl _) (by omega))]
    exact ih (i + 1) (fun j h1 h2 => hfull j (by omega) (by omega))

/-- When the last day is not empty and no earlier day has a free room, the loop of `improve`
never ends: whatever the bound on the iterations, it is cut with the schedule unchanged. -/
theorem improve_loop_stuck (relations_graph : Graph) (n_CinRooms day_to_remove : Nat)
    (fuel : Nat) (st : State) (hlast : 0 < (day_row st.actual day_to_remove).length)
    (hfull : ∀ j, j < day_to_remove → ¬ (day_row st.actual j).length < n_CinRooms) :
    ∃ st1, improve_loop relations_graph n_CinRooms day_to_remove fuel st = .timeout st1 ∧
      st1.actual = st.actual ∧ st1.day_incomp = st.day_incomp ∧
      st1.incompatibilities = st.incompatibilities := by
  induction fuel generalizing st with
  | zero => exact ⟨st, rfl, rfl, rfl, rfl⟩
  | succ fuel ih =>
    unfold improve_loop
    dsimp only
    rw [if_pos hlast, spaces_loop_full relations_graph n_CinRooms st.actual _ day_to_remove 0 _
      (fun j _ h2 => hfull j (by omega))]
    dsimp only
    rw [if_neg (by simp)]
    split_ifs with h
    · obtain ⟨st1, h1, h2, h3, h4⟩ := ih (write { st with best_days := st.actual.length })
        hlast hfull
      exact ⟨st1, h1, h2, h3, h4⟩
    · exact ih st hlast hfull

theorem improve_stuck (relations_graph : Graph) (n_CinRooms : Nat) (fuel : Nat) (st : State)
    (hlast : 0 < (day_row st.actual (st.actual.length - 1)).length)
    (hfull : ∀ j, j < st.actual.length - 1 → ¬ (day_row st.actual j).length < n_CinRooms) :
    ∃ st1, improve relations_graph n_CinRooms fuel st = .timeout st1 ∧
      st1.actual = st.actual := by
  have hne : ¬ st.actual.length = 0 := by
    intro h
    rw [day_row_of_length_le _ _ (by omega)] at hlast
    simp at hlast
  obtain ⟨st1, h1, h2, _, _⟩ := improve_loop_stuck relations_graph n_CinRooms
    (st.actual.length - 1) fuel st hlast hfull
  unfold improve
  rw [if_neg hne, h1]
  exact ⟨st1, rfl, h2⟩

/-- C20 fails on `mh.cc`: on the schedule `[[0], [1]]` with one room, where the film of the
last day has no earlier day with a free room, `improve` does not return: for every bound on
the number of iterations its loop is cut with the schedule unchanged. -/
theorem improve_never_returns :
    ∀ fuel, ∃ st1, improve graph_none 1 fuel state_two_days = .timeout st1 ∧
      st1.actual = [[0], [1]] := by
  intro fuel
  refine improve_stuck graph_none 1 fuel state_two_days (by decide) ?_
  intro j hj
  have hj0 : j = 0 := by
    have : state_two_days.actual.length - 1 = 1 := rfl
    omega
  subst hj0
  decide

end Mh

/-! ## The exhaustive search with one room, and the three-film example -/

theorem length_flatten_eq (actual : Organization) (h : ∀ day ∈ actual, day.length = 1) :
    actual.flatten.length = actual.length := by
  induction actual with
  | nil => simp
  | cons row rest ih =>
    have h1 := h row (by simp)
    have h2 := ih (fun day hday => h day (by simp [hday]))
    simp only [List.flatten_cons, List.length_append, List.length_cons]
    omega

namespace Exh

/-- With one room, the search started from the empty schedule with any bound `best` writes
only schedules of `n_films` days holding one film each. -/
theorem one_room_writes (relations_graph : Graph) (n_films : Nat) (restrictions : List Pair)
    (hperm : (restrictions.map Prod.fst).Perm (List.range n_films)) (best : Nat) :
    ∃ st, schedule_festival relations_graph 1 n_films restrictions (n_films + 1)
        { actual := [], BestDays := best, written := [] } 0 0 = some st ∧
      ∀ w ∈ st.written, w.days = n_films ∧ ∀ day ∈ w.best, day.length = 1 := by
  have hlen : restrictions.length = n_films := by
    have := hperm.length_eq
    simpa using this
  refine ⟨_, schedule_festival_eq_search relations_graph 1 n_films restrictions hlen
    (n_films + 1) 0 { actual := [], BestDays := best, written := [] } 0 (by omega) (by omega)
    rfl, ?_⟩
  have hprod := search_node_ok relations_graph 1 (List.range n_films)
    (restrictions.map Prod.fst) [] best ⟨by simp, by simp, by simpa using hperm⟩
  intro w hw
  have hw' : w ∈ (search relations_graph 1 ((List.drop 0 restrictions).map Prod.fst) []
      best).2 := by
    simpa [after] using hw
  rw [List.drop_zero] at hw'
  obtain ⟨hdays, _, _, hok⟩ := hprod.2.1 w hw'
  have hone : ∀ day ∈ w.best, day.length = 1 := by
    intro day hday
    have := hok.1 day hday
    simp only [max_self] at this
    omega
  refine ⟨?_, hone⟩
  have h1 := length_flatten_eq w.best hone
  have h2 := hok.2.2.length_eq
  simp only [List.append_nil, List.length_range] at h2
  omega

end Exh

namespace Exh

/-- C11 (amended): on films A, B, C with the pair (A, B) and one room, every valid schedule
has at least 3 days, and every schedule written by the run of `main` of `exh.cc` has 3 days
of one film each, as has every schedule written by the same search started with any other
bound in place of `BestDays = n_films`; in particular no 2-day schedule is written. -/
theorem main_example_one_film_per_day (sort : List Pair → List Pair)
    (hsort : sorts_by_comparator sort) :
    (read_data sort input_ABC_one_room).relations_graph = graph_AB ∧
    (∀ target, valid_schedule graph_AB 1 3 target → 3 ≤ target.length) ∧
    (∃ st, main sort input_ABC_one_room = some st ∧
        ∀ w ∈ st.written, w.days = 3 ∧ ∀ day ∈ w.best, day.length = 1) ∧
    (∀ best, ∃ st,
        schedule_festival graph_AB 1 3 (read_data sort input_ABC_one_room).restrictions 4
          { actual := [], BestDays := best, written := [] } 0 0 = some st ∧
        ∀ w ∈ st.written, w.days = 3 ∧ ∀ day ∈ w.best, day.length = 1) := by
  have hperm : ((read_data sort input_ABC_one_room).restrictions.map Prod.fst).Perm
      (List.range 3) := by
    rw [read_data_ABC_one_room]
    exact ((hsort [(0, 1), (1, 1), (2, 0)]).1.map Prod.fst).trans (by decide)
  refine ⟨by rw [read_data_ABC_one_room], fun target h => valid_one_room_length _ _ target h,
    ?_, fun best => one_room_writes graph_AB 3 _ hperm best⟩
  exact one_room_writes graph_AB 3 _ hperm 3

theorem main_example_one_film_per_day_witness :
    sorts_by_comparator insertion_sort ∧
    ((read_data insertion_sort input_ABC_one_room).relations_graph = graph_AB ∧
    (∀ target, valid_schedule graph_AB 1 3 target → 3 ≤ target.length) ∧
    (∃ st, main insertion_sort input_ABC_one_room = some st ∧
        ∀ w ∈ st.written, w.days = 3 ∧ ∀ day ∈ w.best, day.length = 1) ∧
    (∀ best, ∃ st,
        schedule_festival graph_AB 1 3
          (read_data insertion_sort input_ABC_one_room).restrictions 4
          { actual := [], BestDays := best, written := [] } 0 0 = some st ∧
        ∀ w ∈ st.written, w.days = 3 ∧ ∀ day ∈ w.best, day.length = 1)) ∧
    schedule_festival graph_AB 1 3 [(0, 1), (1, 1), (2, 0)] 4
        { actual := [], BestDays := 4, written := [] } 0 0
      = some { actual := [], BestDays := 3,
               written := [{ days := 3, best := [[0], [1], [2]] }] } :=
  ⟨insertion_sort_sorts, main_example_one_film_per_day insertion_sort insertion_sort_sorts,
    by decide⟩

end Exh

/-! ## Count consistency through improve and the swap proposals -/

namespace Mh



theorem improve_loop_counts (relations_graph : Graph) (hsym : symmetric relations_graph)
    (n_CinRooms day_to_remove fuel : Nat) (st : State)
    (h : counts_inv relations_graph day_to_remove st) :
    counts_inv relations_graph day_to_remove
        (improve_loop relations_graph n_CinRooms day_to_remove fuel st).state ∧
      ∀ st1, improve_loop relations_graph n_CinRooms day_to_remove fuel st = .done st1 () →
        (day_row st1.actual day_to_remove).length = 0 := by
  induction fuel generalizing st with
  | zero => exact ⟨h, by intro st1 h1; simp [improve_loop] at h1⟩
  | succ fuel ih =>
    obtain ⟨hc, hlen, hlast⟩ := h
    unfold improve_loop
    dsimp only
    have hspec0 := spaces_loop_spec relations_graph n_CinRooms st.actual
      ((day_row st.actual day_to_remove).getD ((day_row st.actual day_to_remove).length - 1) 0)
      day_to_remove 0 (1000000, 0, false) (by simp)
    generalize (day_row st.actual day_to_remove).getD
      ((day_row st.actual day_to_remove).length - 1) 0 = film at hspec0 ⊢
    generalize spaces_loop relations_graph n_CinRooms st.actual film day_to_remove 0
      (1000000, 0, false) = found at hspec0 ⊢
    split_ifs with h1 h2 h3
    · have hspec := hspec0 h2
      have htarget : found.2.1 < day_to_remove := by
        have := hspec.1
        omega
      have hstep := improve_step relations_graph hsym st.actual day_to_remove found.2.1 film
        hlen htarget hlast
      apply ih
      refine ⟨⟨?_, ?_⟩, ?_, hstep.2⟩
      · show _ = List.map _ _
        rw [hstep.1, ← hc.1, hspec.2]
      · show _ = List.sum _
        rw [sum_add_at _ _ _ (by
          rw [hc.1, List.length_map, hlen]
          omega), ← hc.2]
      · show List.length _ = _
        rw [length_push_back_at, length_pop_back_at]
        exact hlen
    · exact ih _ ⟨⟨hc.1, hc.2⟩, hlen, hlast⟩
    · exact ih st ⟨hc, hlen, hlast⟩
    · refine ⟨⟨hc, hlen, hlast⟩, ?_⟩
      intro st1 hst1
      simp only [Res.done.injEq, and_true] at hst1
      subst hst1
      omega

theorem improve_counts (relations_graph : Graph) (hsym : symmetric relations_graph)
    (n_CinRooms fuel : Nat) (st : State) (hc : counts_ok relations_graph st)
    (hlast : conflicts relations_graph (day_row st.actual (st.actual.length - 1)) = 0) :
    counts_ok relations_graph (improve relations_graph n_CinRooms fuel st).state := by
  unfold improve
  split_ifs with h0
  · exact hc
  · have hinv : counts_inv relations_graph (st.actual.length - 1) st :=
      ⟨hc, by omega, hlast⟩
    have hpost := improve_loop_counts relations_graph hsym n_CinRooms (st.actual.length - 1)
      fuel st hinv
    cases hr : improve_loop relations_graph n_CinRooms (st.actual.length - 1) fuel st with
    | done st1 v =>
      rw [hr] at hpost
      have hempty := hpost.2 st1 rfl
      dsimp only
      rw [if_pos hempty]
      exact counts_ok_dropLast relations_graph st1 hpost.1.1 _ hpost.1.2.1 hempty
    | timeout st1 => rw [hr] at hpost; exact hpost.1.1
    | undefined st1 => rw [hr] at hpost; exact hpost.1.1

/-- C19 fails as stated: from the schedule `[[2], [0, 1]]` with the conflict 0-1 inside the
last day and right counters (`day_incomp = [0, 1]`, `incompatibilities = 1`), the first
reinsertion step of `improve` and its return both leave counters that disagree with the
schedule. -/
theorem improve_breaks_counts :
    counts_ok graph_AB state_conflict_last ∧
      ¬ counts_ok graph_AB (improve_loop graph_AB 3 1 1 state_conflict_last).state ∧
      (improve graph_AB 3 3 state_conflict_last).state.actual = [[2, 1, 0]] ∧
      (improve graph_AB 3 3 state_conflict_last).state.day_incomp = [1] ∧
      (improve graph_AB 3 3 state_conflict_last).state.incompatibilities = 2 ∧
      ¬ counts_ok graph_AB (improve graph_AB 3 3 state_conflict_last).state := by
  decide

/-- C19 (amended): for a symmetric, irreflexive conflict relation and counters that agree
with the schedule on entry, the counters agree with the schedule after every swap proposal
of `solve_incompatibilities`, accepted or undone, and, when the last day has no conflict on
entry, after every reinsertion step of `improve` and after `improve` itself (final removal
of the emptied last day included). -/
theorem counts_stay_consistent (relations_graph : Graph) (hsym : symmetric relations_graph)
    (hirr : irreflexive relations_graph) (st : State) (hc : counts_ok relations_graph st) :
    (conflicts relations_graph (day_row st.actual (st.actual.length - 1)) = 0 →
      ∀ n_CinRooms fuel,
        counts_ok relations_graph
          (improve_loop relations_graph n_CinRooms (st.actual.length - 1) fuel st).state ∧
        counts_ok relations_graph (improve relations_graph n_CinRooms fuel st).state) ∧
    (∀ (lib : Library) (day_to_solve film_index random_day k : Nat),
      day_to_solve < st.actual.length → random_day < st.actual.length →
      random_day ≠ day_to_solve → film_index < (day_row st.actual day_to_solve).length →
      0 < (day_row st.actual random_day).length →
      counts_ok relations_graph
        (propose lib relations_graph day_to_solve film_index
          (how_many_incompatibilities relations_graph st.actual day_to_solve
            ((day_row st.actual day_to_solve).getD film_index 0)) random_day k st)) := by
  constructor
  · intro hlast n_CinRooms fuel
    refine ⟨?_, improve_counts relations_graph hsym n_CinRooms fuel st hc hlast⟩
    by_cases h0 : st.actual.length = 0
    · have hrow : (day_row st.actual (st.actual.length - 1)).length = 0 := by
        rw [day_row_of_length_le _ _ (by omega)]
        rfl
      cases fuel with
      | zero => exact hc
      | succ fuel =>
        unfold improve_loop
        rw [if_neg (by omega)]
        exact hc
    · exact (improve_loop_counts relations_graph hsym n_CinRooms (st.actual.length - 1) fuel st
        ⟨hc, by omega, hlast⟩).1.1
  · intro lib day_to_solve film_index random_day k h1 h2 h3 h4 h5
    exact (propose_counts lib relations_graph hsym hirr day_to_solve film_index random_day k st
      hc h1 h2 h3 h4 h5).1

theorem counts_stay_consistent_witness :
    symmetric graph_six ∧ irreflexive graph_six ∧ counts_ok graph_six state_six ∧
      conflicts graph_six (day_row state_six.actual (state_six.actual.length - 1)) = 0 ∧
      counts_ok graph_six (improve graph_six 3 5 state_six).state ∧
      counts_ok graph_six
        (propose library_example graph_six 0 0
          (how_many_incompatibilities graph_six state_six.actual 0
            ((day_row state_six.actual 0).getD 0 0)) 1 0 state_six) :=
  ⟨symmetric_graph_six, irreflexive_graph_six, by decide, by decide,
    ((counts_stay_consistent graph_six symmetric_graph_six irreflexive_graph_six state_six
      (by decide)).1 (by decide) 3 5).2,
    (counts_stay_consistent graph_six symmetric_graph_six irreflexive_graph_six state_six
      (by decide)).2 library_example 0 0 1 0 (by decide) (by decide) (by decide) (by decide)
      (by decide)⟩

end Mh

/-! ## read_data: the codes of the names and the entries of the matrix -/

theorem lookup_append_single (film_code : FilmCode) (name other : String) (v : Nat) :
    (film_code ++ [(name, v)]).lookup other
      = match film_code.lookup other with
        | some c => some c
        | none => if other = name then some v else none := by
  rw [List.lookup_append]
  cases h : film_code.lookup other with
  | some c => simp
  | none =>
    by_cases h1 : other = name
    · subst h1
      simp [List.lookup]
    · have h2 : (other == name) = false := by simpa using h1
      simp [List.lookup, h1, h2]

theorem film_code_index_insert (film_code : FilmCode) (name : String) (i : Nat) :
    (film_code_index (film_code_insert film_code name i) name).2
      = film_code_insert film_code name i := by
  unfold film_code_insert
  cases h : film_code.lookup name with
  | some c => simp [film_code_index, h]
  | none =>
    have h1 : (film_code ++ [(name, i)]).lookup name = some i := by
      rw [lookup_append_single, h]
      simp
    simp [film_code_index, h1]

theorem prefix_ok_insert (pre : List String) (film_code : FilmCode) (name : String)
    (h : prefix_ok pre film_code) :
    prefix_ok (pre ++ [name]) (film_code_insert film_code name pre.length) := by
  intro other
  unfold film_code_insert
  by_cases hmem : name ∈ pre
  · have h1 := h name
    rw [if_pos hmem] at h1
    rw [h1]
    dsimp only
    rw [h other]
    by_cases h2 : other ∈ pre
    · rw [if_pos h2, if_pos (by simp [h2]), List.indexOf_append_of_mem h2]
    · have h3 : other ≠ name := fun e => h2 (e ▸ hmem)
      rw [if_neg h2, if_neg (by simp [h2, h3])]
  · have h1 := h name
    rw [if_neg hmem] at h1
    rw [h1]
    dsimp only
    rw [lookup_append_single, h other]
    by_cases h2 : other ∈ pre
    · simp [h2, List.indexOf_append_of_mem h2]
    · rw [if_neg h2]
      dsimp only
      by_cases h3 : other = name
      · subst h3
        rw [if_pos rfl, if_pos (by simp), List.indexOf_append_of_not_mem h2]
        simp
      · rw [if_neg h3, if_neg (by simp [h2, h3])]

theorem film_code_index_prefix (pre : List String) (film_code : FilmCode) (name : String)
    (h : prefix_ok pre film_code) (hmem : name ∈ pre) :
    film_code_index film_code name = (pre.indexOf name, film_code) := by
  have h1 := h name
  rw [if_pos hmem] at h1
  simp [film_code_index, h1]

theorem read_film_film_code (st : List String × FilmCode × List Pair) (name : String) (i : Nat) :
    (read_film st name i).2.1 = film_code_insert st.2.1 name i := by
  simp only [read_film]
  exact film_code_index_insert st.2.1 name i

theorem read_films_prefix (rest pre : List String) (st : List String × FilmCode × List Pair)
    (h : prefix_ok pre st.2.1) :
    prefix_ok (pre ++ rest) (read_films rest pre.length st).2.1 := by
  induction rest generalizing pre st with
  | nil => simpa [read_films] using h
  | cons name rest ih =>
    have h1 : prefix_ok (pre ++ [name]) (read_film st name pre.length).2.1 := by
      rw [read_film_film_code]
      exact prefix_ok_insert pre st.2.1 name h
    have h2 := ih (pre ++ [name]) (read_film st name pre.length) h1
    simpa [read_films] using h2

theorem codes_ok_of_prefix (films : List String) (film_code : FilmCode)
    (h : prefix_ok films film_code) : codes_ok films film_code := by
  intro name
  by_cases hmem : name ∈ films
  · left
    rw [h name, if_pos hmem, code_of, if_pos hmem]
  · right
    exact ⟨by simp [h name, hmem], hmem⟩

theorem film_code_index_codes (films : List String) (film_code : FilmCode) (name : String)
    (h : codes_ok films film_code) :
    (film_code_index film_code name).1 = code_of films name ∧
      codes_ok films (film_code_index film_code name).2 := by
  rcases h name with h1 | ⟨h1, h2⟩
  · simp only [film_code_index, h1]
    exact ⟨trivial, h⟩
  · simp only [film_code_index, h1]
    refine ⟨by simp [code_of, h2], ?_⟩
    intro other
    rw [lookup_append_single]
    rcases h other with h3 | ⟨h3, h4⟩
    · left
      rw [h3]
    · rw [h3]
      dsimp only
      by_cases h5 : other = name
      · left
        rw [if_pos h5, code_of, if_neg h4]
      · right
        exact ⟨by simp [h5], h4⟩

theorem read_pair_codes (films : List String) (st : FilmCode × List Pair × Graph)
    (pair : String × String) (h : codes_ok films st.1) :
    codes_ok films (read_pair st pair).1 ∧
      (read_pair st pair).2.1 = add_both st.2.1 (pair_codes films pair) ∧
      (read_pair st pair).2.2 = set_both st.2.2 (pair_codes films pair) := by
  have h1 := film_code_index_codes films st.1 pair.1 h
  have h2 := film_code_index_codes films (film_code_index st.1 pair.1).2 pair.2 h1.2
  simp only [read_pair, add_both, set_both, pair_codes, h1.1, h2.1]
  exact ⟨h2.2, trivial, trivial⟩

theorem read_pairs_codes (films : List String) (pairs : List (String × String))
    (st : FilmCode × List Pair × Graph) (h : codes_ok films st.1) :
    codes_ok films (pairs.foldl read_pair st).1 ∧
      (pairs.foldl read_pair st).2.1 = (pairs.map (pair_codes films)).foldl add_both st.2.1 ∧
      (pairs.foldl read_pair st).2.2 = (pairs.map (pair_codes films)).foldl set_both st.2.2 := by
  induction pairs generalizing st with
  | nil => exact ⟨h, rfl, rfl⟩
  | cons p rest ih =>
    have h1 := read_pair_codes films st p h
    have h2 := ih (read_pair st p) h1.1
    simp only [List.foldl_cons, List.map_cons]
    rw [← h1.2.1, ← h1.2.2]
    exact h2

theorem read_films_codes (input : Input) :
    codes_ok input.films (read_films input.films 0
      (List.replicate input.films.length "", [], List.replicate input.films.length (0, 0))).2.1 := by
  apply codes_ok_of_prefix
  have h := read_films_prefix input.films []
    (List.replicate input.films.length "", [], List.replicate input.films.length (0, 0))
    (by intro name; simp)
  simpa using h

theorem read_data_graph (sort : List Pair → List Pair) (input : Input) :
    (read_data sort input).relations_graph
      = (input.pairs.map (pair_codes input.films)).foldl set_both
          (List.replicate input.films.length (List.replicate input.films.length false)) := by
  exact (read_pairs_codes input.films input.pairs _ (read_films_codes input)).2.2

theorem read_data_restrictions (sort : List Pair → List Pair) (input : Input) :
    (read_data sort input).restrictions
      = sort ((input.pairs.map (pair_codes input.films)).foldl add_both
          (read_films input.films 0 (List.replicate input.films.length "", [],
            List.replicate input.films.length (0, 0))).2.2) := by
  have h := (read_pairs_codes input.films input.pairs
    ((read_films input.films 0 (List.replicate input.films.length "", [],
      List.replicate input.films.length (0, 0))).2.1,
     (read_films input.films 0 (List.replicate input.films.length "", [],
      List.replicate input.films.length (0, 0))).2.2,
     List.replicate input.films.length (List.replicate input.films.length false))
    (read_films_codes input)).2.1
  simp only [read_data]
  rw [h]

theorem square_replicate (n : Nat) : square n (List.replicate n (List.replicate n false)) := by
  refine ⟨by simp, ?_⟩
  intro row hrow
  rw [List.eq_of_mem_replicate hrow]
  simp

theorem incompatible_replicate (n a b : Nat) :
    incompatible (List.replicate n (List.replicate n false)) a b = false := by
  unfold incompatible
  by_cases ha : a < n
  · by_cases hb : b < n
    · simp [List.getD_eq_getElem?_getD, List.getElem?_replicate, ha, hb]
    · simp [List.getD_eq_getElem?_getD, List.getElem?_replicate, ha, hb]
  · simp [List.getD_eq_getElem?_getD, List.getElem?_replicate, ha]

theorem square_set_both (n : Nat) (relations_graph : Graph) (codes : Nat × Nat)
    (h : square n relations_graph) : square n (set_both relations_graph codes) :=
  square_set_incompatible n _ _ _ (square_set_incompatible n _ _ _ h)

theorem incompatible_set_both (n : Nat) (relations_graph : Graph) (codes : Nat × Nat)
    (x y : Nat) (h : square n relations_graph) :
    incompatible (set_both relations_graph codes) x y
      = (decide (codes.1 < n ∧ codes.2 < n ∧
          ((x = codes.1 ∧ y = codes.2) ∨ (x = codes.2 ∧ y = codes.1)))
        || incompatible relations_graph x y) := by
  unfold set_both
  rw [incompatible_set_incompatible n _ _ _ x y (square_set_incompatible n _ _ _ h),
    incompatible_set_incompatible n _ _ _ x y h]
  by_cases c1 : x = codes.1 <;> by_cases c2 : y = codes.2 <;> by_cases c3 : x = codes.2 <;>
    by_cases c4 : y = codes.1 <;> by_cases c5 : codes.1 < n <;> by_cases c6 : codes.2 < n <;>
    simp [c1, c2, c3, c4, c5, c6]

theorem square_foldl_set_both (n : Nat) (codes : List (Nat × Nat)) (relations_graph : Graph)
    (h : square n relations_graph) : square n (codes.foldl set_both relations_graph) := by
  induction codes generalizing relations_graph with
  | nil => exact h
  | cons c rest ih => exact ih _ (square_set_both n relations_graph c h)

theorem incompatible_foldl_set_both (n : Nat) (codes : List (Nat × Nat))
    (relations_graph : Graph) (x y : Nat) (h : square n relations_graph) :
    incompatible (codes.foldl set_both relations_graph) x y = true ↔
      incompatible relations_graph x y = true ∨
        ∃ c ∈ codes, c.1 < n ∧ c.2 < n ∧ ((x = c.1 ∧ y = c.2) ∨ (x = c.2 ∧ y = c.1)) := by
  induction codes generalizing relations_graph with
  | nil => simp
  | cons c rest ih =>
    rw [List.foldl_cons, ih _ (square_set_both n relations_graph c h),
      incompatible_set_both n relations_graph c x y h]
    simp only [Bool.or_eq_true, decide_eq_true_eq, List.mem_cons, exists_eq_or_imp]
    generalize (∃ c ∈ rest, c.1 < n ∧ c.2 < n ∧ ((x = c.1 ∧ y = c.2) ∨ (x = c.2 ∧ y = c.1))) = q
    tauto

/-- The entries of the matrix built by `read_data`, in terms of the codes read for the
pairs. -/
theorem read_data_incompatible (sort : List Pair → List Pair) (input : Input) (x y : Nat) :
    incompatible (read_data sort input).relations_graph x y = true ↔
      ∃ pair ∈ input.pairs,
        code_of input.films pair.1 < input.films.length ∧
        code_of input.films pair.2 < input.films.length ∧
        ((x = code_of input.films pair.1 ∧ y = code_of input.films pair.2) ∨
          (x = code_of input.films pair.2 ∧ y = code_of input.films pair.1)) := by
  rw [read_data_graph, incompatible_foldl_set_both input.films.length _ _ x y
    (square_replicate input.films.length), incompatible_replicate]
  constructor
  · rintro (h | ⟨c, hc, h⟩)
    · simp at h
    · obtain ⟨pair, hp, rfl⟩ := List.mem_map.1 hc
      exact ⟨pair, hp, h⟩
  · rintro ⟨pair, hp, h⟩
    exact Or.inr ⟨pair_codes input.films pair, List.mem_map.2 ⟨pair, hp, rfl⟩, h⟩

theorem code_of_declared (films : List String) (name : String) (h : name ∈ films) :
    code_of films name = films.indexOf name ∧ code_of films name < films.length := by
  rw [code_of, if_pos h]
  exact ⟨rfl, List.indexOf_lt_length.2 h⟩

theorem mh_read_films_eq (rest : List String) (i : Nat)
    (st : List String × FilmCode × List Pair) :
    Mh.read_films rest i (st.1, st.2.1) = ((read_films rest i st).1, (read_films rest i st).2.1) := by
  induction rest generalizing i st with
  | nil => rfl
  | cons name rest ih =>
    have h := ih (i + 1) (read_film st name i)
    rw [read_film_film_code] at h
    simp only [Mh.read_films, read_films, Mh.read_film]
    rw [← h]
    rfl

theorem mh_read_pairs_eq (pairs : List (String × String)) (st : FilmCode × List Pair × Graph) :
    pairs.foldl Mh.read_pair (st.1, st.2.2)
      = ((pairs.foldl read_pair st).1, (pairs.foldl read_pair st).2.2) := by
  induction pairs generalizing st with
  | nil => rfl
  | cons p rest ih =>
    have h := ih (read_pair st p)
    simp only [List.foldl_cons]
    rw [← h]
    rfl

/-- The function `read_data` of `mh.cc` builds the same names, codes and matrix as the one of
`exh.cc` and `greedy.cc`. -/
theorem mh_read_data_eq (sort : List Pair → List Pair) (input : Input) :
    (Mh.read_data input).n_films = (read_data sort input).n_films ∧
      (Mh.read_data input).films = (read_data sort input).films ∧
      (Mh.read_data input).film_code = (read_data sort input).film_code ∧
      (Mh.read_data input).relations_graph = (read_data sort input).relations_graph := by
  have h1 := mh_read_films_eq input.films 0
    (List.replicate input.films.length "", [], List.replicate input.films.length (0, 0))
  have h2 := mh_read_pairs_eq input.pairs
    ((read_films input.films 0 (List.replicate input.films.length "", [],
      List.replicate input.films.length (0, 0))).2.1,
     (read_films input.films 0 (List.replicate input.films.length "", [],
      List.replicate input.films.length (0, 0))).2.2,
     List.replicate input.films.length (List.replicate input.films.length false))
  simp only at h1 h2
  simp only [Mh.read_data, read_data, h1, h2]
  exact ⟨trivial, trivial, trivial, trivial⟩

/-! ## read_data: symmetry, the diagonal, undeclared names -/

theorem declared_ABC_one_room : declared input_ABC_one_room := by
  intro pair hp
  simp only [input_ABC_one_room, List.mem_singleton] at hp
  subst hp
  simp [input_ABC_one_room]

/-- C12: for a pair list over declared film names, `read_data` (of `exh.cc` and
`greedy.cc`, and of `mh.cc`, which builds the same matrix) builds a symmetric matrix, and
for `i`, `j` in `[0, n_films)` the entry `relations_graph[i][j]` is true exactly when the
pair list holds a pair of the films `i`, `j` in one of the two orders. -/
theorem read_data_graph_spec (sort : List Pair → List Pair) (input : Input)
    (hdecl : declared input) :
    (Mh.read_data input).relations_graph = (read_data sort input).relations_graph ∧
      symmetric (read_data sort input).relations_graph ∧
      ∀ i j, i < (read_data sort input).n_films → j < (read_data sort input).n_films →
        (incompatible (read_data sort input).relations_graph i j = true ↔
          ∃ pair ∈ input.pairs,
            (input.films.indexOf pair.1 = i ∧ input.films.indexOf pair.2 = j) ∨
              (input.films.indexOf pair.1 = j ∧ input.films.indexOf pair.2 = i)) := by
  refine ⟨(mh_read_data_eq sort input).2.2.2, read_data_symmetric sort input, ?_⟩
  intro i j _ _
  rw [read_data_incompatible]
  constructor
  · rintro ⟨pair, hp, _, _, h⟩
    have h1 := code_of_declared input.films pair.1 (hdecl pair hp).1
    have h2 := code_of_declared input.films pair.2 (hdecl pair hp).2
    rw [h1.1, h2.1] at h
    refine ⟨pair, hp, ?_⟩
    rcases h with ⟨ha, hb⟩ | ⟨ha, hb⟩
    · exact Or.inl ⟨ha.symm, hb.symm⟩
    · exact Or.inr ⟨hb.symm, ha.symm⟩
  · rintro ⟨pair, hp, h⟩
    have h1 := code_of_declared input.films pair.1 (hdecl pair hp).1
    have h2 := code_of_declared input.films pair.2 (hdecl pair hp).2
    refine ⟨pair, hp, h1.2, h2.2, ?_⟩
    rw [h1.1, h2.1]
    rcases h with ⟨ha, hb⟩ | ⟨ha, hb⟩
    · exact Or.inl ⟨ha.symm, hb.symm⟩
    · exact Or.inr ⟨hb.symm, ha.symm⟩

theorem read_data_graph_spec_witness :
    declared input_ABC_one_room ∧
      (Mh.read_data input_ABC_one_room).relations_graph
        = (read_data insertion_sort input_ABC_one_room).relations_graph ∧
      symmetric (read_data insertion_sort input_ABC_one_room).relations_graph ∧
      ∀ i j, i < (read_data insertion_sort input_ABC_one_room).n_films →
        j < (read_data insertion_sort input_ABC_one_room).n_films →
        (incompatible (read_data insertion_sort input_ABC_one_room).relations_graph i j = true ↔
          ∃ pair ∈ input_ABC_one_room.pairs,
            (input_ABC_one_room.films.indexOf pair.1 = i ∧
                input_ABC_one_room.films.indexOf pair.2 = j) ∨
              (input_ABC_one_room.films.indexOf pair.1 = j ∧
                input_ABC_one_room.films.indexOf pair.2 = i)) :=
  ⟨declared_ABC_one_room,
    read_data_graph_spec insertion_sort input_ABC_one_room declared_ABC_one_room⟩

/-- C13 fails as stated: on one film A with the pair (A, A), a pair list over declared
names, `read_data` sets `relations_graph[0][0]`, in `exh.cc` and `greedy.cc` and in
`mh.cc`. -/
theorem read_data_self_pair_reflexive :
    declared input_self_pair ∧
      incompatible (read_data insertion_sort input_self_pair).relations_graph 0 0 = true ∧
      incompatible (Mh.read_data input_self_pair).relations_graph 0 0 = true ∧
      0 < (read_data insertion_sort input_self_pair).n_films := by
  refine ⟨?_, by decide, by decide, by decide⟩
  intro pair hp
  simp only [input_self_pair, List.mem_singleton] at hp
  subst hp
  simp [input_self_pair]

/-- C13 (amended): for a pair list over declared film names in which no pair names the same
film twice, the matrix built by `read_data` (same matrix in `mh.cc`) is irreflexive; and it
is irreflexive only for such pair lists. -/
theorem read_data_irreflexive (sort : List Pair → List Pair) (input : Input)
    (hdecl : declared input) :
    (Mh.read_data input).relations_graph = (read_data sort input).relations_graph ∧
      ((∀ pair ∈ input.pairs, pair.1 ≠ pair.2) →
        ∀ i, i < (read_data sort input).n_films →
          incompatible (read_data sort input).relations_graph i i = false) ∧
      (irreflexive (read_data sort input).relations_graph ↔
        ∀ pair ∈ input.pairs, pair.1 ≠ pair.2) := by
  have key : irreflexive (read_data sort input).relations_graph ↔
      ∀ pair ∈ input.pairs, pair.1 ≠ pair.2 := by
    constructor
    · intro hirr pair hp heq
      have h1 := code_of_declared input.films pair.1 (hdecl pair hp).1
      have h2 := code_of_declared input.films pair.2 (hdecl pair hp).2
      have h3 := (read_data_incompatible sort input (code_of input.films pair.1)
        (code_of input.films pair.1)).2
        ⟨pair, hp, h1.2, h2.2, Or.inl ⟨rfl, by rw [heq]⟩⟩
      rw [hirr] at h3
      exact Bool.false_ne_true h3
    · intro hne i
      by_contra hcon
      have h3 := (read_data_incompatible sort input i i).1 (by simpa using hcon)
      obtain ⟨pair, hp, _, _, h⟩ := h3
      have h1 := code_of_declared input.films pair.1 (hdecl pair hp).1
      have h2 := code_of_declared input.films pair.2 (hdecl pair hp).2
      have h4 : input.films.indexOf pair.1 = input.films.indexOf pair.2 := by
        rw [← h1.1, ← h2.1]
        rcases h with ⟨ha, hb⟩ | ⟨ha, hb⟩
        · rw [← ha, ← hb]
        · rw [← ha, ← hb]
      exact hne pair hp ((List.indexOf_inj (hdecl pair hp).1 (hdecl pair hp).2).1 h4)
  refine ⟨(mh_read_data_eq sort input).2.2.2, ?_, key⟩
  intro hne i _
  exact key.2 hne i

theorem read_data_irreflexive_witness :
    declared input_ABC_one_room ∧
      (∀ pair ∈ input_ABC_one_room.pairs, pair.1 ≠ pair.2) ∧
      irreflexive (read_data insertion_sort input_ABC_one_room).relations_graph := by
  have h : ∀ pair ∈ input_ABC_one_room.pairs, pair.1 ≠ pair.2 := by
    intro pair hp
    simp only [input_ABC_one_room, List.mem_singleton] at hp
    subst hp
    decide
  exact ⟨declared_ABC_one_room, h,
    (read_data_irreflexive insertion_sort input_ABC_one_room declared_ABC_one_room).2.2.2 h⟩

/-! ## read_data: the vector restrictions -/

theorem getD_set_pair (l : List Pair) (i j : Nat) (a : Pair) :
    (l.set i a).getD j (0, 0) = if i = j ∧ i < l.length then a else l.getD j (0, 0) := by
  rw [List.getD_eq_getElem?_getD, List.getD_eq_getElem?_getD, List.getElem?_set]
  by_cases h : i = j
  · subst h
    by_cases h1 : i < l.length
    · simp [h1]
    · simp [h1, List.getElem?_eq_none (Nat.le_of_not_lt h1)]
  · simp [h]

theorem length_add_restriction (restrictions : List Pair) (code : Nat) :
    (add_restriction restrictions code).length = restrictions.length := by
  simp [add_restriction]

theorem getD_add_restriction (restrictions : List Pair) (code i : Nat)
    (h : code < restrictions.length) :
    (add_restriction restrictions code).getD i (0, 0)
      = ((restrictions.getD i (0, 0)).1,
          (restrictions.getD i (0, 0)).2 + if i = code then 1 else 0) := by
  rw [add_restriction, getD_set_pair]
  by_cases h1 : code = i
  · subst h1
    simp [h]
  · have h2 : ¬ i = code := fun e => h1 e.symm
    simp [h1, h2]

theorem length_add_both (restrictions : List Pair) (codes : Nat × Nat) :
    (add_both restrictions codes).length = restrictions.length := by
  simp [add_both, length_add_restriction]

theorem getD_add_both (restrictions : List Pair) (codes : Nat × Nat) (i : Nat)
    (h1 : codes.1 < restrictions.length) (h2 : codes.2 < restrictions.length) :
    (add_both restrictions codes).getD i (0, 0)
      = ((restrictions.getD i (0, 0)).1,
          (restrictions.getD i (0, 0)).2 + (if i = codes.1 then 1 else 0)
            + (if i = codes.2 then 1 else 0)) := by
  rw [add_both, getD_add_restriction _ _ _ (by rw [length_add_restriction]; exact h2),
    getD_add_restriction _ _ _ h1]

theorem length_foldl_add_both (codes : List (Nat × Nat)) (restrictions : List Pair) :
    (codes.foldl add_both restrictions).length = restrictions.length := by
  induction codes generalizing restrictions with
  | nil => rfl
  | cons c rest ih => rw [List.foldl_cons, ih, length_add_both]

theorem fst_foldl_add_both (n : Nat) (codes : List (Nat × Nat)) (restrictions : List Pair)
    (hlen : restrictions.length = n) (hc : ∀ c ∈ codes, c.1 < n ∧ c.2 < n) (i : Nat) :
    ((codes.foldl add_both restrictions).getD i (0, 0)).1 = (restrictions.getD i (0, 0)).1 := by
  induction codes generalizing restrictions with
  | nil => rfl
  | cons c rest ih =>
    have h := hc c (List.mem_cons_self _ _)
    rw [List.foldl_cons, ih _ (by rw [length_add_both, hlen])
      (fun d hd => hc d (List.mem_cons_of_mem _ hd)),
      getD_add_both _ _ _ (by rw [hlen]; exact h.1) (by rw [hlen]; exact h.2)]

theorem filter_length_update (b : Nat) (p q : Nat → Bool)
    (hq : ∀ j, q j = (decide (j = b) || p j)) (hp : p b = false) (n : Nat) :
    ((List.range n).filter q).length
      = ((List.range n).filter p).length + if b < n then 1 else 0 := by
  induction n with
  | zero => simp
  | succ n ih =>
    rw [List.range_succ, List.filter_append, List.filter_append, List.length_append,
      List.length_append, ih]
    by_cases h : n = b
    · subst h
      have h1 : q n = true := by rw [hq]; simp
      simp [List.filter, h1, hp]
    · have h1 : q n = p n := by rw [hq]; simp [h]
      have h2 : b < n + 1 ↔ b < n := by omega
      simp only [List.filter, h1, h2]
      omega

theorem degree_count_set_both (n : Nat) (relations_graph : Graph) (codes : Nat × Nat)
    (hsq : square n relations_graph) (h1 : codes.1 < n) (h2 : codes.2 < n)
    (hne : codes.1 ≠ codes.2)
    (hab : incompatible relations_graph codes.1 codes.2 = false)
    (hba : incompatible relations_graph codes.2 codes.1 = false) (i : Nat) :
    degree_count (set_both relations_graph codes) n i
      = degree_count relations_graph n i + (if i = codes.1 then 1 else 0)
          + (if i = codes.2 then 1 else 0) := by
  unfold degree_count
  by_cases ha : i = codes.1
  · have hb : ¬ i = codes.2 := fun e => hne (ha.symm.trans e)
    rw [if_pos ha, if_neg hb, filter_length_update codes.2
      (fun j => incompatible relations_graph i j)
      (fun j => incompatible (set_both relations_graph codes) i j) ?_ (by rw [ha]; exact hab) n,
      if_pos h2]
    intro j
    dsimp only
    rw [incompatible_set_both n relations_graph codes i j hsq]
    simp [ha, h1, h2, hne]
  · by_cases hb : i = codes.2
    · rw [if_neg ha, if_pos hb, filter_length_update codes.1
        (fun j => incompatible relations_graph i j)
        (fun j => incompatible (set_both relations_graph codes) i j) ?_
        (by rw [hb]; exact hba) n, if_pos h1]
      intro j
      dsimp only
      rw [incompatible_set_both n relations_graph codes i j hsq]
      have hne2 : ¬ codes.2 = codes.1 := fun e => hne e.symm
      simp [hb, h1, h2, hne2]
    · rw [if_neg ha, if_neg hb, Nat.add_zero]
      have h3 : (fun j => incompatible (set_both relations_graph codes) i j)
          = fun j => incompatible relations_graph i j := by
        funext j
        rw [incompatible_set_both n relations_graph codes i j hsq]
        simp [ha, hb]
      rw [h3]


theorem degrees_foldl (n : Nat) (codes : List (Nat × Nat)) (restrictions : List Pair)
    (relations_graph : Graph) (hlen : restrictions.length = n) (hsq : square n relations_graph)
    (hdeg : ∀ i, i < n → (restrictions.getD i (0, 0)).2 = degree_count relations_graph n i)
    (hc : ∀ c ∈ codes, c.1 < n ∧ c.2 < n ∧ c.1 ≠ c.2 ∧
      incompatible relations_graph c.1 c.2 = false ∧
      incompatible relations_graph c.2 c.1 = false)
    (hpw : codes.Pairwise distinct_codes) :
    ∀ i, i < n → ((codes.foldl add_both restrictions).getD i (0, 0)).2
      = degree_count (codes.foldl set_both relations_graph) n i := by
  induction codes generalizing restrictions relations_graph with
  | nil => exact hdeg
  | cons c rest ih =>
    obtain ⟨h1, h2, hne, hab, hba⟩ := hc c (List.mem_cons_self _ _)
    rw [List.pairwise_cons] at hpw
    simp only [List.foldl_cons]
    apply ih _ _ (by rw [length_add_both, hlen]) (square_set_both n _ c hsq)
    · intro i hi
      rw [getD_add_both _ _ _ (by rw [hlen]; exact h1) (by rw [hlen]; exact h2),
        degree_count_set_both n relations_graph c hsq h1 h2 hne hab hba i, hdeg i hi]
    · intro d hd
      obtain ⟨g1, g2, gne, gab, gba⟩ := hc d (List.mem_cons_of_mem _ hd)
      have hdist := hpw.1 d hd
      unfold distinct_codes at hdist
      refine ⟨g1, g2, gne, ?_, ?_⟩
      · rw [incompatible_set_both n relations_graph c _ _ hsq, gab]
        simp only [Bool.or_false, decide_eq_false_iff_not]
        intro h
        apply hdist
        rcases h.2.2 with ⟨e1, e2⟩ | ⟨e1, e2⟩
        · exact Or.inl ⟨e1.symm, e2.symm⟩
        · exact Or.inr ⟨e2.symm, e1.symm⟩
      · rw [incompatible_set_both n relations_graph c _ _ hsq, gba]
        simp only [Bool.or_false, decide_eq_false_iff_not]
        intro h
        apply hdist
        rcases h.2.2 with ⟨e1, e2⟩ | ⟨e1, e2⟩
        · exact Or.inr ⟨e1.symm, e2.symm⟩
        · exact Or.inl ⟨e2.symm, e1.symm⟩
    · exact hpw.2

theorem read_film_restrictions (pre : List String) (st : List String × FilmCode × List Pair)
    (name : String) (hpre : prefix_ok pre st.2.1) (hnew : name ∉ pre) :
    (read_film st name pre.length).2.2 = st.2.2.set pre.length (pre.length, 0) := by
  have h1 := film_code_index_prefix (pre ++ [name]) _ name
    (prefix_ok_insert pre st.2.1 name hpre) (by simp)
  have h2 : (pre ++ [name]).indexOf name = pre.length := by
    rw [List.indexOf_append_of_not_mem hnew]
    simp
  rw [h2] at h1
  simp only [read_film, h1]

theorem read_films_restrictions (n : Nat) (rest pre : List String)
    (st : List String × FilmCode × List Pair) (hnodup : (pre ++ rest).Nodup)
    (hn : (pre ++ rest).length = n) (hpre : prefix_ok pre st.2.1) (hlen : st.2.2.length = n)
    (hk : ∀ k, k < pre.length → st.2.2.getD k (0, 0) = (k, 0)) :
    (read_films rest pre.length st).2.2.length = n ∧
      ∀ k, k < n → (read_films rest pre.length st).2.2.getD k (0, 0) = (k, 0) := by
  induction rest generalizing pre st with
  | nil =>
    simp only [List.append_nil] at hn
    rw [hn] at hk
    exact ⟨hlen, hk⟩
  | cons name rest ih =>
    have hnew : name ∉ pre := by
      intro hmem
      have := List.disjoint_of_nodup_append hnodup hmem
      exact this (List.mem_cons_self _ _)
    have hlt : pre.length < n := by
      rw [← hn]
      simp
    have hassoc : pre ++ name :: rest = (pre ++ [name]) ++ rest := by simp
    have h1 : prefix_ok (pre ++ [name]) (read_film st name pre.length).2.1 := by
      rw [read_film_film_code]
      exact prefix_ok_insert pre st.2.1 name hpre
    have h2 := ih (pre ++ [name]) (read_film st name pre.length) (by rw [← hassoc]; exact hnodup)
      (by rw [← hassoc]; exact hn) h1
      (by rw [read_film_restrictions pre st name hpre hnew, List.length_set]; exact hlen)
      (by
        intro k hk1
        rw [read_film_restrictions pre st name hpre hnew, getD_set_pair]
        by_cases h3 : pre.length = k
        · rw [if_pos ⟨h3, by rw [hlen]; exact hlt⟩, h3]
        · rw [if_neg (fun h => h3 h.1)]
          apply hk
          simp only [List.length_append, List.length_singleton] at hk1
          omega)
    simpa [read_films] using h2

theorem map_fst_eq_range (n : Nat) (restrictions : List Pair) (hlen : restrictions.length = n)
    (h : ∀ i, i < n → (restrictions.getD i (0, 0)).1 = i) :
    restrictions.map Prod.fst = List.range n := by
  apply List.ext_getElem
  · simp [hlen]
  · intro i h1 h2
    simp only [List.length_map] at h1
    have h3 := h i (by rw [← hlen]; exact h1)
    rw [List.getD_eq_getElem _ _ h1] at h3
    simp [h3]

theorem codes_declared (input : Input) (hdecl : declared input) :
    ∀ c ∈ input.pairs.map (pair_codes input.films),
      c.1 < input.films.length ∧ c.2 < input.films.length := by
  intro c hc
  obtain ⟨pair, hp, rfl⟩ := List.mem_map.1 hc
  exact ⟨(code_of_declared input.films pair.1 (hdecl pair hp).1).2,
    (code_of_declared input.films pair.2 (hdecl pair hp).2).2⟩

/-- The vector `restrictions` before the call of `sort`: for unique names and pairs over
declared names it has one entry per film, the entry of film `i` at index `i`. -/
theorem unsorted_restrictions (input : Input) (hnodup : input.films.Nodup)
    (hdecl : declared input) :
    (read_data (fun l => l) input).restrictions.length = input.films.length ∧
      (∀ i, i < input.films.length →
        ((read_data (fun l => l) input).restrictions.getD i (0, 0)).1 = i) ∧
      (read_data (fun l => l) input).restrictions.map Prod.fst
        = List.range input.films.length := by
  have h0 := read_films_restrictions input.films.length input.films []
    (List.replicate input.films.length "", [], List.replicate input.films.length (0, 0))
    (by simpa using hnodup) (by simp) (by intro name; simp) (by simp)
    (by intro k hk; simp at hk)
  simp only [List.length_nil] at h0
  have hlen : (read_data (fun l => l) input).restrictions.length = input.films.length := by
    rw [read_data_restrictions, length_foldl_add_both]
    exact h0.1
  have hfst : ∀ i, i < input.films.length →
      ((read_data (fun l => l) input).restrictions.getD i (0, 0)).1 = i := by
    intro i hi
    rw [read_data_restrictions]
    rw [fst_foldl_add_both input.films.length _ _ h0.1 (codes_declared input hdecl) i,
      h0.2 i hi]
  exact ⟨hlen, hfst, map_fst_eq_range _ _ hlen hfst⟩

theorem read_data_sort (sort : List Pair → List Pair) (input : Input) :
    (read_data sort input).restrictions = sort (read_data (fun l => l) input).restrictions :=
  rfl

/-- The degrees stored before the call of `sort`, for unique names and a pair list over
declared names without a pair of a film with itself and without a repeated pair. -/
theorem unsorted_degrees (input : Input) (hnodup : input.films.Nodup) (hdecl : declared input)
    (hsimple : simple_pairs input.pairs) :
    ∀ i, i < input.films.length →
      ((read_data (fun l => l) input).restrictions.getD i (0, 0)).2
        = degree_count (read_data (fun l => l) input).relations_graph input.films.length i := by
  have h0 := read_films_restrictions input.films.length input.films []
    (List.replicate input.films.length "", [], List.replicate input.films.length (0, 0))
    (by simpa using hnodup) (by simp) (by intro name; simp) (by simp)
    (by intro k hk; simp at hk)
  simp only [List.length_nil] at h0
  rw [read_data_restrictions, read_data_graph]
  apply degrees_foldl input.films.length _ _ _ h0.1 (square_replicate _)
  · intro i hi
    rw [h0.2 i hi]
    simp [degree_count, incompatible_replicate]
  · intro c hc
    obtain ⟨pair, hp, rfl⟩ := List.mem_map.1 hc
    have h1 := code_of_declared input.films pair.1 (hdecl pair hp).1
    have h2 := code_of_declared input.films pair.2 (hdecl pair hp).2
    refine ⟨h1.2, h2.2, ?_, incompatible_replicate _ _ _, incompatible_replicate _ _ _⟩
    simp only [pair_codes]
    rw [h1.1, h2.1]
    intro h
    exact hsimple.1 pair hp ((List.indexOf_inj (hdecl pair hp).1 (hdecl pair hp).2).1 h)
  · rw [List.pairwise_map]
    refine List.Pairwise.imp_of_mem ?_ hsimple.2
    intro p q hp hq hpq hcodes
    apply hpq
    have p1 := code_of_declared input.films p.1 (hdecl p hp).1
    have p2 := code_of_declared input.films p.2 (hdecl p hp).2
    have q1 := code_of_declared input.films q.1 (hdecl q hq).1
    have q2 := code_of_declared input.films q.2 (hdecl q hq).2
    simp only [pair_codes] at hcodes
    rw [p1.1, p2.1, q1.1, q2.1] at hcodes
    rcases hcodes with ⟨e1, e2⟩ | ⟨e1, e2⟩
    · exact Or.inl ⟨(List.indexOf_inj (hdecl p hp).1 (hdecl q hq).1).1 e1,
        (List.indexOf_inj (hdecl p hp).2 (hdecl q hq).2).1 e2⟩
    · exact Or.inr ⟨(List.indexOf_inj (hdecl p hp).1 (hdecl q hq).2).1 e1,
        (List.indexOf_inj (hdecl p hp).2 (hdecl q hq).1).1 e2⟩

/-! ## read_data: degrees and order of restrictions -/

/-- C14 fails as stated: with the pair (A, B) listed twice the degree stored for A and for B
is 2 although each conflicts with one film, and with the pair (A, A) the degree stored for A
is 2 although `relations_graph[0][j]` is true for one `j`. -/
theorem read_data_repeated_pair_degree :
    declared input_repeated_pair ∧
      (read_data insertion_sort input_repeated_pair).restrictions = [(0, 2), (1, 2)] ∧
      degree_count (read_data insertion_sort input_repeated_pair).relations_graph 2 0 = 1 ∧
      degree_count (read_data insertion_sort input_repeated_pair).relations_graph 2 1 = 1 ∧
      declared input_self_pair ∧
      (read_data insertion_sort input_self_pair).restrictions = [(0, 2)] ∧
      degree_count (read_data insertion_sort input_self_pair).relations_graph 1 0 = 1 := by
  decide

/-- C14 (amended): for unique film names and a pair list over declared names in which no
pair names the same film twice and no pair is listed twice (in either order), every film
has an entry in `restrictions`, and the degree stored in each entry equals the number of
distinct films `j` with `relations_graph[film][j]` true. -/
theorem read_data_degree (sort : List Pair → List Pair) (hsort : sorts_by_comparator sort)
    (input : Input) (hnodup : input.films.Nodup) (hdecl : declared input)
    (hsimple : simple_pairs input.pairs) :
    (∀ film, film < (read_data sort input).n_films →
      ∃ entry ∈ (read_data sort input).restrictions, entry.1 = film) ∧
    ∀ entry ∈ (read_data sort input).restrictions,
      entry.1 < (read_data sort input).n_films ∧
        entry.2 = degree_count (read_data sort input).relations_graph
          (read_data sort input).n_films entry.1 := by
  have hu := unsorted_restrictions input hnodup hdecl
  have hd := unsorted_degrees input hnodup hdecl hsimple
  have hperm := (hsort (read_data (fun l => l) input).restrictions).1
  constructor
  · intro film hfilm
    have hlt : film < (read_data (fun l => l) input).restrictions.length := by
      rw [hu.1]
      exact hfilm
    refine ⟨(read_data (fun l => l) input).restrictions.getD film (0, 0), ?_, hu.2.1 film hfilm⟩
    rw [read_data_sort, hperm.mem_iff, List.getD_eq_getElem _ _ hlt]
    exact List.getElem_mem hlt
  · intro entry hentry
    rw [read_data_sort, hperm.mem_iff] at hentry
    obtain ⟨i, hi, rfl⟩ := List.getElem_of_mem hentry
    have hin : i < input.films.length := by
      rw [← hu.1]
      exact hi
    have h1 := hu.2.1 i hin
    have h2 := hd i hin
    rw [List.getD_eq_getElem _ _ hi] at h1 h2
    rw [h1]
    exact ⟨hin, h2⟩

theorem read_data_degree_witness :
    sorts_by_comparator insertion_sort ∧ input_ABC_one_room.films.Nodup ∧
      declared input_ABC_one_room ∧ simple_pairs input_ABC_one_room.pairs ∧
      (read_data insertion_sort input_ABC_one_room).restrictions = [(0, 1), (1, 1), (2, 0)] ∧
      ∀ entry ∈ (read_data insertion_sort input_ABC_one_room).restrictions,
        entry.1 < (read_data insertion_sort input_ABC_one_room).n_films ∧
          entry.2 = degree_count (read_data insertion_sort input_ABC_one_room).relations_graph
            (read_data insertion_sort input_ABC_one_room).n_films entry.1 :=
  ⟨insertion_sort_sorts, by decide, by decide, by decide, by decide,
    (read_data_degree insertion_sort insertion_sort_sorts input_ABC_one_room (by decide)
      (by decide) (by decide)).2⟩

/-- C15: for unique film names (and a pair list over declared names), the vector
`restrictions` after `read_data` is a permutation of the vector before the call of `sort`,
which holds one entry per film index in `[0, n_films)` in index order; hence the films of
`restrictions` are a permutation of `0 .. n_films - 1`, and the degrees do not increase from
first to last. The vector before the call of `sort` is `read_data` with the identity in the
place of `sort`. -/
theorem read_data_restrictions_order (sort : List Pair → List Pair)
    (hsort : sorts_by_comparator sort) (input : Input) (hnodup : input.films.Nodup)
    (hdecl : declared input) :
    (read_data sort input).restrictions.Perm (read_data (fun l => l) input).restrictions ∧
      (read_data (fun l => l) input).restrictions.map Prod.fst
        = List.range (read_data sort input).n_films ∧
      ((read_data sort input).restrictions.map Prod.fst).Perm
        (List.range (read_data sort input).n_films) ∧
      (read_data sort input).restrictions.length = (read_data sort input).n_films ∧
      (read_data sort input).restrictions.Pairwise (fun a b => b.2 ≤ a.2) := by
  have hu := unsorted_restrictions input hnodup hdecl
  have hs := hsort (read_data (fun l => l) input).restrictions
  refine ⟨hs.1, hu.2.2, ?_, ?_, ?_⟩
  · have h := hs.1.map Prod.fst
    rw [hu.2.2] at h
    exact h
  · rw [read_data_sort, hs.1.length_eq]
    exact hu.1
  · rw [read_data_sort]
    refine hs.2.imp ?_
    intro a b h
    simp only [comparator, decide_eq_false_iff_not, gt_iff_lt, not_lt] at h
    exact h

theorem read_data_restrictions_order_witness :
    sorts_by_comparator insertion_sort ∧ input_ABC_one_room.films.Nodup ∧
      declared input_ABC_one_room ∧
      (read_data insertion_sort input_ABC_one_room).restrictions = [(0, 1), (1, 1), (2, 0)] ∧
      ((read_data insertion_sort input_ABC_one_room).restrictions.map Prod.fst).Perm
        (List.range (read_data insertion_sort input_ABC_one_room).n_films) ∧
      (read_data insertion_sort input_ABC_one_room).restrictions.Pairwise
        (fun a b => b.2 ≤ a.2) :=
  ⟨insertion_sort_sorts, by decide, by decide, by decide,
    (read_data_restrictions_order insertion_sort insertion_sort_sorts input_ABC_one_room
      (by decide) (by decide)).2.2.1,
    (read_data_restrictions_order insertion_sort insertion_sort_sorts input_ABC_one_room
      (by decide) (by decide)).2.2.2.2⟩

/-! ## exh.cc: the search restores the schedule and runs to completion -/

namespace Exh

theorem for_days_restores (call : State → Option State) (relations_graph : Graph)
    (n_CinRooms code : Nat)
    (hcall : ∀ s s1, call s = some s1 → s1.actual = s.actual)
    (steps i : Nat) (st st1 : State)
    (h : for_days call relations_graph n_CinRooms code steps i st = some st1) :
    st1.actual = st.actual := by
  induction steps generalizing i st with
  | zero =>
    unfold for_days at h
    split_ifs at h
    simp only [Option.some.injEq] at h
    rw [← h]
  | succ steps ih =>
    unfold for_days at h
    split_ifs at h with h1 h2
    · cases hc : call { st with actual := push_back_at st.actual i code } with
      | none => simp [hc] at h
      | some s1 =>
        simp only [hc] at h
        have h3 := ih _ _ h
        have h4 := hcall _ _ hc
        simp only at h3 h4
        rw [h3, h4, pop_back_at_push_back_at]
    · exact ih _ _ h
    · simp only [Option.some.injEq] at h
      rw [← h]

theorem for_days_returns (call : State → Option State) (relations_graph : Graph)
    (n_CinRooms code : Nat)
    (hcall : ∀ s, ∃ s1, call s = some s1 ∧ s1.actual = s.actual)
    (steps i : Nat) (st : State) (hsteps : st.actual.length ≤ i + steps) :
    ∃ st1, for_days call relations_graph n_CinRooms code steps i st = some st1 := by
  induction steps generalizing i st with
  | zero =>
    unfold for_days
    rw [if_neg (by omega)]
    exact ⟨st, rfl⟩
  | succ steps ih =>
    unfold for_days
    split_ifs with h1 h2
    · obtain ⟨s1, hc, hs1⟩ := hcall { st with actual := push_back_at st.actual i code }
      simp only [hc]
      apply ih
      simp only at hs1 ⊢
      rw [hs1, pop_back_at_push_back_at]
      omega
    · exact ih _ _ (by omega)
    · exact ⟨st, rfl⟩

/-- Whatever the bound on the depth, a call of `schedule_festival` that returns leaves
`actual` as it was on entry. -/
theorem schedule_festival_restores (relations_graph : Graph) (n_CinRooms n_films : Nat)
    (restrictions : List Pair) (fuel : Nat) (st : State) (ActualDays film_index : Nat)
    (st1 : State)
    (h : schedule_festival relations_graph n_CinRooms n_films restrictions fuel st ActualDays
      film_index = some st1) :
    st1.actual = st.actual := by
  induction fuel generalizing st ActualDays film_index st1 with
  | zero => simp [schedule_festival] at h
  | succ fuel ih =>
    unfold schedule_festival at h
    split_ifs at h with h1 h2
    · simp only [Option.some.injEq] at h
      rw [← h]
      rfl
    · cases hf : for_days
          (fun s => schedule_festival relations_graph n_CinRooms n_films restrictions fuel s
            ActualDays (film_index + 1))
          relations_graph n_CinRooms (restrictions.getD film_index (0, 0)).1
          st.actual.length 0 st with
      | none =>
        rw [hf] at h
        exact Option.noConfusion h
      | some s1 =>
        rw [hf] at h
        dsimp only at h
        have hs1 := for_days_restores _ relations_graph n_CinRooms _
          (fun s s2 hs => ih s ActualDays (film_index + 1) s2 hs) _ _ _ _ hf
        cases hn : schedule_festival relations_graph n_CinRooms n_films restrictions fuel
            { s1 with actual := s1.actual ++ [[(restrictions.getD film_index (0, 0)).1]] }
            (ActualDays + 1) (film_index + 1) with
        | none =>
          rw [hn] at h
          exact Option.noConfusion h
        | some s2 =>
          rw [hn] at h
          simp only [Option.some.injEq] at h
          have hs2 := ih _ _ _ _ hn
          simp only at hs2
          rw [← h]
          simp only
          rw [hs2, List.dropLast_concat, hs1]
    · simp only [Option.some.injEq] at h
      rw [← h]

/-- A call of `schedule_festival` with `film_index <= n_films` returns when the bound on
the depth is more than `n_films - film_index`. -/
theorem schedule_festival_returns (relations_graph : Graph) (n_CinRooms n_films : Nat)
    (restrictions : List Pair) (fuel : Nat) (st : State) (ActualDays film_index : Nat)
    (hindex : film_index ≤ n_films) (hfuel : n_films - film_index < fuel) :
    ∃ st1, schedule_festival relations_graph n_CinRooms n_films restrictions fuel st
      ActualDays film_index = some st1 := by
  induction fuel generalizing st ActualDays film_index with
  | zero => omega
  | succ fuel ih =>
    unfold schedule_festival
    split_ifs with h1 h2
    · exact ⟨_, rfl⟩
    · have hcall : ∀ s, ∃ s1,
          schedule_festival relations_graph n_CinRooms n_films restrictions fuel s
            ActualDays (film_index + 1) = some s1 ∧ s1.actual = s.actual := by
        intro s
        obtain ⟨s1, hs1⟩ := ih s ActualDays (film_index + 1) (by omega) (by omega)
        exact ⟨s1, hs1, schedule_festival_restores _ _ _ _ _ _ _ _ _ hs1⟩
      obtain ⟨s1, hf⟩ := for_days_returns _ relations_graph n_CinRooms
        (restrictions.getD film_index (0, 0)).1 hcall st.actual.length 0 st (by omega)
      rw [hf]
      dsimp only
      obtain ⟨s2, hn⟩ := ih
        { s1 with actual := s1.actual ++ [[(restrictions.getD film_index (0, 0)).1]] }
        (ActualDays + 1) (film_index + 1) (by omega) (by omega)
      rw [hn]
      exact ⟨_, rfl⟩
    · exact ⟨st, rfl⟩

/-- C25: a call `schedule_festival(actual, ActualDays, film_index)` of `exh.cc` that returns
leaves `actual` equal to its value on entry, whatever `ActualDays`, `BestDays` and the depth
reached (the pruned return included); and with `film_index <= n_films` the call does return,
within `n_films - film_index + 1` nested calls. -/
theorem schedule_festival_restores_actual (relations_graph : Graph) (n_CinRooms n_films : Nat)
    (restrictions : List Pair) :
    (∀ fuel st ActualDays film_index st1,
      schedule_festival relations_graph n_CinRooms n_films restrictions fuel st ActualDays
        film_index = some st1 → st1.actual = st.actual) ∧
    (∀ st ActualDays film_index fuel, film_index ≤ n_films → n_films - film_index < fuel →
      ∃ st1, schedule_festival relations_graph n_CinRooms n_films restrictions fuel st
        ActualDays film_index = some st1 ∧ st1.actual = st.actual) := by
  refine ⟨fun fuel st ActualDays film_index st1 h =>
    schedule_festival_restores _ _ _ _ _ _ _ _ _ h, ?_⟩
  intro st ActualDays film_index fuel hindex hfuel
  obtain ⟨st1, h⟩ := schedule_festival_returns relations_graph n_CinRooms n_films restrictions
    fuel st ActualDays film_index hindex hfuel
  exact ⟨st1, h, schedule_festival_restores _ _ _ _ _ _ _ _ _ h⟩

theorem schedule_festival_restores_actual_witness :
    ∃ st1, schedule_festival graph_AB 2 3 [(0, 1), (1, 1), (2, 0)] 3
        { actual := [[0]], BestDays := 3, written := [] } 1 1 = some st1 ∧
      st1.actual = [[0]] ∧ st1.written = [{ days := 2, best := [[0, 2], [1]] }] := by
  obtain ⟨st1, h, hact⟩ := (schedule_festival_restores_actual graph_AB 2 3
    [(0, 1), (1, 1), (2, 0)]).2 { actual := [[0]], BestDays := 3, written := [] } 1 1 3
    (by decide) (by decide)
  refine ⟨st1, h, hact, ?_⟩
  have h2 : schedule_festival graph_AB 2 3 [(0, 1), (1, 1), (2, 0)] 3
      { actual := [[0]], BestDays := 3, written := [] } 1 1
      = some { actual := [[0]], BestDays := 2,
               written := [{ days := 2, best := [[0, 2], [1]] }] } := by decide
  rw [h2] at h
  simp only [Option.some.injEq] at h
  rw [← h]

/-- C26: for every instance the search of `exh.cc` started as in `main` (empty schedule,
`ActualDays = 0`, `film_index = 0`) runs to completion, for every initial bound: a recursion
depth of `n_films + 1` calls is enough, and any larger bound on the depth gives a result
too. -/
theorem schedule_festival_terminates (relations_graph : Graph) (n_CinRooms n_films : Nat)
    (restrictions : List Pair) :
    (∃ st, run relations_graph n_CinRooms n_films restrictions = some st ∧ st.actual = []) ∧
    (∀ sort input, ∃ st, main sort input = some st) ∧
    ∀ BestDays extra, ∃ st,
      schedule_festival relations_graph n_CinRooms n_films restrictions (n_films + 1 + extra)
        { actual := [], BestDays := BestDays, written := [] } 0 0 = some st ∧
      st.actual = [] := by
  refine ⟨?_, ?_, ?_⟩
  · obtain ⟨st, h⟩ := schedule_festival_returns relations_graph n_CinRooms n_films
      restrictions (n_films + 1) { actual := [], BestDays := n_films, written := [] } 0 0
      (by omega) (by omega)
    exact ⟨st, h, schedule_festival_restores _ _ _ _ _ _ _ _ _ h⟩
  · intro sort input
    exact schedule_festival_returns _ _ _ _ _ _ 0 0 (by omega) (by omega)
  · intro BestDays extra
    obtain ⟨st, h⟩ := schedule_festival_returns relations_graph n_CinRooms n_films
      restrictions (n_films + 1 + extra)
      { actual := [], BestDays := BestDays, written := [] } 0 0 (by omega) (by omega)
    exact ⟨st, h, schedule_festival_restores _ _ _ _ _ _ _ _ _ h⟩

end Exh

/-! ## exh.cc: what the search writes -/

namespace Exh

theorem written_not_single (relations_graph : Graph) (n_CinRooms n_films : Nat) (w : Written)
    (hdays : w.days = w.best.length) (hless : w.days < n_films)
    (hok : node_ok relations_graph n_CinRooms (List.range n_films) [] w.best) :
    ¬ ∀ day ∈ w.best, day.length ≤ 1 := by
  intro hone
  have h1 := length_flatten_le w.best hone
  have h2 := hok.2.2.length_eq
  simp only [List.append_nil, List.length_range] at h2
  omega

/-- C27: the run of `exh.cc` as in `main` (`BestDays = n_films`) never writes a schedule of
`n_films` or more days; when every valid schedule needs `n_films` days (the relation being
symmetric), and in particular with one room or with all films pairwise incompatible, the
search finishes without any call of `write`. -/
theorem run_never_writes_n_films_days (relations_graph : Graph) (n_CinRooms n_films : Nat)
    (restrictions : List Pair)
    (hperm : (restrictions.map Prod.fst).Perm (List.range n_films)) :
    ∃ st, run relations_graph n_CinRooms n_films restrictions = some st ∧
      (∀ w ∈ st.written, w.days < n_films ∧ w.best.length = w.days) ∧
      (symmetric relations_graph →
        (∀ target, valid_schedule relations_graph n_CinRooms n_films target →
          n_films ≤ target.length) →
        st.written = []) ∧
      (n_CinRooms = 1 → st.written = []) ∧
      ((∀ a b, a < n_films → b < n_films → a ≠ b → incompatible relations_graph a b = true) →
        st.written = []) := by
  obtain ⟨st, hrun, hprod⟩ := run_produces relations_graph n_CinRooms n_films restrictions hperm
  refine ⟨st, hrun, ?_, ?_, ?_, ?_⟩
  · intro w hw
    obtain ⟨h1, h2, _, _⟩ := hprod.2.1 w hw
    exact ⟨h2, h1.symm⟩
  · intro hsym hneed
    rw [List.eq_nil_iff_forall_not_mem]
    intro w hw
    obtain ⟨h1, h2, _, hok⟩ := hprod.2.1 w hw
    have hvalid : valid_schedule relations_graph n_CinRooms n_films w.best := by
      refine ⟨by simpa using hok.2.2, ?_, ?_⟩
      · exact node_ok_capacity relations_graph n_CinRooms n_films w.best hok
          (by rw [← h1]; exact h2)
      · intro day hday
        exact pairwise_distinct_of_symmetric relations_graph hsym day (hok.2.1 day hday)
    have := hneed w.best hvalid
    omega
  · intro hone
    rw [List.eq_nil_iff_forall_not_mem]
    intro w hw
    obtain ⟨h1, h2, _, hok⟩ := hprod.2.1 w hw
    apply written_not_single relations_graph n_CinRooms n_films w h1 h2 hok
    intro day hday
    have := (hok.1 day hday).2
    rw [hone] at this
    simpa using this
  · intro hall
    rw [List.eq_nil_iff_forall_not_mem]
    intro w hw
    obtain ⟨h1, h2, _, hok⟩ := hprod.2.1 w hw
    apply written_not_single relations_graph n_CinRooms n_films w h1 h2 hok
    intro day hday
    by_contra hlen
    have hnd : w.best.flatten.Nodup := by
      have hp : w.best.flatten.Perm (List.range n_films) := by simpa using hok.2.2
      exact hp.nodup_iff.2 (List.nodup_range n_films)
    have hmem : ∀ x ∈ day, x < n_films := by
      intro x hx
      have hp : w.best.flatten.Perm (List.range n_films) := by simpa using hok.2.2
      have : x ∈ List.range n_films := hp.mem_iff.1 (List.mem_flatten.2 ⟨day, hday, hx⟩)
      simpa using this
    have hdaynd : day.Nodup := (List.nodup_flatten.1 hnd).1 day hday
    have hpw := hok.2.1 day hday
    match day, hlen, hmem, hdaynd, hpw with
    | [], h, _, _, _ => simp at h
    | [_], h, _, _, _ => simp at h
    | a :: b :: rest, _, hm, hn, hp =>
      have hab : a ≠ b := by
        intro e
        rw [e] at hn
        simp at hn
      have h3 := hall a b (hm a (by simp)) (hm b (by simp)) hab
      have h4 := (List.pairwise_cons.1 hp).1 b (by simp)
      rw [h3] at h4
      exact Bool.noConfusion h4

theorem run_never_writes_n_films_days_witness :
    ∃ st, run graph_AB 1 3 [(0, 1), (1, 1), (2, 0)] = some st ∧
      (∀ w ∈ st.written, w.days < 3 ∧ w.best.length = w.days) ∧ st.written = [] := by
  obtain ⟨st, hrun, h1, _, h3, _⟩ := run_never_writes_n_films_days graph_AB 1 3
    [(0, 1), (1, 1), (2, 0)] (by decide)
  exact ⟨st, hrun, h1, h3 rfl⟩

end Exh

namespace Greedy

theorem length_place_film (relations_graph : Graph) (n_CinRooms : Nat) (actual : Organization)
    (code : Nat) : actual.length ≤ (place_film relations_graph n_CinRooms actual code).length := by
  rcases place_film_spec relations_graph n_CinRooms actual code with
    ⟨d, _, _, _, h⟩ | ⟨_, h⟩
  · rw [h, length_push_back_at]
  · rw [h]
    simp

theorem length_foldl_place_film (relations_graph : Graph) (n_CinRooms : Nat)
    (todo : List Nat) (actual : Organization) :
    actual.length ≤ (todo.foldl
      (fun acc code => place_film relations_graph n_CinRooms acc code) actual).length := by
  induction todo generalizing actual with
  | nil => exact Nat.le_refl _
  | cons code todo ih =>
    exact Nat.le_trans (length_place_film relations_graph n_CinRooms actual code) (ih _)

end Greedy

namespace Exh

theorem qualifies_iff_greedy (relations_graph : Graph) (hsym : symmetric relations_graph)
    (n_CinRooms : Nat) (actual : Organization) (code day : Nat) :
    qualifies relations_graph n_CinRooms actual code day ↔
      Greedy.qualifies relations_graph n_CinRooms actual code day := by
  unfold qualifies Greedy.qualifies
  constructor
  · rintro ⟨h1, h2⟩
    exact ⟨h1, fun film hf => by rw [hsym]; exact h2 film hf⟩
  · rintro ⟨h1, h2⟩
    exact ⟨h1, fun film hf => by rw [hsym]; exact h2 film hf⟩

theorem search_days_none (below : Organization → Nat → Nat × List Written)
    (relations_graph : Graph) (n_CinRooms code : Nat) (actual : Organization)
    (steps i best : Nat)
    (hnone : ∀ d, i ≤ d → d < i + steps → ¬ qualifies relations_graph n_CinRooms actual code d) :
    search_days below relations_graph n_CinRooms code actual steps i best = (best, []) := by
  induction steps generalizing i with
  | zero => rfl
  | succ steps ih =>
    unfold search_days
    rw [if_neg (hnone i (Nat.le_refl _) (by omega))]
    exact ih (i + 1) (fun d h1 h2 => hnone d (by omega) (by omega))

theorem search_days_first (below : Organization → Nat → Nat × List Written)
    (relations_graph : Graph) (n_CinRooms code : Nat) (actual : Organization)
    (steps i best d : Nat) (hi : i ≤ d) (hd : d < i + steps)
    (hq : qualifies relations_graph n_CinRooms actual code d)
    (hnone : ∀ d', i ≤ d' → d' < d → ¬ qualifies relations_graph n_CinRooms actual code d') :
    ∃ tail, (search_days below relations_graph n_CinRooms code actual steps i best).2
      = (below (push_back_at actual d code) best).2 ++ tail := by
  induction steps generalizing i with
  | zero => omega
  | succ steps ih =>
    unfold search_days
    by_cases hid : i = d
    · subst hid
      rw [if_pos hq]
      exact ⟨_, rfl⟩
    · rw [if_neg (hnone i (Nat.le_refl _) (by omega))]
      exact ih (i + 1) (by omega) (by omega) (fun d' h1 h2 => hnone d' (by omega) h2)

/-- The first schedule written by the search from a node is the completion of the node by
the first-fit rule, when that completion has fewer days than the bound. -/
theorem search_first_greedy (relations_graph : Graph) (hsym : symmetric relations_graph)
    (n_CinRooms : Nat) (todo : List Nat) (actual : Organization) (best : Nat)
    (hless : (todo.foldl
      (fun acc code => Greedy.place_film relations_graph n_CinRooms acc code) actual).length
        < best) :
    ∃ tail, (search relations_graph n_CinRooms todo actual best).2
      = { days := (todo.foldl
            (fun acc code => Greedy.place_film relations_graph n_CinRooms acc code)
            actual).length
          best := todo.foldl
            (fun acc code => Greedy.place_film relations_graph n_CinRooms acc code) actual }
        :: tail := by
  induction todo generalizing actual best with
  | nil =>
    simp only [List.foldl_nil] at hless ⊢
    unfold search
    rw [if_pos hless]
    exact ⟨[], rfl⟩
  | cons code todo ih =>
    have hlen : actual.length < best :=
      Nat.lt_of_le_of_lt
        (Greedy.length_foldl_place_film relations_graph n_CinRooms (code :: todo) actual) hless
    simp only [List.foldl_cons] at hless ⊢
    unfold search
    rw [if_pos hlen]
    dsimp only
    rcases Greedy.place_film_spec relations_graph n_CinRooms actual code with
      ⟨d, hd, hq, hnone, hplace⟩ | ⟨hnone, hplace⟩
    · rw [hplace] at hless ⊢
      obtain ⟨tail1, h1⟩ := search_days_first (search relations_graph n_CinRooms todo)
        relations_graph n_CinRooms code actual actual.length 0 best d (Nat.zero_le _)
        (by omega) ((qualifies_iff_greedy relations_graph hsym _ _ _ _).2 hq)
        (fun d' _ h2 hq' =>
          hnone d' h2 ((qualifies_iff_greedy relations_graph hsym _ _ _ _).1 hq'))
      obtain ⟨tail2, h2⟩ := ih (push_back_at actual d code) best hless
      rw [h1, h2]
      exact ⟨_, rfl⟩
    · rw [hplace] at hless ⊢
      rw [search_days_none (search relations_graph n_CinRooms todo) relations_graph
        n_CinRooms code actual actual.length 0 best
        (fun d' _ h2 hq' =>
          hnone d' (by omega) ((qualifies_iff_greedy relations_graph hsym _ _ _ _).1 hq'))]
      obtain ⟨tail2, h2⟩ := ih (actual ++ [[code]]) best hless
      rw [h2]
      exact ⟨_, rfl⟩

/-- C28: for a symmetric relation and the same order `restrictions`, if the schedule built
by `schedule_festival` of `greedy.cc` has fewer than `n_films` days, the first call of
`write` made by the run of `exh.cc` is for exactly that schedule, with its number of days. -/
theorem first_written_is_greedy (relations_graph : Graph) (hsym : symmetric relations_graph)
    (n_CinRooms : Nat) (restrictions : List Pair)
    (hless : (Greedy.schedule_festival relations_graph n_CinRooms restrictions []).length
      < restrictions.length) :
    ∃ st tail, run relations_graph n_CinRooms restrictions.length restrictions = some st ∧
      st.written
        = { days := (Greedy.schedule_festival relations_graph n_CinRooms restrictions []).length
            best := Greedy.schedule_festival relations_graph n_CinRooms restrictions [] }
          :: tail := by
  have hfold : Greedy.schedule_festival relations_graph n_CinRooms restrictions []
      = (restrictions.map Prod.fst).foldl
          (fun acc code => Greedy.place_film relations_graph n_CinRooms acc code) [] := by
    rw [Greedy.schedule_festival, List.foldl_map]
  rw [hfold] at hless ⊢
  obtain ⟨tail, h⟩ := search_first_greedy relations_graph hsym n_CinRooms
    (restrictions.map Prod.fst) [] restrictions.length hless
  exact ⟨_, tail, run_eq_search relations_graph n_CinRooms restrictions, h⟩

theorem first_written_is_greedy_witness :
    symmetric graph_AB ∧
      Greedy.schedule_festival graph_AB 2 [(0, 1), (1, 1), (2, 0)] [] = [[0, 2], [1]] ∧
      ∃ st tail, run graph_AB 2 3 [(0, 1), (1, 1), (2, 0)] = some st ∧
        st.written = { days := 2, best := [[0, 2], [1]] } :: tail :=
  ⟨symmetric_graph_AB, by decide,
    first_written_is_greedy graph_AB symmetric_graph_AB 2 [(0, 1), (1, 1), (2, 0)]
      (by decide)⟩

end Exh

/-! ## mh.cc: the start schedule and the rejected swaps -/

namespace Mh

/-- The schedule returned by `generate_initial_solution` is the first-fit schedule of the
films in the order that the library call `shuffle` gives to `0 .. n_films-1`, and an
iteration of `GRASP` starts from that schedule whatever the state of the run. -/
theorem generate_initial_solution_first_fit (lib : Library) (relations_graph : Graph)
    (n_CinRooms n_films : Nat) :
    generate_initial_solution lib relations_graph n_CinRooms n_films
      = Greedy.schedule_festival relations_graph n_CinRooms
          ((lib.shuffle (List.range n_films)).map (fun code => (code, 0))) [] ∧
    (∀ st,
      (GRASP lib relations_graph n_CinRooms n_films 1 st).state.actual
        = generate_initial_solution lib relations_graph n_CinRooms n_films) := by
  refine ⟨?_, ?_⟩
  · unfold generate_initial_solution Greedy.schedule_festival
    rw [List.foldl_map]
    congr 1
    funext acc code
    exact place_film_eq_greedy relations_graph n_CinRooms acc code
  · intro st
    unfold GRASP
    dsimp only [repair_loop, Res.state]
    split_ifs <;> rfl

/-- C23: a swap proposed by `solve_incompatibilities` that is not accepted leaves the
schedule, `day_incomp`, `incompatibilities`, `best_days` and the calls of `write` as they
were before the proposal; only the two calls of `rand()` are consumed (and `T` decays). -/
theorem rejected_swap_restores (lib : Library) (relations_graph : Graph)
    (day_to_solve film_index old_incompatibilities1 random_day k : Nat) (st : State)
    (hne : random_day ≠ day_to_solve)
    (hfi : film_index < (day_row st.actual day_to_solve).length)
    (hrej : rejected lib relations_graph day_to_solve film_index old_incompatibilities1
      random_day k st) :
    propose lib relations_graph day_to_solve film_index old_incompatibilities1 random_day k st
      = { st with draws := st.draws + 2 } := by
  obtain ⟨h1, h2⟩ := hrej
  unfold swap_films at h1 h2
  unfold propose
  dsimp only at h1 h2 ⊢
  rw [if_neg h1]
  push_cast at h2 ⊢
  rw [if_neg (by rw [h2]; exact Bool.false_ne_true)]
  rw [swap_undo st.actual day_to_solve film_index random_day _ hne hfi]

theorem rejected_swap_restores_witness :
    rejected library_example graph_six 0 1 1 1 0 state_swap ∧
      propose library_example graph_six 0 1 1 1 0 state_swap
        = { actual := [[2, 3], [5, 0]], day_incomp := [1, 0], incompatibilities := 1,
            best_days := 2, written := [], draws := 2 } :=
  ⟨by decide,
    rejected_swap_restores library_example graph_six 0 1 1 1 0 state_swap (by decide)
      (by decide) (by decide)⟩

end Mh

/-! ## mh.cc: the day chosen by a reinsertion step -/

namespace Mh

/-- What the loop over the days of `improve` has found after the days before `i`: the
running minimum is at most the count of every free day seen; when a day was found it is a
free day seen that attains the minimum, every free day before it has a greater count, and
when none was found the minimum is still `1e6`. -/
theorem spaces_loop_min (relations_graph : Graph) (n_CinRooms : Nat) (actual : Organization)
    (film : Nat) (steps i : Nat) (acc : Nat × Nat × Bool)
    (hle : ∀ j, j < i → (day_row actual j).length < n_CinRooms →
      acc.1 ≤ how_many_incompatibilities relations_graph actual j film)
    (hfound : acc.2.2 = true →
      acc.2.1 < i ∧ (day_row actual acc.2.1).length < n_CinRooms ∧
        how_many_incompatibilities relations_graph actual acc.2.1 film = acc.1 ∧
        ∀ j, j < acc.2.1 → (day_row actual j).length < n_CinRooms →
          acc.1 < how_many_incompatibilities relations_graph actual j film)
    (hnot : acc.2.2 = false → acc.1 = 1000000) :
    (∀ j, j < i + steps → (day_row actual j).length < n_CinRooms →
      (spaces_loop relations_graph n_CinRooms actual film steps i acc).1
        ≤ how_many_incompatibilities relations_graph actual j film) ∧
    ((spaces_loop relations_graph n_CinRooms actual film steps i acc).2.2 = true →
      (spaces_loop relations_graph n_CinRooms actual film steps i acc).2.1 < i + steps ∧
        (day_row actual
          (spaces_loop relations_graph n_CinRooms actual film steps i acc).2.1).length
            < n_CinRooms ∧
        how_many_incompatibilities relations_graph actual
            (spaces_loop relations_graph n_CinRooms actual film steps i acc).2.1 film
          = (spaces_loop relations_graph n_CinRooms actual film steps i acc).1 ∧
        ∀ j, j < (spaces_loop relations_graph n_CinRooms actual film steps i acc).2.1 →
          (day_row actual j).length < n_CinRooms →
          (spaces_loop relations_graph n_CinRooms actual film steps i acc).1
            < how_many_incompatibilities relations_graph actual j film) ∧
    ((spaces_loop relations_graph n_CinRooms actual film steps i acc).2.2 = false →
      (spaces_loop relations_graph n_CinRooms actual film steps i acc).1 = 1000000) := by
  induction steps generalizing i acc with
  | zero => exact ⟨hle, hfound, hnot⟩
  | succ steps ih =>
    unfold spaces_loop
    have hi : i + (steps + 1) = (i + 1) + steps := by omega
    rw [hi]
    split_ifs with h1 h2
    · apply ih
      · intro j hj hfree
        dsimp only
        by_cases hji : j = i
        · rw [hji]
        · have := hle j (by omega) hfree
          omega
      · intro _
        dsimp only
        refine ⟨by omega, h1, rfl, ?_⟩
        intro j hj hfree
        have := hle j hj hfree
        omega
      · intro h
        simp at h
    · apply ih
      · intro j hj hfree
        by_cases hji : j = i
        · rw [hji]
          omega
        · exact hle j (by omega) hfree
      · intro h
        obtain ⟨a, b, c, d⟩ := hfound h
        exact ⟨by omega, b, c, d⟩
      · exact hnot
    · apply ih
      · intro j hj hfree
        by_cases hji : j = i
        · rw [hji] at hfree
          exact absurd hfree h1
        · exact hle j (by omega) hfree
      · intro h
        obtain ⟨a, b, c, d⟩ := hfound h
        exact ⟨by omega, b, c, d⟩
      · exact hnot

/-- C22: one iteration of the loop of `improve` on a non-empty last day, for the film at its
end. When some earlier day with fewer than `n_CinRooms` films has fewer than `1e6` films
incompatible with it, the film is moved to the earlier free day `target` whose count
(`how_many_incompatibilities`) is minimal among the free days, the lowest such day, and
`day_incomp[target]` and `incompatibilities` grow by exactly that count. -/
theorem improve_moves_to_min (relations_graph : Graph) (n_CinRooms day_to_remove : Nat)
    (st : State) (hlast : 0 < (day_row st.actual day_to_remove).length)
    (hfree : ∃ j, j < day_to_remove ∧ (day_row st.actual j).length < n_CinRooms ∧
      how_many_incompatibilities relations_graph st.actual j
        ((day_row st.actual day_to_remove).getD
          ((day_row st.actual day_to_remove).length - 1) 0) < 1000000) :
    ∃ target, target < day_to_remove ∧ (day_row st.actual target).length < n_CinRooms ∧
      (∀ j, j < day_to_remove → (day_row st.actual j).length < n_CinRooms →
        how_many_incompatibilities relations_graph st.actual target
            ((day_row st.actual day_to_remove).getD
              ((day_row st.actual day_to_remove).length - 1) 0)
          ≤ how_many_incompatibilities relations_graph st.actual j
            ((day_row st.actual day_to_remove).getD
              ((day_row st.actual day_to_remove).length - 1) 0)) ∧
      (∀ j, j < target → (day_row st.actual j).length < n_CinRooms →
        how_many_incompatibilities relations_graph st.actual target
            ((day_row st.actual day_to_remove).getD
              ((day_row st.actual day_to_remove).length - 1) 0)
          < how_many_incompatibilities relations_graph st.actual j
            ((day_row st.actual day_to_remove).getD
              ((day_row st.actual day_to_remove).length - 1) 0)) ∧
      improve_loop relations_graph n_CinRooms day_to_remove 1 st
        = .timeout
          { st with
            day_incomp := add_at st.day_incomp target
              (how_many_incompatibilities relations_graph st.actual target
                ((day_row st.actual day_to_remove).getD
                  ((day_row st.actual day_to_remove).length - 1) 0))
            incompatibilities := st.incompatibilities
              + how_many_incompatibilities relations_graph st.actual target
                ((day_row st.actual day_to_remove).getD
                  ((day_row st.actual day_to_remove).length - 1) 0)
            actual := push_back_at (pop_back_at st.actual day_to_remove) target
              ((day_row st.actual day_to_remove).getD
                ((day_row st.actual day_to_remove).length - 1) 0) } := by
  have hstep : improve_loop relations_graph n_CinRooms day_to_remove 1 st
      = if (spaces_loop relations_graph n_CinRooms st.actual
            ((day_row st.actual day_to_remove).getD
              ((day_row st.actual day_to_remove).length - 1) 0)
            day_to_remove 0 (1000000, 0, false)).2.2 then
          .timeout
            { st with
              day_incomp := add_at st.day_incomp
                (spaces_loop relations_graph n_CinRooms st.actual
                  ((day_row st.actual day_to_remove).getD
                    ((day_row st.actual day_to_remove).length - 1) 0)
                  day_to_remove 0 (1000000, 0, false)).2.1
                (spaces_loop relations_graph n_CinRooms st.actual
                  ((day_row st.actual day_to_remove).getD
                    ((day_row st.actual day_to_remove).length - 1) 0)
                  day_to_remove 0 (1000000, 0, false)).1
              incompatibilities := st.incompatibilities
                + (spaces_loop relations_graph n_CinRooms st.actual
                  ((day_row st.actual day_to_remove).getD
                    ((day_row st.actual day_to_remove).length - 1) 0)
                  day_to_remove 0 (1000000, 0, false)).1
              actual := push_back_at (pop_back_at st.actual day_to_remove)
                (spaces_loop relations_graph n_CinRooms st.actual
                  ((day_row st.actual day_to_remove).getD
                    ((day_row st.actual day_to_remove).length - 1) 0)
                  day_to_remove 0 (1000000, 0, false)).2.1
                ((day_row st.actual day_to_remove).getD
                  ((day_row st.actual day_to_remove).length - 1) 0) }
        else if st.actual.length < st.best_days then
          .timeout (write { st with best_days := st.actual.length })
        else .timeout st := by
    unfold improve_loop
    rw [if_pos hlast]
    dsimp only
    split_ifs <;> rfl
  have hspec := spaces_loop_min relations_graph n_CinRooms st.actual
    ((day_row st.actual day_to_remove).getD ((day_row st.actual day_to_remove).length - 1) 0)
    day_to_remove 0 (1000000, 0, false) (by intro j hj; omega) (by simp) (by simp)
  simp only [Nat.zero_add] at hspec
  generalize (day_row st.actual day_to_remove).getD
    ((day_row st.actual day_to_remove).length - 1) 0 = film at hspec hfree hstep ⊢
  generalize spaces_loop relations_graph n_CinRooms st.actual film day_to_remove 0
    (1000000, 0, false) = found at hspec hstep
  obtain ⟨j, hj, hjfree, hjlt⟩ := hfree
  have hflag : found.2.2 = true := by
    cases hf : found.2.2 with
    | true => rfl
    | false =>
      have h1 := hspec.2.2 hf
      have h2 := hspec.1 j hj hjfree
      omega
  obtain ⟨h1, h2, h3, h4⟩ := hspec.2.1 hflag
  rw [if_pos hflag] at hstep
  refine ⟨found.2.1, h1, h2, ?_, ?_, ?_⟩
  · intro i hi hifree
    rw [h3]
    exact hspec.1 i hi hifree
  · intro i hi hifree
    rw [h3]
    exact h4 i hi hifree
  · rw [h3]
    exact hstep

theorem improve_moves_to_min_witness :
    improve_loop graph_six 3 2 1 state_tie
      = .timeout
        { actual := [[2, 0, 3], [4, 1], [5]], day_incomp := [1, 0, 0], incompatibilities := 1,
          best_days := 3, written := [], draws := 0 } := by
  obtain ⟨target, h1, h2, h3, h4, h5⟩ := improve_moves_to_min graph_six 3 2 state_tie
    (by decide) ⟨0, by decide, by decide, by decide⟩
  have ht : target = 0 := by
    by_contra hne
    have h6 := h4 0 (by omega) (by decide)
    have h7 : target = 1 := by omega
    rw [h7] at h6
    revert h6
    decide
  rw [ht] at h5
  exact h5

end Mh

/-! ## mh.cc: completeness and capacity through the local search -/

namespace Mh

theorem within_capacity_iff (n_CinRooms : Nat) (actual : Organization) :
    within_capacity n_CinRooms actual ↔ ∀ i, (day_row actual i).length ≤ n_CinRooms := by
  constructor
  · intro h i
    by_cases hi : i < actual.length
    · exact h _ (day_row_mem actual i hi)
    · rw [day_row_of_length_le actual i (by omega)]
      exact Nat.zero_le _
  · intro h day hday
    obtain ⟨i, hi, rfl⟩ := List.getElem_of_mem hday
    have := h i
    rw [day_row, List.getD_eq_getElem _ _ hi] at this
    exact this

theorem list_set_perm (l : List Nat) (i v : Nat) (hi : i < l.length) :
    (v :: l).Perm (l.getD i 0 :: l.set i v) := by
  induction l generalizing i with
  | nil => simp at hi
  | cons a l ih =>
    cases i with
    | zero => simpa using List.Perm.swap a v l
    | succ i =>
      have h := ih i (by simpa using hi)
      simp only [List.getD_cons_succ, List.set_cons_succ]
      exact (List.Perm.swap a v l).trans ((h.cons a).trans (List.Perm.swap _ a _))

theorem flatten_set_film (actual : Organization) (day room film : Nat)
    (hday : day < actual.length) (hroom : room < (day_row actual day).length) :
    (film :: actual.flatten).Perm
      ((day_row actual day).getD room 0 :: (set_film actual day room film).flatten) := by
  induction actual generalizing day with
  | nil => simp at hday
  | cons row rest ih =>
    cases day with
    | zero =>
      simp only [set_film, day_row, List.getD_cons_zero, List.set_cons_zero,
        List.flatten_cons] at hroom ⊢
      have h := list_set_perm row room film hroom
      exact (h.append_right rest.flatten)
    | succ day =>
      have hrow : day_row (row :: rest) (day + 1) = day_row rest day := rfl
      rw [hrow] at hroom ⊢
      have h := ih day (by simpa using hday) hroom
      have hset : set_film (row :: rest) (day + 1) room film
          = row :: set_film rest day room film := by
        simp only [set_film, hrow, List.set_cons_succ]
      rw [hset]
      simp only [List.flatten_cons]
      have h1 : (film :: (row ++ rest.flatten)).Perm (row ++ film :: rest.flatten) :=
        List.perm_middle.symm
      have h2 : (row ++ film :: rest.flatten).Perm
          (row ++ (day_row rest day).getD room 0 :: (set_film rest day room film).flatten) :=
        h.append_left row
      exact h1.trans (h2.trans List.perm_middle)

theorem flatten_swap_films (actual : Organization)
    (day_to_solve film_index random_day random_film : Nat)
    (hds : day_to_solve < actual.length) (hrd : random_day < actual.length)
    (hne : random_day ≠ day_to_solve)
    (hfi : film_index < (day_row actual day_to_solve).length)
    (hrf : random_film < (day_row actual random_day).length) :
    (swap_films actual day_to_solve film_index random_day random_film).flatten.Perm
      actual.flatten := by
  have h1 := flatten_set_film actual day_to_solve film_index
    ((day_row actual random_day).getD random_film 0) hds hfi
  have hrow : day_row (set_film actual day_to_solve film_index
      ((day_row actual random_day).getD random_film 0)) random_day
        = day_row actual random_day := by
    rw [day_row_set_film, if_neg hne]
  have h2 := flatten_set_film (set_film actual day_to_solve film_index
      ((day_row actual random_day).getD random_film 0)) random_day random_film
    ((day_row actual day_to_solve).getD film_index 0)
    (by rw [length_set_film]; exact hrd) (by rw [hrow]; exact hrf)
  rw [hrow] at h2
  exact (h1.trans h2).cons_inv.symm

theorem day_row_swap_films_length (actual : Organization)
    (day_to_solve film_index random_day random_film : Nat) (hne : random_day ≠ day_to_solve)
    (i : Nat) :
    (day_row (swap_films actual day_to_solve film_index random_day random_film) i).length
      = (day_row actual i).length := by
  unfold swap_films
  rw [swap_rows actual day_to_solve film_index random_day random_film hne i]
  split_ifs with h1 h2
  · rw [List.length_set, h1]
  · rw [List.length_set, h2]
  · rfl

theorem propose_actual (lib : Library) (relations_graph : Graph)
    (day_to_solve film_index old_incompatibilities1 random_day k : Nat) (st : State)
    (hne : random_day ≠ day_to_solve)
    (hfi : film_index < (day_row st.actual day_to_solve).length) :
    (propose lib relations_graph day_to_solve film_index old_incompatibilities1 random_day k
        st).actual
      = swap_films st.actual day_to_solve film_index random_day
          (lib.rand st.draws % (day_row st.actual random_day).length) ∨
    (propose lib relations_graph day_to_solve film_index old_incompatibilities1 random_day k
        st).actual = st.actual := by
  unfold propose
  dsimp only
  split_ifs
  · exact Or.inl rfl
  · exact Or.inl rfl
  · right
    exact swap_undo st.actual day_to_solve film_index random_day _ hne hfi

theorem propose_complete (lib : Library) (relations_graph : Graph) (n_films n_CinRooms : Nat)
    (day_to_solve film_index old_incompatibilities1 random_day k : Nat) (st : State)
    (hcomp : complete n_films st.actual) (hcap : within_capacity n_CinRooms st.actual)
    (hds : day_to_solve < st.actual.length) (hrd : random_day < st.actual.length)
    (hne : random_day ≠ day_to_solve)
    (hfi : film_index < (day_row st.actual day_to_solve).length)
    (hpos : 0 < (day_row st.actual random_day).length) :
    complete n_films (propose lib relations_graph day_to_solve film_index
        old_incompatibilities1 random_day k st).actual ∧
      within_capacity n_CinRooms (propose lib relations_graph day_to_solve film_index
        old_incompatibilities1 random_day k st).actual := by
  rcases propose_actual lib relations_graph day_to_solve film_index old_incompatibilities1
    random_day k st hne hfi with h | h
  · rw [h]
    refine ⟨(flatten_swap_films st.actual day_to_solve film_index random_day _ hds hrd hne hfi
      (Nat.mod_lt _ hpos)).trans hcomp, ?_⟩
    rw [within_capacity_iff] at hcap ⊢
    intro i
    rw [day_row_swap_films_length _ _ _ _ _ hne]
    exact hcap i
  · rw [h]
    exact ⟨hcomp, hcap⟩

theorem dropLast_append_last (row : List Nat) (h : 0 < row.length) :
    row.dropLast ++ [row.getD (row.length - 1) 0] = row := by
  have hne : row ≠ [] := by
    intro e
    rw [e] at h
    simp at h
  have h1 := List.dropLast_append_getLast hne
  have h2 : row.getLast hne = row.getD (row.length - 1) 0 := by
    rw [List.getLast_eq_getElem, List.getD_eq_getElem _ _ (by omega)]
  rw [← h2]
  exact h1

theorem push_back_at_pop_back_at (actual : Organization) (day : Nat)
    (hday : day < actual.length) (hrow : 0 < (day_row actual day).length) :
    push_back_at (pop_back_at actual day) day
      ((day_row actual day).getD ((day_row actual day).length - 1) 0) = actual := by
  apply organization_ext
  · rw [length_push_back_at, length_pop_back_at]
  · intro i _
    rw [day_row_push_back_at, length_pop_back_at, day_row_pop_back_at, day_row_pop_back_at]
    by_cases hi : i = day
    · rw [if_pos ⟨hi, hday⟩, if_pos rfl, hi]
      exact dropLast_append_last _ hrow
    · rw [if_neg (fun h => hi h.1), if_neg hi]

theorem reinsert_complete (n_films n_CinRooms : Nat) (actual : Organization)
    (day_to_remove target : Nat) (hcomp : complete n_films actual)
    (hcap : within_capacity n_CinRooms actual) (htarget : target < day_to_remove)
    (hfree : (day_row actual target).length < n_CinRooms)
    (hlast : 0 < (day_row actual day_to_remove).length) :
    complete n_films (push_back_at (pop_back_at actual day_to_remove) target
        ((day_row actual day_to_remove).getD ((day_row actual day_to_remove).length - 1) 0)) ∧
      within_capacity n_CinRooms (push_back_at (pop_back_at actual day_to_remove) target
        ((day_row actual day_to_remove).getD ((day_row actual day_to_remove).length - 1) 0)) := by
  have hday : day_to_remove < actual.length := by
    by_contra h
    rw [day_row_of_length_le actual day_to_remove (by omega)] at hlast
    simp at hlast
  constructor
  · have h1 := flatten_push_back_at (pop_back_at actual day_to_remove) target
      ((day_row actual day_to_remove).getD ((day_row actual day_to_remove).length - 1) 0)
      (by rw [length_pop_back_at]; omega)
    have h2 := flatten_push_back_at (pop_back_at actual day_to_remove) day_to_remove
      ((day_row actual day_to_remove).getD ((day_row actual day_to_remove).length - 1) 0)
      (by rw [length_pop_back_at]; exact hday)
    rw [push_back_at_pop_back_at actual day_to_remove hday hlast] at h2
    exact (h1.trans h2.symm).trans hcomp
  · rw [within_capacity_iff] at hcap ⊢
    intro i
    rw [day_row_push_back_at, length_pop_back_at, day_row_pop_back_at, day_row_pop_back_at]
    have hne : ¬ target = day_to_remove := by omega
    by_cases hi : i = target
    · rw [if_pos ⟨hi, by omega⟩, if_neg hne, List.length_append]
      simp only [List.length_singleton]
      omega
    · rw [if_neg (fun h => hi h.1)]
      by_cases hid : i = day_to_remove
      · rw [if_pos hid, List.length_dropLast]
        have := hcap day_to_remove
        omega
      · rw [if_neg hid]
        exact hcap i

theorem improve_loop_complete (relations_graph : Graph) (n_films n_CinRooms : Nat)
    (day_to_remove fuel : Nat) (st : State) (hcomp : complete n_films st.actual)
    (hcap : within_capacity n_CinRooms st.actual) :
    complete n_films
        (improve_loop relations_graph n_CinRooms day_to_remove fuel st).state.actual ∧
      within_capacity n_CinRooms
        (improve_loop relations_graph n_CinRooms day_to_remove fuel st).state.actual ∧
      (improve_loop relations_graph n_CinRooms day_to_remove fuel st).state.actual.length
        = st.actual.length := by
  induction fuel generalizing st with
  | zero => exact ⟨hcomp, hcap, rfl⟩
  | succ fuel ih =>
    unfold improve_loop
    dsimp only
    have hspec := spaces_loop_min relations_graph n_CinRooms st.actual
      ((day_row st.actual day_to_remove).getD ((day_row st.actual day_to_remove).length - 1) 0)
      day_to_remove 0 (1000000, 0, false) (by intro j hj; omega) (by simp) (by simp)
    simp only [Nat.zero_add] at hspec
    split_ifs with h1 h2 h3
    · obtain ⟨a, b, _, _⟩ := hspec.2.1 h2
      have hstep := reinsert_complete n_films n_CinRooms st.actual day_to_remove _ hcomp hcap
        a b h1
      have h := ih
        { st with
          day_incomp := add_at st.day_incomp (spaces_loop relations_graph n_CinRooms st.actual
          ((day_row st.actual day_to_remove).getD
            ((day_row st.actual day_to_remove).length - 1) 0)
          day_to_remove 0 (1000000, 0, false)).2.1 (spaces_loop relations_graph n_CinRooms st.actual
          ((day_row st.actual day_to_remove).getD
            ((day_row st.actual day_to_remove).length - 1) 0)
          day_to_remove 0 (1000000, 0, false)).1
          incompatibilities := st.incompatibilities + (spaces_loop relations_graph n_CinRooms st.actual
          ((day_row st.actual day_to_remove).getD
            ((day_row st.actual day_to_remove).length - 1) 0)
          day_to_remove 0 (1000000, 0, false)).1
          actual := push_back_at (pop_back_at st.actual day_to_remove) (spaces_loop relations_graph n_CinRooms st.actual
          ((day_row st.actual day_to_remove).getD
            ((day_row st.actual day_to_remove).length - 1) 0)
          day_to_remove 0 (1000000, 0, false)).2.1
            ((day_row st.actual day_to_remove).getD
              ((day_row st.actual day_to_remove).length - 1) 0) }
        hstep.1 hstep.2
      refine ⟨h.1, h.2.1, ?_⟩
      rw [h.2.2]
      simp only [length_push_back_at, length_pop_back_at]
    · exact ih (write { st with best_days := st.actual.length }) hcomp hcap
    · exact ih st hcomp hcap
    · exact ⟨hcomp, hcap, rfl⟩

theorem improve_complete (relations_graph : Graph) (n_films n_CinRooms fuel : Nat)
    (st : State) (hcomp : complete n_films st.actual)
    (hcap : within_capacity n_CinRooms st.actual) :
    complete n_films (improve relations_graph n_CinRooms fuel st).state.actual ∧
      within_capacity n_CinRooms (improve relations_graph n_CinRooms fuel st).state.actual := by
  have h := improve_loop_complete relations_graph n_films n_CinRooms (st.actual.length - 1)
    fuel st hcomp hcap
  unfold improve
  split_ifs with h0
  · exact ⟨hcomp, hcap⟩
  · cases hr : improve_loop relations_graph n_CinRooms (st.actual.length - 1) fuel st with
    | done st1 u =>
      rw [hr] at h
      simp only [Res.state] at h
      dsimp only
      split_ifs with hempty
      · simp only [Res.state]
        have hne : st1.actual ≠ [] := by
          intro e
          rw [e] at h
          simp at h
          omega
        have hlastrow : st1.actual.getLast hne = [] := by
          have : st1.actual.getLast hne = day_row st1.actual (st.actual.length - 1) := by
            rw [List.getLast_eq_getElem, day_row, List.getD_eq_getElem _ _ (by omega)]
            congr 1
            omega
          rw [this]
          exact List.length_eq_zero.1 hempty
        have hsplit := List.dropLast_append_getLast hne
        rw [hlastrow] at hsplit
        constructor
        · unfold complete at h ⊢
          have hf : st1.actual.dropLast.flatten = st1.actual.flatten := by
            conv_rhs => rw [← hsplit]
            simp
          rw [hf]
          exact h.1
        · intro day hday
          exact h.2.1 day (List.mem_of_mem_dropLast hday)
      · exact ⟨h.1, h.2.1⟩
    | timeout st1 =>
      rw [hr] at h
      exact ⟨h.1, h.2.1⟩
    | undefined st1 =>
      rw [hr] at h
      exact ⟨h.1, h.2.1⟩

end Mh

namespace Mh

/-- C24: from a schedule in which every film index in `[0, n_films)` occurs exactly once and
no day holds more than `n_CinRooms` films, the same holds after any number of iterations of
the loop of `improve` (one iteration is one reinsertion step), after `improve` (removal of
the emptied last day included), and after every swap proposal of `solve_incompatibilities`,
accepted or undone. -/
theorem steps_keep_complete (relations_graph : Graph) (n_films n_CinRooms : Nat) (st : State)
    (hcomp : complete n_films st.actual) (hcap : within_capacity n_CinRooms st.actual) :
    (∀ day_to_remove fuel,
      complete n_films
          (improve_loop relations_graph n_CinRooms day_to_remove fuel st).state.actual ∧
        within_capacity n_CinRooms
          (improve_loop relations_graph n_CinRooms day_to_remove fuel st).state.actual) ∧
    (∀ fuel,
      complete n_films (improve relations_graph n_CinRooms fuel st).state.actual ∧
        within_capacity n_CinRooms (improve relations_graph n_CinRooms fuel st).state.actual) ∧
    (∀ (lib : Library) (day_to_solve film_index old_incompatibilities1 random_day k : Nat),
      day_to_solve < st.actual.length → random_day < st.actual.length →
      random_day ≠ day_to_solve → film_index < (day_row st.actual day_to_solve).length →
      0 < (day_row st.actual random_day).length →
      complete n_films (propose lib relations_graph day_to_solve film_index
          old_incompatibilities1 random_day k st).actual ∧
        within_capacity n_CinRooms (propose lib relations_graph day_to_solve film_index
          old_incompatibilities1 random_day k st).actual) := by
  refine ⟨?_, ?_, ?_⟩
  · intro day_to_remove fuel
    have h := improve_loop_complete relations_graph n_films n_CinRooms day_to_remove fuel st
      hcomp hcap
    exact ⟨h.1, h.2.1⟩
  · intro fuel
    exact improve_complete relations_graph n_films n_CinRooms fuel st hcomp hcap
  · intro lib day_to_solve film_index old_incompatibilities1 random_day k h1 h2 h3 h4 h5
    exact propose_complete lib relations_graph n_films n_CinRooms day_to_solve film_index
      old_incompatibilities1 random_day k st hcomp hcap h1 h2 h3 h4 h5

theorem steps_keep_complete_witness :
    complete 6 state_tie.actual ∧ within_capacity 3 state_tie.actual ∧
      (improve_loop graph_six 3 2 1 state_tie).state.actual = [[2, 0, 3], [4, 1], [5]] ∧
      complete 6 (improve_loop graph_six 3 2 1 state_tie).state.actual ∧
      within_capacity 3 (improve_loop graph_six 3 2 1 state_tie).state.actual ∧
      complete 6 (improve graph_six 3 4 state_tie).state.actual ∧
      complete 6 (propose library_example graph_six 0 0 1 1 0 state_tie).actual ∧
      within_capacity 3 (propose library_example graph_six 0 0 1 1 0 state_tie).actual :=
  ⟨by decide, by decide, by decide,
    ((steps_keep_complete graph_six 6 3 state_tie (by decide) (by decide)).1 2 1).1,
    ((steps_keep_complete graph_six 6 3 state_tie (by decide) (by decide)).1 2 1).2,
    ((steps_keep_complete graph_six 6 3 state_tie (by decide) (by decide)).2.1 4).1,
    ((steps_keep_complete graph_six 6 3 state_tie (by decide) (by decide)).2.2
      library_example 0 0 1 1 0 (by decide) (by decide) (by decide) (by decide)
      (by decide)).1,
    ((steps_keep_complete graph_six 6 3 state_tie (by decide) (by decide)).2.2
      library_example 0 0 1 1 0 (by decide) (by decide) (by decide) (by decide)
      (by decide)).2⟩

end Mh

/-! ## mh.cc: termination of solve_incompatibilities -/

namespace Mh

theorem random_day_loop_returns_at (lib : Library) (size day_to_solve : Nat) (j fuel draws : Nat)
    (hj : j < fuel) (hdraw : lib.rand (draws + j) % size ≠ day_to_solve) :
    ∃ r, random_day_loop lib size day_to_solve fuel draws = some r := by
  induction j generalizing fuel draws with
  | zero =>
    cases fuel with
    | zero => omega
    | succ fuel =>
      unfold random_day_loop
      rw [if_neg (by simpa using hdraw)]
      exact ⟨_, rfl⟩
  | succ j ih =>
    cases fuel with
    | zero => omega
    | succ fuel =>
      unfold random_day_loop
      split_ifs with h
      · exact ih fuel (draws + 1) (by omega) (by
          have : draws + 1 + j = draws + (j + 1) := by omega
          rw [this]
          exact hdraw)
      · exact ⟨_, rfl⟩

theorem random_day_loop_returns (lib : Library) (size bound day_to_solve fuel draws : Nat)
    (hfair : fair_draws lib size bound) (hday : day_to_solve < size) (hfuel : bound ≤ fuel) :
    ∃ r, random_day_loop lib size day_to_solve fuel draws = some r := by
  obtain ⟨j, hj, hdraw⟩ := hfair draws day_to_solve hday
  exact random_day_loop_returns_at lib size day_to_solve j fuel draws (by omega) hdraw

theorem random_day_loop_stuck (lib : Library) (size day_to_solve fuel draws : Nat)
    (hstuck : ∀ i, lib.rand i % size = day_to_solve) :
    random_day_loop lib size day_to_solve fuel draws = none := by
  induction fuel generalizing draws with
  | zero => rfl
  | succ fuel ih =>
    unfold random_day_loop
    rw [if_pos (hstuck draws)]
    exact ih (draws + 1)

theorem count_loop_cons_ge (relations_graph : Graph) (code film : Nat) (rest : List Nat) :
    count_loop relations_graph code rest ≤ count_loop relations_graph code (film :: rest) := by
  simp only [count_loop]
  omega

theorem conflicts_pos_exists (relations_graph : Graph) (row : List Nat)
    (h : 0 < conflicts relations_graph row) :
    ∃ i, i < row.length ∧ count_loop relations_graph (row.getD i 0) row ≠ 0 := by
  induction row with
  | nil => simp [conflicts] at h
  | cons a rest ih =>
    simp only [conflicts] at h
    by_cases h1 : 0 < count_loop relations_graph a rest
    · refine ⟨0, by simp, ?_⟩
      have := count_loop_cons_ge relations_graph a a rest
      simp only [List.getD_cons_zero]
      omega
    · obtain ⟨i, hi, hne⟩ := ih (by omega)
      refine ⟨i + 1, by simpa using hi, ?_⟩
      have := count_loop_cons_ge relations_graph (rest.getD i 0) a rest
      simp only [List.getD_cons_succ]
      omega

theorem first_incomp_pos (l : List Int) (i d : Nat) (h : first_incomp l i = some d) :
    i ≤ d ∧ 0 < l.getD (d - i) 0 := by
  induction l generalizing i with
  | nil => simp [first_incomp] at h
  | cons count rest ih =>
    unfold first_incomp at h
    split_ifs at h with h1
    · simp only [Option.some.injEq] at h
      subst h
      simpa using h1
    · obtain ⟨h2, h3⟩ := ih (i + 1) h
      refine ⟨by omega, ?_⟩
      have : d - i = (d - (i + 1)) + 1 := by omega
      rw [this, List.getD_cons_succ]
      exact h3

theorem first_incomp_exists (l : List Int) (i : Nat) (h : ∃ x ∈ l, 0 < x) :
    ∃ d, first_incomp l i = some d := by
  induction l generalizing i with
  | nil => simp at h
  | cons count rest ih =>
    unfold first_incomp
    split_ifs with h1
    · exact ⟨i, rfl⟩
    · apply ih
      obtain ⟨x, hx, hpos⟩ := h
      rcases List.mem_cons.1 hx with e | e
      · rw [e] at hpos
        exact absurd hpos h1
      · exact ⟨x, e, hpos⟩

theorem sum_pos_exists (l : List Int) (hnonneg : ∀ x ∈ l, 0 ≤ x) (h : 0 < l.sum) :
    ∃ x ∈ l, 0 < x := by
  induction l with
  | nil => simp at h
  | cons a rest ih =>
    by_cases ha : 0 < a
    · exact ⟨a, by simp, ha⟩
    · have h0 : a = 0 := by
        have := hnonneg a (by simp)
        omega
      simp only [List.sum_cons, h0, zero_add] at h
      obtain ⟨x, hx, hpos⟩ := ih (fun x hx => hnonneg x (List.mem_cons_of_mem _ hx)) h
      exact ⟨x, List.mem_cons_of_mem _ hx, hpos⟩

/-- With counters that agree with the schedule and a positive total, the first loop of
`solve_incompatibilities` finds a day of the schedule that holds a film with a conflict in
that day. -/
theorem first_incomp_conflict (relations_graph : Graph) (st : State)
    (hc : counts_ok relations_graph st) (hpos : 0 < st.incompatibilities) :
    ∃ d, first_incomp st.day_incomp 0 = some d ∧ d < st.actual.length ∧
      ∃ i, i < (day_row st.actual d).length ∧
        how_many_incompatibilities relations_graph st.actual d
          ((day_row st.actual d).getD i 0) ≠ 0 := by
  obtain ⟨h1, h2⟩ := hc
  have hnonneg : ∀ x ∈ st.day_incomp, 0 ≤ x := by
    intro x hx
    rw [h1] at hx
    obtain ⟨day, _, rfl⟩ := List.mem_map.1 hx
    exact Int.ofNat_nonneg _
  obtain ⟨d, hd⟩ := first_incomp_exists st.day_incomp 0
    (sum_pos_exists st.day_incomp hnonneg (by rw [← h2]; exact hpos))
  have hspec := first_incomp_spec st.day_incomp 0 d hd
  have hp := (first_incomp_pos st.day_incomp 0 d hd).2
  have hlen : st.day_incomp.length = st.actual.length := by
    rw [h1, List.length_map]
  have hdlt : d < st.actual.length := by omega
  refine ⟨d, hd, hdlt, ?_⟩
  have hval : st.day_incomp.getD d 0 = (conflicts relations_graph (day_row st.actual d) : Int) := by
    rw [h1, List.getD_eq_getElem _ _ (by rw [List.length_map]; exact hdlt), List.getElem_map,
      day_row, List.getD_eq_getElem _ _ hdlt]
  rw [Nat.sub_zero, hval] at hp
  exact conflicts_pos_exists relations_graph (day_row st.actual d) (by exact_mod_cast hp)

end Mh

namespace Mh

theorem anneal_inv_propose (lib : Library) (relations_graph : Graph)
    (hsym : symmetric relations_graph) (hirr : irreflexive relations_graph)
    (size rooms day_to_solve film_index random_day k draws : Nat) (st : State)
    (h : anneal_inv relations_graph size rooms st) (hds : day_to_solve < size)
    (hrd : random_day < size) (hne : random_day ≠ day_to_solve)
    (hfi : film_index < (day_row st.actual day_to_solve).length) :
    anneal_inv relations_graph size rooms
        (propose lib relations_graph day_to_solve film_index
          (how_many_incompatibilities relations_graph st.actual day_to_solve
            ((day_row st.actual day_to_solve).getD film_index 0))
          random_day k { st with draws := draws }) ∧
      ∀ i, (day_row (propose lib relations_graph day_to_solve film_index
          (how_many_incompatibilities relations_graph st.actual day_to_solve
            ((day_row st.actual day_to_solve).getD film_index 0))
          random_day k { st with draws := draws }).actual i).length
        = (day_row st.actual i).length := by
  obtain ⟨hc, hlen, hpos, hrooms⟩ := h
  have hp := propose_counts lib relations_graph hsym hirr day_to_solve film_index
    random_day k { st with draws := draws } hc (by rw [hlen]; exact hds)
    (by rw [hlen]; exact hrd) hne hfi (hpos random_day hrd)
  refine ⟨⟨hp.1, hp.2.1.trans hlen, ?_, ?_⟩, hp.2.2⟩
  · intro i hi
    rw [hp.2.2 i]
    exact hpos i hi
  · intro i
    rw [hp.2.2 i]
    exact hrooms i

/-- The loop over the films of the day to solve returns when every search for a different
day ends within the bound; it executes `T *= 0.999` at most once per film, and at least
once when a film of the day from `film_index` on has a conflict in the day. -/
theorem films_loop_returns (lib : Library) (relations_graph : Graph)
    (hsym : symmetric relations_graph) (hirr : irreflexive relations_graph)
    (size rooms bound day_to_solve fuel : Nat) (hfair : fair_draws lib size bound)
    (hfuel : bound ≤ fuel) (hds : day_to_solve < size)
    (steps film_index k : Nat) (st : State)
    (h : anneal_inv relations_graph size rooms st)
    (hsteps : film_index + steps = (day_row st.actual day_to_solve).length) :
    ∃ st1 k1,
      films_loop lib relations_graph day_to_solve fuel steps film_index k st = .done st1 k1 ∧
      anneal_inv relations_graph size rooms st1 ∧ k ≤ k1 ∧ k1 ≤ k + steps ∧
      ((∃ i, film_index ≤ i ∧ i < film_index + steps ∧
          how_many_incompatibilities relations_graph st.actual day_to_solve
            ((day_row st.actual day_to_solve).getD i 0) ≠ 0) → k + 1 ≤ k1) := by
  induction steps generalizing film_index k st with
  | zero =>
    refine ⟨st, k, rfl, h, Nat.le_refl _, Nat.le_refl _, ?_⟩
    rintro ⟨i, h1, h2, _⟩
    omega
  | succ steps ih =>
    unfold films_loop
    split_ifs with h1
    · obtain ⟨r, hr⟩ := random_day_loop_returns lib size bound day_to_solve fuel st.draws
        hfair hds hfuel
      obtain ⟨random_day, draws⟩ := r
      have hspec := random_day_loop_spec lib size day_to_solve fuel st.draws
        (random_day, draws) (by omega) hr
      rw [h.2.1, hr]
      dsimp only
      rw [if_neg (by have := h.2.2.1 random_day hspec.2; omega)]
      have hfi : film_index < (day_row st.actual day_to_solve).length := by omega
      have hp := anneal_inv_propose lib relations_graph hsym hirr size rooms day_to_solve
        film_index random_day k draws st h hds hspec.2 hspec.1 hfi
      obtain ⟨st1, k1, hrun, hinv, hk1, hk2, _⟩ := ih (film_index + 1) (k + 1) _ hp.1
        (by rw [hp.2 day_to_solve]; omega)
      exact ⟨st1, k1, hrun, hinv, by omega, by omega, fun _ => hk1⟩
    · obtain ⟨st1, k1, hrun, hinv, hk1, hk2, hk3⟩ := ih (film_index + 1) k st h (by omega)
      refine ⟨st1, k1, hrun, hinv, hk1, by omega, ?_⟩
      rintro ⟨i, hi1, hi2, hi3⟩
      apply hk3
      refine ⟨i, ?_, by omega, hi3⟩
      by_contra hlt
      have : i = film_index := by omega
      rw [this] at hi3
      exact h1 hi3

/-- The loop `while (incompatibilities > 0 and T > 0.0000005)` ends when `T` reaches the
floor within `n` more executions of `T *= 0.999`, given enough iterations. -/
theorem annealing_loop_returns (lib : Library) (relations_graph : Graph)
    (hsym : symmetric relations_graph) (hirr : irreflexive relations_graph)
    (size rooms bound cold : Nat) (hfair : fair_draws lib size bound) (hcool : cools lib cold)
    (n k fuel : Nat) (st : State) (h : anneal_inv relations_graph size rooms st)
    (hn : cold ≤ k + n) (hfuel : n + bound < fuel) (hk : k ≤ cold + rooms) :
    ∃ st1 k1, annealing_loop lib relations_graph fuel k st = .done st1 k1 ∧
      anneal_inv relations_graph size rooms st1 ∧
      (st1.incompatibilities = 0 ∨ lib.hot k1 = false) ∧ k1 ≤ cold + rooms ∧ k ≤ k1 ∧
      (0 < st.incompatibilities → lib.hot k = true → k + 1 ≤ k1) := by
  induction n generalizing k fuel st with
  | zero =>
    cases fuel with
    | zero => omega
    | succ fuel =>
      unfold annealing_loop
      have hcold : lib.hot k = false := hcool k (by omega)
      rw [if_neg (by simp [hcold])]
      refine ⟨st, k, rfl, h, Or.inr hcold, hk, Nat.le_refl _, ?_⟩
      intro _ hhot
      rw [hcold] at hhot
      exact absurd hhot Bool.false_ne_true
  | succ n ih =>
    cases fuel with
    | zero => omega
    | succ fuel =>
      unfold annealing_loop
      split_ifs with hcond
      · simp only [Bool.and_eq_true, decide_eq_true_eq] at hcond
        obtain ⟨d, hd, hdlt, hfilm⟩ := first_incomp_conflict relations_graph st h.1 hcond.1
        rw [hd]
        dsimp only
        rw [if_pos hdlt]
        have hds : d < size := by rw [← h.2.1]; exact hdlt
        obtain ⟨st1, k1, hrun, hinv, hk1, hk2, hk3⟩ := films_loop_returns lib relations_graph
          hsym hirr size rooms bound d fuel hfair (by omega) hds
          (day_row st.actual d).length 0 k st h (by omega)
        rw [hrun]
        dsimp only
        have hstep : k + 1 ≤ k1 := by
          obtain ⟨i, hi, hne⟩ := hfilm
          exact hk3 ⟨i, Nat.zero_le _, by omega, hne⟩
        have hklt : k < cold := by
          by_contra hge
          have := hcool k (by omega)
          rw [this] at hcond
          exact Bool.false_ne_true hcond.2
        have hrow := h.2.2.2 d
        obtain ⟨st2, k2, hrun2, hinv2, hexit, hbound, hmono, _⟩ :=
          ih k1 fuel st1 hinv (by omega) (by omega) (by omega)
        exact ⟨st2, k2, hrun2, hinv2, hexit, hbound, by omega, fun _ _ => by omega⟩
      · simp only [Bool.and_eq_true, decide_eq_true_eq, not_and, Bool.not_eq_true] at hcond
        refine ⟨st, k, rfl, h, ?_, hk, Nat.le_refl _, ?_⟩
        swap
        · intro hpos hhot
          rw [hcond hpos] at hhot
          exact absurd hhot Bool.false_ne_true
        by_cases hz : st.incompatibilities = 0
        · exact Or.inl hz
        · right
          apply hcond
          have h0 : 0 ≤ st.incompatibilities := by
            rw [h.1.2, h.1.1]
            exact sum_conflicts_nonneg relations_graph st.actual
          omega

end Mh

namespace Mh

theorem solve_incompatibilities_stuck (lib : Library) (relations_graph : Graph) (d : Nat)
    (st : State) (hpos : 0 < st.incompatibilities) (hhot : lib.hot 0 = true)
    (hd : first_incomp st.day_incomp 0 = some d) (hdlt : d < st.actual.length)
    (hrow : 0 < (day_row st.actual d).length)
    (hfirst : how_many_incompatibilities relations_graph st.actual d
      ((day_row st.actual d).getD 0 0) ≠ 0)
    (hstuck : ∀ i, lib.rand i % st.actual.length = d) (fuel : Nat) :
    solve_incompatibilities lib relations_graph fuel st = .timeout st := by
  cases fuel with
  | zero => rfl
  | succ fuel =>
    unfold solve_incompatibilities annealing_loop
    rw [if_pos (by simp [hpos, hhot]), hd]
    dsimp only
    rw [if_pos hdlt]
    obtain ⟨steps, hsteps⟩ : ∃ steps, (day_row st.actual d).length = steps + 1 :=
      ⟨(day_row st.actual d).length - 1, by omega⟩
    rw [hsteps]
    unfold films_loop
    rw [if_pos hfirst, random_day_loop_stuck lib st.actual.length d fuel st.draws hstuck]

/-- For a symmetric, irreflexive relation, a schedule without empty day and with counters
that agree with it, a stream of `rand()` values in which every search for a day other than
the day to solve ends within `bound` draws, and a temperature test that fails after `cold`
decays, `solve_incompatibilities` returns: the loop ends after at most `cold + rooms` swap
proposals (`rooms` bounding the films of a day) with zero conflicts or with the temperature
test failed, each pass of the loop that starts with conflicts and a temperature above the
floor proposing at least one swap. -/
theorem solve_incompatibilities_terminates (lib : Library) (relations_graph : Graph)
    (hsym : symmetric relations_graph) (hirr : irreflexive relations_graph)
    (cold bound rooms : Nat) (st : State) (hc : counts_ok relations_graph st)
    (hrows : ∀ day ∈ st.actual, 0 < day.length ∧ day.length ≤ rooms)
    (hfair : fair_draws lib st.actual.length bound) (hcool : cools lib cold)
    (fuel : Nat) (hfuel : cold + bound < fuel) :
    ∃ st0 k1 st1 b,
      annealing_loop lib relations_graph fuel 0 st = .done st0 k1 ∧
      (st0.incompatibilities = 0 ∨ lib.hot k1 = false) ∧ k1 ≤ cold + rooms ∧
      (0 < st.incompatibilities → lib.hot 0 = true → 1 ≤ k1) ∧
      solve_incompatibilities lib relations_graph fuel st = .done st1 b ∧
      (b = true ↔ st0.incompatibilities = 0) ∧ st1.actual = st0.actual ∧
      counts_ok relations_graph st1 := by
  have hinv : anneal_inv relations_graph st.actual.length rooms st := by
    refine ⟨hc, rfl, ?_, ?_⟩
    · intro i hi
      exact (hrows _ (day_row_mem st.actual i hi)).1
    · intro i
      by_cases hi : i < st.actual.length
      · exact (hrows _ (day_row_mem st.actual i hi)).2
      · rw [day_row_of_length_le st.actual i (by omega)]
        exact Nat.zero_le _
  obtain ⟨st0, k1, hrun, hinv0, hexit, hbound, _, hpass⟩ := annealing_loop_returns lib
    relations_graph hsym hirr st.actual.length rooms bound cold hfair hcool cold 0 fuel st
    hinv (by omega) hfuel (by omega)
  have hpass1 : 0 < st.incompatibilities → lib.hot 0 = true → 1 ≤ k1 := by
    intro h1 h2
    have := hpass h1 h2
    omega
  unfold solve_incompatibilities
  rw [hrun]
  dsimp only
  by_cases hz : st0.incompatibilities = 0
  · rw [if_pos hz]
    split_ifs
    · exact ⟨st0, k1, _, true, rfl, hexit, hbound, hpass1, rfl, by simp [hz], rfl, hinv0.1⟩
    · exact ⟨st0, k1, _, true, rfl, hexit, hbound, hpass1, rfl, by simp [hz], rfl, hinv0.1⟩
  · rw [if_neg hz]
    exact ⟨st0, k1, _, false, rfl, hexit, hbound, hpass1, rfl, by simp [hz], rfl, hinv0.1⟩

theorem fair_draws_library_example : fair_draws library_example 2 2 := by
  intro draws day_to_solve hday
  by_cases h : draws % 2 = day_to_solve
  · exact ⟨1, by omega, by show (draws + 1) % 2 ≠ day_to_solve; omega⟩
  · exact ⟨0, by omega, by show (draws + 0) % 2 ≠ day_to_solve; simpa using h⟩

theorem cools_library_example : cools library_example 50 := by
  intro k hk
  show decide (k < 50) = false
  simp
  omega

theorem solve_incompatibilities_terminates_example :
    symmetric graph_six ∧ irreflexive graph_six ∧ counts_ok graph_six state_swap ∧
      fair_draws library_example 2 2 ∧ cools library_example 50 ∧
      0 < state_swap.incompatibilities ∧
      ∃ st1 b, solve_incompatibilities library_example graph_six 53 state_swap
        = .done st1 b ∧ counts_ok graph_six st1 := by
  refine ⟨symmetric_graph_six, irreflexive_graph_six, by decide, fair_draws_library_example,
    cools_library_example, by decide, ?_⟩
  obtain ⟨_, _, st1, b, _, _, _, _, hrun, _, _, hc⟩ := solve_incompatibilities_terminates
    library_example graph_six symmetric_graph_six irreflexive_graph_six 50 2 2 state_swap
    (by decide) (by decide) fair_draws_library_example cools_library_example 53 (by decide)
  exact ⟨st1, b, hrun, hc⟩

end Mh

/-! ## read_data: the indices used, and undeclared names -/

theorem code_of_lt (films : List String) (name : String) (h : films ≠ []) :
    code_of films name < films.length := by
  unfold code_of
  split_ifs with hmem
  · exact List.indexOf_lt_length.2 hmem
  · exact List.length_pos.2 h

theorem read_film_checked_eq (n : Nat) (pre : List String)
    (st : List String × FilmCode × List Pair) (name : String)
    (hpre : prefix_ok pre st.2.1) (hlt : pre.length < n) (h1 : st.1.length = n)
    (h2 : st.2.2.length = n) :
    read_film_checked st name pre.length = some (read_film st name pre.length) ∧
      (read_film st name pre.length).1.length = n ∧
      (read_film st name pre.length).2.2.length = n := by
  have hc := film_code_index_prefix (pre ++ [name]) _ name
    (prefix_ok_insert pre st.2.1 name hpre) (by simp)
  have hidx : (pre ++ [name]).indexOf name < pre.length + 1 := by
    have := List.indexOf_lt_length.2 (show name ∈ pre ++ [name] by simp)
    simpa using this
  refine ⟨?_, ?_, ?_⟩
  · unfold read_film_checked
    rw [if_pos]
    rw [hc, h1, h2]
    exact ⟨hlt, by dsimp only; omega⟩
  · simp only [read_film, List.length_set]
    exact h1
  · simp only [read_film, List.length_set]
    exact h2

theorem read_films_checked_eq (n : Nat) (rest pre : List String)
    (st : List String × FilmCode × List Pair) (hn : (pre ++ rest).length = n)
    (hpre : prefix_ok pre st.2.1) (h1 : st.1.length = n) (h2 : st.2.2.length = n) :
    read_films_checked rest pre.length st = some (read_films rest pre.length st) ∧
      (read_films rest pre.length st).2.2.length = n := by
  induction rest generalizing pre st with
  | nil => exact ⟨rfl, h2⟩
  | cons name rest ih =>
    have hlt : pre.length < n := by
      rw [← hn]
      simp
    have hstep := read_film_checked_eq n pre st name hpre hlt h1 h2
    have hpre1 : prefix_ok (pre ++ [name]) (read_film st name pre.length).2.1 := by
      rw [read_film_film_code]
      exact prefix_ok_insert pre st.2.1 name hpre
    have h := ih (pre ++ [name]) (read_film st name pre.length) (by simpa using hn) hpre1
      hstep.2.1 hstep.2.2
    simp only [List.length_append, List.length_singleton] at h
    unfold read_films_checked read_films
    rw [hstep.1]
    exact h

theorem read_pair_checked_eq (films : List String) (hfilms : films ≠ [])
    (st : FilmCode × List Pair × Graph) (pair : String × String)
    (hcodes : codes_ok films st.1) (hlen : st.2.1.length = films.length)
    (hsq : square films.length st.2.2) :
    read_pair_checked st pair = some (read_pair st pair) ∧
      codes_ok films (read_pair st pair).1 ∧
      (read_pair st pair).2.1.length = films.length ∧
      square films.length (read_pair st pair).2.2 := by
  have h1 := film_code_index_codes films st.1 pair.1 hcodes
  have h2 := film_code_index_codes films (film_code_index st.1 pair.1).2 pair.2 h1.2
  have c1 := code_of_lt films pair.1 hfilms
  have c2 := code_of_lt films pair.2 hfilms
  have hsq1 := square_set_incompatible films.length st.2.2 (code_of films pair.1)
    (code_of films pair.2) hsq
  have hrow : ∀ (g : Graph) (a : Nat), square films.length g → a < films.length →
      (g.getD a []).length = films.length := by
    intro g a hg ha
    rw [List.getD_eq_getElem _ _ (by rw [hg.1]; exact ha)]
    exact hg.2 _ (List.getElem_mem _)
  refine ⟨?_, h2.2, ?_, ?_⟩
  · unfold read_pair_checked read_pair
    dsimp only
    rw [h1.1, h2.1]
    unfold add_restriction_checked set_incompatible_checked
    rw [if_pos (by rw [hlen]; exact c1)]
    dsimp only
    rw [if_pos (by rw [length_add_restriction, hlen]; exact c2)]
    dsimp only
    rw [if_pos ⟨by rw [hsq.1]; exact c1, by rw [hrow _ _ hsq c1]; exact c2⟩]
    dsimp only
    rw [if_pos ⟨by rw [hsq1.1]; exact c2, by rw [hrow _ _ hsq1 c2]; exact c1⟩]
  · simp only [read_pair, length_add_restriction]
    exact hlen
  · simp only [read_pair, h1.1, h2.1]
    exact square_set_incompatible _ _ _ _ hsq1

theorem read_pairs_checked_eq (films : List String) (hfilms : films ≠ [])
    (pairs : List (String × String)) (st : FilmCode × List Pair × Graph)
    (hcodes : codes_ok films st.1) (hlen : st.2.1.length = films.length)
    (hsq : square films.length st.2.2) :
    read_pairs_checked pairs st = some (pairs.foldl read_pair st) := by
  induction pairs generalizing st with
  | nil => rfl
  | cons pair rest ih =>
    have h := read_pair_checked_eq films hfilms st pair hcodes hlen hsq
    unfold read_pairs_checked
    rw [h.1]
    exact ih (read_pair st pair) h.2.1 h.2.2.1 h.2.2.2

theorem read_pairs_checked_none (pairs : List (String × String))
    (st : FilmCode × List Pair × Graph) (hpairs : pairs ≠ []) (hlen : st.2.1.length = 0) :
    read_pairs_checked pairs st = none := by
  cases pairs with
  | nil => exact absurd rfl hpairs
  | cons pair rest =>
    unfold read_pairs_checked read_pair_checked add_restriction_checked
    dsimp only
    rw [if_neg (by omega)]

/-- Where `read_data` has undefined behaviour: exactly when no film is declared and a pair is
listed (`restrictions[0]` on an empty vector). On every other input all indices are in range
and the data are those of `read_data`. -/
theorem read_data_checked_eq (sort : List Pair → List Pair) (input : Input) :
    read_data_checked sort input
      = if input.films = [] ∧ input.pairs ≠ [] then none
        else some (read_data sort input) := by
  have hfirst := read_films_checked_eq input.films.length input.films []
    (List.replicate input.films.length "", [], List.replicate input.films.length (0, 0))
    (by simp) (by intro name; simp) (by simp) (by simp)
  simp only [List.length_nil] at hfirst
  unfold read_data_checked
  dsimp only
  rw [hfirst.1]
  dsimp only
  by_cases hfilms : input.films = []
  · by_cases hpairs : input.pairs = []
    · rw [if_neg (fun h => h.2 hpairs)]
      simp only [hpairs, read_pairs_checked, read_data, List.foldl_nil]
    · rw [if_pos ⟨hfilms, hpairs⟩, read_pairs_checked_none input.pairs _ hpairs
        (by rw [hfirst.2, hfilms]; rfl)]
  · rw [if_neg (fun h => hfilms h.1), read_pairs_checked_eq input.films hfilms input.pairs _
      (read_films_codes input) hfirst.2 (square_replicate _)]
    rfl

theorem mh_length_read_films (rest : List String) (i : Nat) (st : List String × FilmCode) :
    (Mh.read_films rest i st).1.length = st.1.length := by
  induction rest generalizing i st with
  | nil => rfl
  | cons name rest ih =>
    unfold Mh.read_films
    rw [ih]
    simp [Mh.read_film]

theorem mh_read_films_checked_eq (rest : List String) (i : Nat) (st : List String × FilmCode)
    (h : i + rest.length ≤ st.1.length) :
    Mh.read_films_checked rest i st = some (Mh.read_films rest i st) := by
  induction rest generalizing i st with
  | nil => rfl
  | cons name rest ih =>
    simp only [List.length_cons] at h
    unfold Mh.read_films_checked Mh.read_films Mh.read_film_checked
    rw [if_pos (by omega)]
    exact ih (i + 1) (Mh.read_film st name i) (by simp only [Mh.read_film, List.length_set]; omega)

theorem mh_read_pair_checked_eq (films : List String) (hfilms : films ≠ [])
    (st : FilmCode × Graph) (pair : String × String)
    (hcodes : codes_ok films st.1) (hsq : square films.length st.2) :
    Mh.read_pair_checked st pair = some (Mh.read_pair st pair) ∧
      codes_ok films (Mh.read_pair st pair).1 ∧
      square films.length (Mh.read_pair st pair).2 := by
  have h1 := film_code_index_codes films st.1 pair.1 hcodes
  have h2 := film_code_index_codes films (film_code_index st.1 pair.1).2 pair.2 h1.2
  have c1 := code_of_lt films pair.1 hfilms
  have c2 := code_of_lt films pair.2 hfilms
  have hsq1 := square_set_incompatible films.length st.2 (code_of films pair.1)
    (code_of films pair.2) hsq
  have hrow : ∀ (g : Graph) (a : Nat), square films.length g → a < films.length →
      (g.getD a []).length = films.length := by
    intro g a hg ha
    rw [List.getD_eq_getElem _ _ (by rw [hg.1]; exact ha)]
    exact hg.2 _ (List.getElem_mem _)
  refine ⟨?_, h2.2, ?_⟩
  · unfold Mh.read_pair_checked Mh.read_pair
    dsimp only
    rw [h1.1, h2.1]
    unfold set_incompatible_checked
    rw [if_pos ⟨by rw [hsq.1]; exact c1, by rw [hrow _ _ hsq c1]; exact c2⟩]
    dsimp only
    rw [if_pos ⟨by rw [hsq1.1]; exact c2, by rw [hrow _ _ hsq1 c2]; exact c1⟩]
  · simp only [Mh.read_pair, h1.1, h2.1]
    exact square_set_incompatible _ _ _ _ hsq1

theorem mh_read_pairs_checked_eq (films : List String) (hfilms : films ≠ [])
    (pairs : List (String × String)) (st : FilmCode × Graph)
    (hcodes : codes_ok films st.1) (hsq : square films.length st.2) :
    Mh.read_pairs_checked pairs st = some (pairs.foldl Mh.read_pair st) := by
  induction pairs generalizing st with
  | nil => rfl
  | cons pair rest ih =>
    have h := mh_read_pair_checked_eq films hfilms st pair hcodes hsq
    unfold Mh.read_pairs_checked
    rw [h.1]
    exact ih (Mh.read_pair st pair) h.2.1 h.2.2

theorem mh_read_pairs_checked_none (pairs : List (String × String)) (st : FilmCode × Graph)
    (hpairs : pairs ≠ []) (hlen : st.2.length = 0) :
    Mh.read_pairs_checked pairs st = none := by
  cases pairs with
  | nil => exact absurd rfl hpairs
  | cons pair rest =>
    unfold Mh.read_pairs_checked Mh.read_pair_checked set_incompatible_checked
    dsimp only
    rw [if_neg (by omega)]

/-- Where `read_data` of `mh.cc` has undefined behaviour: exactly when no film is declared
and a pair is listed (`relations_graph[0][0]` on an empty vector). -/
theorem mh_read_data_checked_eq (input : Input) :
    Mh.read_data_checked input
      = if input.films = [] ∧ input.pairs ≠ [] then none
        else some (Mh.read_data input) := by
  have hfirst := mh_read_films_checked_eq input.films 0
    (List.replicate input.films.length "", []) (by simp)
  have hmap := mh_read_films_eq input.films 0
    (List.replicate input.films.length "", [], List.replicate input.films.length (0, 0))
  simp only at hmap
  unfold Mh.read_data_checked
  dsimp only
  rw [hfirst]
  dsimp only
  by_cases hfilms : input.films = []
  · by_cases hpairs : input.pairs = []
    · rw [if_neg (fun h => h.2 hpairs)]
      simp only [hpairs, Mh.read_pairs_checked, Mh.read_data, List.foldl_nil]
    · rw [if_pos ⟨hfilms, hpairs⟩, mh_read_pairs_checked_none input.pairs _ hpairs
        (by simp [hfilms])]
  · rw [if_neg (fun h => hfilms h.1), mh_read_pairs_checked_eq input.films hfilms input.pairs _
      (by rw [hmap]; exact read_films_codes input) (square_replicate _)]
    rfl

/-- C18 fails as stated: on films A, B with the pair (B, X), where X is not declared,
`read_data` does not fail: every index it uses is in range and it returns its data, in which
`film_code` has gained the entry (X, 0), the conflict is recorded between film 1 and film 0,
and the degree of both films is raised. -/
theorem read_data_undeclared_name :
    ¬ declared input_undeclared ∧
      (read_data_checked insertion_sort input_undeclared).map (fun data => data.film_code)
        = some [("A", 0), ("B", 1), ("X", 0)] ∧
      (read_data_checked insertion_sort input_undeclared).map
          (fun data => data.relations_graph)
        = some [[false, true], [true, false]] ∧
      (read_data_checked insertion_sort input_undeclared).map (fun data => data.restrictions)
        = some [(0, 1), (1, 1)] ∧
      (Mh.read_data_checked input_undeclared).map (fun data => data.film_code)
        = some [("A", 0), ("B", 1), ("X", 0)] ∧
      (Mh.read_data_checked input_undeclared).map (fun data => data.relations_graph)
        = some [[false, true], [true, false]] := by
  refine ⟨?_, by decide, by decide, by decide, by decide, by decide⟩
  intro h
  have h1 := (h ("B", "X") (by simp [input_undeclared])).2
  simp [input_undeclared] at h1

/-- C18 (amended): on every input that declares at least one film, whatever names its pair
list holds, `read_data` (of `exh.cc` and `greedy.cc`, and of `mh.cc`) does not fail: every
vector index it uses is in range and it returns its data, in which every declared name
keeps the index of its first declaration as its code and every pair of two declared names
is recorded as a conflict between their films, in both directions. With no declared film
and a non-empty pair list the first pair indexes empty vectors, which is undefined
behaviour. -/
theorem read_data_keeps_declared (sort : List Pair → List Pair) (input : Input) :
    (read_data_checked sort input
      = if input.films = [] ∧ input.pairs ≠ [] then none else some (read_data sort input)) ∧
    (Mh.read_data_checked input
      = if input.films = [] ∧ input.pairs ≠ [] then none else some (Mh.read_data input)) ∧
    (input.films ≠ [] →
      ∃ data mh_data, read_data_checked sort input = some data ∧
        Mh.read_data_checked input = some mh_data ∧
        mh_data.film_code = data.film_code ∧
        mh_data.relations_graph = data.relations_graph ∧
        data.n_films = input.films.length ∧
        (∀ name ∈ input.films,
          data.film_code.lookup name = some (input.films.indexOf name)) ∧
        ∀ pair ∈ input.pairs, pair.1 ∈ input.films → pair.2 ∈ input.films →
          incompatible data.relations_graph
              (input.films.indexOf pair.1) (input.films.indexOf pair.2) = true ∧
            incompatible data.relations_graph
              (input.films.indexOf pair.2) (input.films.indexOf pair.1) = true) := by
  refine ⟨read_data_checked_eq sort input, mh_read_data_checked_eq input, ?_⟩
  intro hfilms
  refine ⟨read_data sort input, Mh.read_data input, ?_, ?_,
    (mh_read_data_eq sort input).2.2.1, (mh_read_data_eq sort input).2.2.2, rfl, ?_, ?_⟩
  · rw [read_data_checked_eq, if_neg (fun h => hfilms h.1)]
  · rw [mh_read_data_checked_eq, if_neg (fun h => hfilms h.1)]
  · intro name hname
    have h := (read_pairs_codes input.films input.pairs
      ((read_films input.films 0 (List.replicate input.films.length "", [],
        List.replicate input.films.length (0, 0))).2.1,
       (read_films input.films 0 (List.replicate input.films.length "", [],
        List.replicate input.films.length (0, 0))).2.2,
       List.replicate input.films.length (List.replicate input.films.length false))
      (read_films_codes input)).1 name
    rcases h with h | ⟨_, h⟩
    · rw [(code_of_declared input.films name hname).1] at h
      exact h
    · exact absurd hname h
  · intro pair hp h1 h2
    have c1 := code_of_declared input.films pair.1 h1
    have c2 := code_of_declared input.films pair.2 h2
    rw [← c1.1, ← c2.1]
    exact ⟨(read_data_incompatible sort input _ _).2 ⟨pair, hp, c1.2, c2.2, Or.inl ⟨rfl, rfl⟩⟩,
      (read_data_incompatible sort input _ _).2 ⟨pair, hp, c1.2, c2.2, Or.inr ⟨rfl, rfl⟩⟩⟩

theorem read_data_keeps_declared_witness :
    ¬ declared input_undeclared ∧ input_undeclared.films ≠ [] ∧
      (∃ data mh_data, read_data_checked insertion_sort input_undeclared = some data ∧
        Mh.read_data_checked input_undeclared = some mh_data ∧
        mh_data.film_code = data.film_code ∧
        mh_data.relations_graph = data.relations_graph ∧
        data.n_films = input_undeclared.films.length ∧
        (∀ name ∈ input_undeclared.films,
          data.film_code.lookup name = some (input_undeclared.films.indexOf name)) ∧
        ∀ pair ∈ input_undeclared.pairs, pair.1 ∈ input_undeclared.films →
          pair.2 ∈ input_undeclared.films →
          incompatible data.relations_graph
              (input_undeclared.films.indexOf pair.1)
              (input_undeclared.films.indexOf pair.2) = true ∧
            incompatible data.relations_graph
              (input_undeclared.films.indexOf pair.2)
              (input_undeclared.films.indexOf pair.1) = true) ∧
      read_data_checked insertion_sort input_no_films = none ∧
      Mh.read_data_checked input_no_films = none := by
  refine ⟨by decide, by decide,
    (read_data_keeps_declared insertion_sort input_undeclared).2.2 (by decide), ?_, ?_⟩
  · have h := (read_data_keeps_declared insertion_sort input_no_films).1
    rw [if_pos (by decide)] at h
    exact h
  · have h := (read_data_keeps_declared insertion_sort input_no_films).2.1
    rw [if_pos (by decide)] at h
    exact h

/-! ## mh.cc: the run on two conflicting films and two rooms -/

namespace Mh

theorem GRASP_timeout_of_repair (lib : Library) (relations_graph : Graph)
    (n_CinRooms n_films fuel : Nat) (st : State) (start : Organization)
    (hstart : generate_initial_solution lib relations_graph n_CinRooms n_films = start)
    (hdays : ¬ start.length < st.best_days) (st2 : State)
    (h : repair_loop lib relations_graph n_CinRooms fuel
      { st with actual := start, incompatibilities := 0,
                day_incomp := List.replicate start.length 0 } = .timeout st2) :
    GRASP lib relations_graph n_CinRooms n_films (fuel + 1) st = .timeout st2 := by
  unfold GRASP
  dsimp only
  rw [hstart, if_neg hdays]
  dsimp only
  rw [h]

theorem repair_loop_timeout_of_improve (lib : Library) (relations_graph : Graph)
    (n_CinRooms fuel : Nat) (st st1 : State)
    (h : improve relations_graph n_CinRooms fuel st = .timeout st1) :
    repair_loop lib relations_graph n_CinRooms (fuel + 1) st = .timeout st1 := by
  unfold repair_loop
  rw [h]

theorem repair_loop_timeout_of_solve (lib : Library) (relations_graph : Graph)
    (n_CinRooms fuel : Nat) (st st1 st2 : State)
    (h1 : improve relations_graph n_CinRooms fuel st = .done st1 ())
    (h2 : solve_incompatibilities lib relations_graph fuel st1 = .timeout st2) :
    repair_loop lib relations_graph n_CinRooms (fuel + 1) st = .timeout st2 := by
  unfold repair_loop
  rw [h1]
  dsimp only
  rw [h2]

theorem run_conflict_two_rooms (lib : Library) (hshuffle : lib.shuffle [0, 1] = [1, 0])
    (fuel : Nat) (st2 : State)
    (h : repair_loop lib [[false, true], [true, false]] 2 fuel state_start = .timeout st2) :
    run lib [[false, true], [true, false]] 2 2 (fuel + 1) = .timeout st2 := by
  unfold run
  refine GRASP_timeout_of_repair lib _ 2 2 fuel _ [[1], [0]] ?_ (by decide) st2 h
  unfold generate_initial_solution
  rw [show List.range 2 = [0, 1] from rfl, hshuffle]
  rfl

theorem improve_conflict_two_rooms (extra : Nat) :
    improve [[false, true], [true, false]] 2 (extra + 2) state_start
      = .done state_after_improve () := rfl

end Mh

namespace Mh

theorem main_conflict_two_rooms (lib : Library) (fuel : Nat) :
    main lib input_conflict_two_rooms fuel = run lib [[false, true], [true, false]] 2 2 fuel := by
  have hg : (read_data input_conflict_two_rooms).relations_graph
      = [[false, true], [true, false]] := by decide
  unfold main
  dsimp only
  rw [hg]
  rfl

/-- C21 fails on `mh.cc`: on the input `2 A B 1 A B 2 R1 R2`, for every stream of `rand()`
values and every outcome of the acceptance test, `improve` moves film 0 next to film 1 and
removes the second day, and `solve_incompatibilities`, called on the one-day schedule
`[[1, 0]]` with counters that agree with it (one conflict), does not return: `rand() % 1` is
always the day to solve, so the search for another day never ends, for any bound on the
iterations. The run of `main` is cut in that call and writes nothing. -/
theorem main_hangs_in_solve_incompatibilities :
    (read_data input_conflict_two_rooms).relations_graph = [[false, true], [true, false]] ∧
    counts_ok [[false, true], [true, false]] state_after_improve ∧
    0 < state_after_improve.incompatibilities ∧
    (∀ rand accept fuel,
      solve_incompatibilities { library_example with rand := rand, accept := accept }
          [[false, true], [true, false]] fuel state_after_improve
        = .timeout state_after_improve) ∧
    (∀ rand accept fuel, ∃ st,
      main { library_example with rand := rand, accept := accept } input_conflict_two_rooms
          fuel = .timeout st ∧ st.written = []) ∧
    (∀ rand accept extra,
      main { library_example with rand := rand, accept := accept } input_conflict_two_rooms
          (extra + 4) = .timeout state_after_improve) := by
  have hstuck : ∀ rand accept fuel,
      solve_incompatibilities { library_example with rand := rand, accept := accept }
          [[false, true], [true, false]] fuel state_after_improve
        = .timeout state_after_improve := by
    intro rand accept fuel
    exact solve_incompatibilities_stuck _ _ 0 state_after_improve (by decide) rfl rfl
      (by decide) (by decide) (by decide) (fun i => Nat.mod_one _) fuel
  have hlong : ∀ rand accept extra,
      main { library_example with rand := rand, accept := accept } input_conflict_two_rooms
          (extra + 4) = .timeout state_after_improve := by
    intro rand accept extra
    rw [main_conflict_two_rooms]
    exact run_conflict_two_rooms _ rfl (extra + 3) _
      (repair_loop_timeout_of_solve _ _ 2 (extra + 2) state_start state_after_improve _
        (improve_conflict_two_rooms extra) (hstuck rand accept (extra + 2)))
  refine ⟨by decide, by decide, by decide, hstuck, ?_, hlong⟩
  intro rand accept fuel
  rcases fuel with _ | _ | _ | _ | extra
  · rw [main_conflict_two_rooms]
    exact ⟨_, rfl, rfl⟩
  · rw [main_conflict_two_rooms]
    exact ⟨_, run_conflict_two_rooms _ rfl 0 _ rfl, rfl⟩
  · rw [main_conflict_two_rooms]
    exact ⟨_, run_conflict_two_rooms _ rfl 1 _
      (repair_loop_timeout_of_improve _ _ 2 0 state_start _ rfl), rfl⟩
  · rw [main_conflict_two_rooms]
    exact ⟨_, run_conflict_two_rooms _ rfl 2 _
      (repair_loop_timeout_of_improve _ _ 2 1 state_start _ rfl), rfl⟩
  · exact ⟨_, hlong rand accept extra, rfl⟩

end Mh

